import Mathlib

/-!
# hexgrid: a shallow embedding of `hexgrid.go`, `findpath.go` and `findinrange.go`

Go `int` is embedded as `Int`.  The one product that can leave the 64-bit range
before any cell exists, the capacity `xdim*ydim` of `Generate`, is wrapped with
`wrapInt`.  A grid that exists in memory has fewer than `2^63` cells, so the
index `y*xdim + x` of an in-bounds cell is below `len(hexes)` and does not wrap;
index arithmetic is therefore exact.  Go `float64` costs are embedded as an
arbitrary linearly ordered ring `K` (exact arithmetic, no NaN and no
infinities): this is the "real-valued cost"
reading, and `K := Int` or `K := Rat` gives an executable instance.  A `*T` is
embedded as `Option T`, `none` being the nil pointer.  `sort.Sort` of the
standard library is a parameter `sortFn` of `FindPath`; its contract is
`SortContract`, and `insertionSort` is the concrete instance used to run the
model.
-/

namespace Hexgrid

/-! ## hexgrid.go -/

/-- Coordinate of a cell: `type Coord struct { X int; Y int }`. -/
structure Coord where
  X : Int
  Y : Int
deriving DecidableEq, Repr

/-- Grid container: `type HexGrid[T any] struct { xdim int; ydim int; hexes []T }`. -/
structure HexGrid (T : Type) where
  xdim : Int
  ydim : Int
  hexes : List T

/-- Result of running a piece of Go code in the model. -/
inductive Outcome (α : Type) where
  /-- The code returned normally. -/
  | done (a : α) : Outcome α
  /-- A run-time panic: index out of range or integer division by zero. -/
  | fault : Outcome α
  /-- The loop counter of the model ran out before the code returned. -/
  | timeout : Outcome α
deriving DecidableEq, Repr

/-- Slice read `s[i]` with a Go `int` index: `none` is the index-out-of-range panic. -/
def getIdx {α : Type} (s : List α) (i : Int) : Option α :=
  if i < 0 then none else s[i.toNat]?

/-- Slice write `s[i] = v` with a Go `int` index, for an index that is in range. -/
def setIdx {α : Type} (s : List α) (i : Int) (v : α) : List α :=
  s.set i.toNat v

variable {T : Type}

/-- Go `int` arithmetic on a 64-bit platform: the exact result wrapped to two's
complement, a value from `-2^63` to `2^63 - 1`. -/
def wrapInt (n : Int) : Int :=
  (n + 9223372036854775808) % 18446744073709551616 - 9223372036854775808

/-- Translation of `Generate`: `none` is the panic of `make` on a negative capacity, and
the capacity is the Go `int` product `xdim*ydim`, which wraps. The two loops append one
value per pair `(x, y)` with `0 <= y < ydim` and `0 <= x < xdim`. An allocation that the
machine cannot satisfy is not modelled: what is proved about the result of `Generate` is
proved for the calls that return. -/
def Generate (xdim ydim : Int) (initFn : Coord → T) : Option (HexGrid T) :=
  if wrapInt (xdim * ydim) < 0 then none
  else
    some
      { xdim := xdim
        ydim := ydim
        hexes := (List.range ydim.toNat).flatMap fun (y : Nat) =>
          (List.range xdim.toNat).map fun (x : Nat) => initFn ⟨Int.ofNat x, Int.ofNat y⟩ }

/-- Translation of `Dims`. -/
def HexGrid.Dims (g : HexGrid T) : Int × Int := (g.xdim, g.ydim)

/-- Translation of `xyToIndex`. -/
def HexGrid.xyToIndex (g : HexGrid T) (x y : Int) : Int := y * g.xdim + x

/-- Translation of `coordToIndex`. -/
def HexGrid.coordToIndex (g : HexGrid T) (coord : Coord) : Int :=
  g.xyToIndex coord.X coord.Y

/-- Translation of `indexToCoord`; `none` is the division-by-zero panic. Go's `%` and `/`
truncate towards zero. -/
def HexGrid.indexToCoord (g : HexGrid T) (i : Int) : Option Coord :=
  if g.xdim = 0 then none else some ⟨i.tmod g.xdim, i.tdiv g.xdim⟩

/-- Translation of `isInBounds`. -/
def HexGrid.isInBounds (g : HexGrid T) (coord : Coord) : Bool :=
  if coord.X < 0 ∨ coord.X ≥ g.xdim then false
  else if coord.Y < 0 ∨ coord.Y ≥ g.ydim then false
  else true

/-- Translation of `GetAtXY`; `none` is the nil pointer. On a grid built by `Generate` the
index is in range whenever the bounds test passes. -/
def HexGrid.GetAtXY (g : HexGrid T) (x y : Int) : Option T :=
  if x < 0 ∨ x ≥ g.xdim ∨ y < 0 ∨ y ≥ g.ydim then none
  else getIdx g.hexes (g.xyToIndex x y)

/-- Translation of `GetAt`. -/
def HexGrid.GetAt (g : HexGrid T) (coord : Coord) : Option T :=
  g.GetAtXY coord.X coord.Y

/-- Offset table of `GetNeighborsXY` for the branch `y%2 == 1`. -/
def oddOffsets : List (Int × Int) :=
  [(0, -1), (1, -1), (1, 0), (1, 1), (0, 1), (-1, 0)]

/-- Offset table of `GetNeighborsXY` for the other branch. -/
def evenOffsets : List (Int × Int) :=
  [(-1, -1), (0, -1), (1, 0), (0, 1), (-1, 1), (-1, 0)]

/-- Translation of `GetNeighborsXY`. Go's `%` truncates, so `y%2 == 1` is `Int.tmod`. -/
def HexGrid.GetNeighborsXY (g : HexGrid T) (x y : Int) : List Coord :=
  let offsets := if y.tmod 2 = 1 then oddOffsets else evenOffsets
  (offsets.map fun o => (⟨x + o.1, y + o.2⟩ : Coord)).filter g.isInBounds

/-- Translation of `GetNeighbors`. -/
def HexGrid.GetNeighbors (g : HexGrid T) (coord : Coord) : List Coord :=
  g.GetNeighborsXY coord.X coord.Y

/-! ## findpath.go -/

variable {K : Type}

/-- Search record: `type costData struct`. -/
structure costData (K : Type) where
  index : Int
  distSoFar : K
  estRemaining : K
  prevIndex : Int
deriving DecidableEq, Repr

/-- Translation of `estTotal`. -/
def costData.estTotal [LinearOrderedRing K] (pc : costData K) : K :=
  pc.distSoFar + pc.estRemaining

/-- Translation of `byScore.Less` on two elements: `a[i].estTotal() > a[j].estTotal()`. -/
def byScoreLess [LinearOrderedRing K] (a b : costData K) : Prop :=
  a.estTotal > b.estTotal

/-- Translation of `estDistance`. -/
def estDistance [LinearOrderedRing K] (start end_ : Coord) : K :=
  ((|start.X - end_.X| : Int) : K) + ((|start.Y - end_.Y| : Int) : K)

/-- Contract of `sort.Sort(byScore(stack))`: the slice is permuted, and afterwards no
element is `Less` than an element before it. -/
def SortContract [LinearOrderedRing K] (sortFn : List (costData K) → List (costData K)) : Prop :=
  ∀ l, (sortFn l).Perm l ∧ (sortFn l).Pairwise fun a b => ¬ byScoreLess b a

/-- Insert `a` into a slice sorted by `byScore`, after the elements it is not `Less` than. -/
def orderedInsert [LinearOrderedRing K] (a : costData K) : List (costData K) → List (costData K)
  | [] => [a]
  | b :: l => if a.estTotal > b.estTotal then a :: b :: l else b :: orderedInsert a l

/-- Stable insertion sort by `byScore`, the instance of `sort.Sort` used to run the model.
Go's `sort.Sort` is this insertion sort on a slice of at most 12 elements (at most 6 before
Go 1.19, where longer slices first get a gap-6 pass). -/
def insertionSort [LinearOrderedRing K] (l : List (costData K)) : List (costData K) :=
  l.reverse.foldr orderedInsert []

/-- Translation of the loop that walks the back-pointers (`findpath.go` lines 73-79). -/
def reconstruct (g : HexGrid T) (realCosts : List (costData K)) :
    Nat → costData K → List Coord → Outcome (List Coord)
  | 0, _, _ => Outcome.timeout
  | fuel + 1, node, finalPath =>
    match g.indexToCoord node.index with
    | none => Outcome.fault
    | some c =>
      if node.prevIndex = -1 then Outcome.done (finalPath ++ [c])
      else
        match getIdx realCosts node.prevIndex with
        | none => Outcome.fault
        | some node' => reconstruct g realCosts fuel node' (finalPath ++ [c])

/-- Translation of the loop over the neighbours of the popped cell (lines 86-108). -/
def pushNeighbors [LinearOrderedRing K] (g : HexGrid T) (costFn : Option T → Option T → K)
    (end_ : Coord) (realCosts : List (costData K)) (parent : costData K) (parentCoord : Coord) :
    List Coord → List (costData K) → Outcome (List (costData K))
  | [], stack => Outcome.done stack
  | neighbor :: rest, stack =>
    match getIdx realCosts (g.coordToIndex neighbor) with
    | none => Outcome.fault
    | some rc =>
      if rc.distSoFar ≥ 0 then
        pushNeighbors g costFn end_ realCosts parent parentCoord rest stack
      else
        let edgeCost := costFn (g.GetAt parentCoord) (g.GetAt neighbor)
        if edgeCost < 0 then
          pushNeighbors g costFn end_ realCosts parent parentCoord rest stack
        else
          pushNeighbors g costFn end_ realCosts parent parentCoord rest
            (stack ++ [⟨g.coordToIndex neighbor, parent.distSoFar + edgeCost,
              estDistance neighbor end_, parent.index⟩])

/-- Value returned by `FindPath`: `(float64, []Coord, error)`; `err = true` is the error
`no path exists`, `err = false` is `nil`. -/
structure PathResult (K : Type) where
  cost : K
  path : List Coord
  err : Bool
deriving DecidableEq, Repr

/-- Translation of the main loop of `FindPath` (lines 55-111); the top of the stack is the
last element of the slice. -/
def findPathLoop [LinearOrderedRing K] (sortFn : List (costData K) → List (costData K))
    (g : HexGrid T) (costFn : Option T → Option T → K) (end_ : Coord) (endIndex : Int) :
    Nat → List (costData K) → List (costData K) → Outcome (PathResult K)
  | 0, _, _ => Outcome.timeout
  | fuel + 1, realCosts, stack =>
    match stack.getLast? with
    | none => Outcome.done ⟨0, [], true⟩
    | some parent =>
      match getIdx realCosts parent.index with
      | none => Outcome.fault
      | some rc =>
        if rc.distSoFar ≥ 0 then
          findPathLoop sortFn g costFn end_ endIndex fuel realCosts stack.dropLast
        else
          let realCosts' := setIdx realCosts parent.index parent
          if parent.index = endIndex then
            match getIdx realCosts' endIndex with
            | none => Outcome.fault
            | some node =>
              match reconstruct g realCosts' (fuel + 1) node [] with
              | Outcome.done finalPath => Outcome.done ⟨node.distSoFar, finalPath, false⟩
              | Outcome.fault => Outcome.fault
              | Outcome.timeout => Outcome.timeout
          else
            match g.indexToCoord parent.index with
            | none => Outcome.fault
            | some parentCoord =>
              match pushNeighbors g costFn end_ realCosts' parent parentCoord
                  (g.GetNeighbors parentCoord) stack.dropLast with
              | Outcome.done stack' =>
                findPathLoop sortFn g costFn end_ endIndex fuel realCosts' (sortFn stack')
              | Outcome.fault => Outcome.fault
              | Outcome.timeout => Outcome.timeout

/-- Translation of `FindPath`. The first line of the body swaps `start` and `end`, so the
search runs from the caller's `end` towards the caller's `start`. -/
def HexGrid.FindPath [LinearOrderedRing K] (sortFn : List (costData K) → List (costData K))
    (fuel : Nat) (g : HexGrid T) (start end_ : Coord) (costFn : Option T → Option T → K) :
    Outcome (PathResult K) :=
  let (start, end_) := (end_, start)
  let realCosts : List (costData K) :=
    (List.range g.hexes.length).map fun (i : Nat) => ⟨Int.ofNat i, -1, -1, -1⟩
  let startIndex := g.coordToIndex start
  let endIndex := g.coordToIndex end_
  let stack : List (costData K) := [⟨startIndex, 0, estDistance start end_, -1⟩]
  findPathLoop sortFn g costFn end_ endIndex fuel realCosts stack

/-! ## findinrange.go -/

/-- Output record: `type RangeResult struct { Coord Coord; Dist float64 }`. -/
structure RangeResult (K : Type) where
  Coord : Coord
  Dist : K
deriving DecidableEq, Repr

/-- Map read `visitSet[c]` in its two-result form: `none` when the key is absent. -/
def mapGet (visitSet : List (Coord × K)) (c : Coord) : Option K :=
  visitSet.lookup c

/-- Map write `visitSet[c] = v`: the newest binding of a key shadows the older ones. -/
def mapSet (visitSet : List (Coord × K)) (c : Coord) (v : K) : List (Coord × K) :=
  (c, v) :: visitSet

/-- Translation of the loop over the neighbours of a candidate (`findinrange.go` lines
53-68): returns the new queue and the new visit set. -/
def visitNeighbors [LinearOrderedRing K] (g : HexGrid T) (costFn : Option T → Option T → K)
    (candidate : Coord) (candidateCost : K) :
    List Coord → List Coord → List (Coord × K) → List Coord × List (Coord × K)
  | [], queue, visitSet => (queue, visitSet)
  | neighbor :: rest, queue, visitSet =>
    match mapGet visitSet neighbor with
    | some _ => visitNeighbors g costFn candidate candidateCost rest queue visitSet
    | none =>
      let stepCost := costFn (g.GetAt candidate) (g.GetAt neighbor)
      if stepCost < 0 then
        visitNeighbors g costFn candidate candidateCost rest queue visitSet
      else
        visitNeighbors g costFn candidate candidateCost rest (queue ++ [neighbor])
          (mapSet visitSet neighbor (candidateCost + stepCost))

/-- Translation of the loop `for i := 0; i < len(queue); i++` of `FindInRange`. A missing
key reads as the zero value of `float64`. -/
def findInRangeLoop [LinearOrderedRing K] (g : HexGrid T) (maxRange : K) (includeSrc : Bool)
    (costFn : Option T → Option T → K) :
    Nat → Nat → List Coord → List (Coord × K) → List (RangeResult K) →
      Outcome (List (RangeResult K))
  | 0, _, _, _, _ => Outcome.timeout
  | fuel + 1, i, queue, visitSet, result =>
    match queue[i]? with
    | none => Outcome.done result
    | some candidate =>
      let candidateCost := (mapGet visitSet candidate).getD 0
      if candidateCost > maxRange then
        findInRangeLoop g maxRange includeSrc costFn fuel (i + 1) queue visitSet result
      else
        let result' :=
          if i ≠ 0 ∨ includeSrc = true then result ++ [⟨candidate, candidateCost⟩] else result
        let qv := visitNeighbors g costFn candidate candidateCost (g.GetNeighbors candidate)
          queue visitSet
        findInRangeLoop g maxRange includeSrc costFn fuel (i + 1) qv.1 qv.2 result'

/-- Translation of `FindInRange`. -/
def HexGrid.FindInRange [LinearOrderedRing K] (fuel : Nat) (g : HexGrid T) (start : Coord)
    (maxRange : K) (includeSrc : Bool) (costFn : Option T → Option T → K) :
    Outcome (List (RangeResult K)) :=
  findInRangeLoop g maxRange includeSrc costFn fuel 0 [start] [(start, 0)] []

/-! ## Specification vocabulary -/

/-- Invariant of a grid with at least one cell that `Generate` built: positive dimensions
and `len(hexes) = xdim * ydim`. -/
def HexGrid.WF (g : HexGrid T) : Prop :=
  0 < g.xdim ∧ 0 < g.ydim ∧ (g.hexes.length : Int) = g.xdim * g.ydim

/-- The search record stored at index `i` is locked in: the test `distSoFar >= 0` of
`FindPath` succeeds on it. -/
def Visited [LinearOrderedRing K] (rc : List (costData K)) (i : Int) : Prop :=
  ∃ n, getIdx rc i = some n ∧ 0 ≤ n.distSoFar

/-- Number of records of `realCosts` that are not locked in yet. -/
def unvisited [LinearOrderedRing K] (rc : List (costData K)) : Nat :=
  rc.countP fun n => decide (n.distSoFar < 0)

/-- `BackRoute g costFn S path d`: `path` lists cells from its head back to `S`; every cell
is a neighbour of the one after it in the list, the edge from the later list cell to the
earlier one has a non-negative cost, and `d` is the sum of these edge costs. -/
inductive BackRoute [LinearOrderedRing K] (g : HexGrid T) (costFn : Option T → Option T → K)
    (S : Coord) : List Coord → K → Prop
  | root : BackRoute g costFn S [S] 0
  | step {p c : Coord} {l : List Coord} {d : K} :
      BackRoute g costFn S (p :: l) d → g.isInBounds p = true → c ∈ g.GetNeighbors p →
      0 ≤ costFn (g.GetAt p) (g.GetAt c) →
      BackRoute g costFn S (c :: p :: l) (d + costFn (g.GetAt p) (g.GetAt c))

/-- `Traced g costFn S rc node path`: following the back-pointers of `node` through the
records of `rc` visits exactly the cells of `path`, ending at the search origin `S`. -/
inductive Traced [LinearOrderedRing K] (g : HexGrid T) (costFn : Option T → Option T → K)
    (S : Coord) (rc : List (costData K)) : costData K → List Coord → Prop
  | root {node : costData K} :
      node.index = g.coordToIndex S → node.prevIndex = -1 → node.distSoFar = 0 →
      Traced g costFn S rc node [S]
  | step {node pn : costData K} {p c : Coord} {l : List Coord} :
      node.prevIndex ≠ -1 → getIdx rc node.prevIndex = some pn → 0 ≤ pn.distSoFar →
      Traced g costFn S rc pn (p :: l) →
      g.isInBounds c = true → node.index = g.coordToIndex c → c ∈ g.GetNeighbors p →
      0 ≤ costFn (g.GetAt p) (g.GetAt c) →
      node.distSoFar = pn.distSoFar + costFn (g.GetAt p) (g.GetAt c) →
      Traced g costFn S rc node (c :: p :: l)

/-- Loop invariant of the main loop of `FindPath`, for the search that runs from `S` (the
caller's `end`) to `E` (the caller's `start`). -/
structure PathInv [LinearOrderedRing K] (g : HexGrid T) (costFn : Option T → Option T → K)
    (S E : Coord) (rc stack : List (costData K)) : Prop where
  len : rc.length = g.hexes.length
  vis : ∀ i n, getIdx rc i = some n → 0 ≤ n.distSoFar →
    n.index = i ∧ ∃ path, Traced g costFn S rc n path ∧ path.length + unvisited rc ≤ rc.length
  stk : ∀ e ∈ stack, ∃ path, Traced g costFn S rc e path ∧
    path.length + unvisited rc ≤ rc.length + 1
  goal : ¬ Visited rc (g.coordToIndex E)
  src : Visited rc (g.coordToIndex S) ∨ ∃ e ∈ stack, e.index = g.coordToIndex S
  closed : ∀ p c, g.isInBounds p = true → Visited rc (g.coordToIndex p) →
    c ∈ g.GetNeighbors p → 0 ≤ costFn (g.GetAt p) (g.GetAt c) →
    Visited rc (g.coordToIndex c) ∨ ∃ e ∈ stack, e.index = g.coordToIndex c

/-- What the main loop of `FindPath` returns: either a back route from `E` to `S` with its
cost, or the error with cost 0 and no path when no back route from `E` to `S` exists. -/
def PathPost [LinearOrderedRing K] (g : HexGrid T) (costFn : Option T → Option T → K)
    (S E : Coord) (r : PathResult K) : Prop :=
  (r.err = false ∧ r.path.head? = some E ∧ BackRoute g costFn S r.path r.cost) ∨
  (r.err = true ∧ r.cost = 0 ∧ r.path = [] ∧
    ¬ ∃ l d, BackRoute g costFn S (E :: l) d)

/-- Uniform 4x4 grid of the repository's tests: every cell holds 1. -/
def uniformGrid : HexGrid Int := ⟨4, 4, List.replicate 16 1⟩

/-- Cost function of the repository's tests: `return *hexB`, the value of the cell the
step enters (0 stands in for a nil pointer, which the tests never pass). -/
def enterCost : Option Int → Option Int → Int := fun _ hexB => hexB.getD 0

/-- Cost function that charges 1 for every step. -/
def unitCost [LinearOrderedRing K] : Option T → Option T → K := fun _ _ => 1

/-- Forward traversal cost of a path: the sum over consecutive pairs of
`costFn(payload(path[i]), payload(path[i+1]))`. -/
def pathCost [LinearOrderedRing K] (g : HexGrid T) (costFn : Option T → Option T → K) :
    List Coord → K
  | [] => 0
  | [_] => 0
  | a :: b :: l => costFn (g.GetAt a) (g.GetAt b) + pathCost g costFn (b :: l)

/-- Backward traversal cost of a path: the sum over consecutive pairs of
`costFn(payload(path[i+1]), payload(path[i]))`. -/
def pathCostRev [LinearOrderedRing K] (g : HexGrid T) (costFn : Option T → Option T → K) :
    List Coord → K
  | [] => 0
  | [_] => 0
  | a :: b :: l => costFn (g.GetAt b) (g.GetAt a) + pathCostRev g costFn (b :: l)

/-- A passable route from `a` to `b`: in-bounds cells `a = c0, c1, ..., cn = b` with `n ≥ 0`
in which each `c(k+1)` is in `GetNeighbors(c(k))` and
`costFn(payload(c(k)), payload(c(k+1)))` is not negative. -/
def PassableRoute [LinearOrderedRing K] (g : HexGrid T) (costFn : Option T → Option T → K)
    (a b : Coord) (cs : List Coord) : Prop :=
  cs.head? = some a ∧ cs.getLast? = some b ∧ (∀ c ∈ cs, g.isInBounds c = true) ∧
    ∀ (k : Nat) (c c' : Coord), cs[k]? = some c → cs[k + 1]? = some c' →
      c' ∈ g.GetNeighbors c ∧ 0 ≤ costFn (g.GetAt c) (g.GetAt c')

/-- Small test grid: 2 columns, 3 rows, every cell holds 1. -/
def smallGrid : HexGrid Int := ⟨2, 3, List.replicate 6 1⟩

/-- The 4x4 grid of the test `No available path`: row 1 is impassable. -/
def blockedGrid : HexGrid Int :=
  ⟨4, 4, [1, 1, 1, 1, -1, -1, -1, -1, 3, 1, 3, 1, 3, 1, 1, 1]⟩

/-- `HexSteps g a b n`: `b` is reached from `a` in `n` steps, each to a cell of
`GetNeighbors` of the current cell. -/
inductive HexSteps (g : HexGrid T) : Coord → Coord → Nat → Prop
  | refl (a : Coord) : HexSteps g a a 0
  | step {a c b : Coord} {n : Nat} :
      c ∈ g.GetNeighbors a → HexSteps g c b n → HexSteps g a b (n + 1)

/-- Hex-grid distance: the smallest number of `GetNeighbors` steps leading from `a` to `b`. -/
def IsHexDistance (g : HexGrid T) (a b : Coord) (d : Nat) : Prop :=
  HexSteps g a b d ∧ ∀ n, HexSteps g a b n → d ≤ n

/-- Two-cell grid with different payloads: (0,0) holds 5 and (1,0) holds 7. -/
def pairGrid : HexGrid Int := ⟨2, 1, [5, 7]⟩

/-- The 4x4 grid of the test `Verify that negative numbers are impassable`. -/
def wallGrid : HexGrid Int :=
  ⟨4, 4, [1, 1, 1, 1, -1, -1, -1, 1, -1, 1, -1, 1, -1, 1, 1, 1]⟩

/-- Loop invariant of `FindInRange` at the head of iteration `i`. -/
structure RangeInv [LinearOrderedRing K] (g : HexGrid T) (start : Coord) (maxRange : K)
    (includeSrc : Bool) (i : Nat) (queue : List Coord) (visitSet : List (Coord × K))
    (result : List (RangeResult K)) : Prop where
  nodup : queue.Nodup
  keys : ∀ c, (mapGet visitSet c).isSome = true ↔ c ∈ queue
  head : queue.head? = some start
  tailIn : ∀ c ∈ queue.tail, g.isInBounds c = true
  idx : i ≤ queue.length
  sub : (result.map RangeResult.Coord).Sublist
    ((queue.take i).drop (if includeSrc = true then 0 else 1))
  dist : ∀ p ∈ result, p.Dist ≤ maxRange
/-- The 4x4 grid of the test `Nonuniform costs` of `FindInRange`. -/
def hillGrid : HexGrid Int :=
  ⟨4, 4, [1, 1, 5, 1, 9, 1, 5, 1, 1, 1, 3, 1, 9, 9, 1, 1]⟩

/-- Map read `visitSet[c]` in its one-result form: a missing key reads as 0. -/
def distOf [LinearOrderedRing K] (visitSet : List (Coord × K)) (c : Coord) : K :=
  (mapGet visitSet c).getD 0

/-- The 4x4 grid of the test `Verify that 0's are legal parts of the path`: it has
zero-cost cells next to each other. -/
def zeroGrid : HexGrid Int :=
  ⟨4, 4, [1, 1, 1, 1, 0, 1, 1, 1, 0, 1, 0, 1, 0, 1, 1, 1]⟩
/-- The six candidate neighbours of a coordinate, in offset-table order, before
`GetNeighborsXY` filters them by `isInBounds`. -/
def candidates (c : Coord) : List Coord :=
  (if c.Y.tmod 2 = 1 then oddOffsets else evenOffsets).map fun o => (⟨c.X + o.1, c.Y + o.2⟩ : Coord)

/-- The 3x3 grid of the test `TestGetNeighbors`, every cell holding 0. -/
def nineGrid : HexGrid Int := ⟨3, 3, List.replicate 9 0⟩

/-- Coordinates of an `xdim` by `ydim` grid in row-major order: `y` outer, `x` inner. -/
def rowMajor (xdim ydim : Int) : List Coord :=
  (List.range ydim.toNat).flatMap fun (y : Nat) =>
    (List.range xdim.toNat).map fun (x : Nat) => (⟨Int.ofNat x, Int.ofNat y⟩ : Coord)

/-- Loop invariant of `FindInRange` with `includeSrc = true` for an arbitrary cost function:
every queued cell other than `start` was enqueued by a cell of the result, and every result
pair is the cost of a passable route from `start` through result cells. -/
structure ParentInv [LinearOrderedRing K] (g : HexGrid T) (costFn : Option T → Option T → K)
    (start : Coord) (maxRange : K) (i : Nat) (queue : List Coord)
    (visitSet : List (Coord × K)) (result : List (RangeResult K)) : Prop where
  base : RangeInv g start maxRange true i queue visitSet result
  origin : start ∈ queue ∧ distOf visitSet start = 0
  res : ∀ c d, (⟨c, d⟩ : RangeResult K) ∈ result ↔
    c ∈ queue.take i ∧ d = distOf visitSet c ∧ d ≤ maxRange
  parent : ∀ c ∈ queue, c ≠ start →
    ∃ p, (⟨p, distOf visitSet p⟩ : RangeResult K) ∈ result ∧ c ∈ g.GetNeighbors p ∧
      0 ≤ costFn (g.GetAt p) (g.GetAt c) ∧
      distOf visitSet c = distOf visitSet p + costFn (g.GetAt p) (g.GetAt c)
  route : ∀ c d, (⟨c, d⟩ : RangeResult K) ∈ result →
    ∃ l, BackRoute g costFn start (c :: l) d ∧
      ∀ x ∈ c :: l, x ∈ result.map RangeResult.Coord

/-- A 2x2 grid with one expensive cell: (1,0) holds 5, the other cells hold 1. -/
def detourGrid : HexGrid Int := ⟨2, 2, [1, 5, 1, 1]⟩

/-- Second invariant of the main loop of `FindPath`, used when every passable step costs at
least 2: the stack is in the order `sort.Sort(byScore(stack))` leaves it in, every entry
carries the estimate of its own cell, every locked record holds a cost no back route to its
cell beats, the origin is locked or still on the stack at cost 0, and every passable
neighbour of a locked cell is locked or on the stack at the cost of the step from that
cell. -/
structure OptInv [LinearOrderedRing K] (g : HexGrid T) (costFn : Option T → Option T → K)
    (S E : Coord) (rc stack : List (costData K)) : Prop where
  sorted : stack.Pairwise fun a b => ¬ byScoreLess b a
  est : ∀ e ∈ stack, ∃ c, g.isInBounds c = true ∧ e.index = g.coordToIndex c ∧
    e.estRemaining = estDistance c E
  best : ∀ c n, g.isInBounds c = true → getIdx rc (g.coordToIndex c) = some n →
    0 ≤ n.distSoFar → ∀ l d, BackRoute g costFn S (c :: l) d → n.distSoFar ≤ d
  origin : Visited rc (g.coordToIndex S) ∨
    ∃ e ∈ stack, e.index = g.coordToIndex S ∧ e.distSoFar = 0
  frontier : ∀ p c n, g.isInBounds p = true → getIdx rc (g.coordToIndex p) = some n →
    0 ≤ n.distSoFar → c ∈ g.GetNeighbors p → 0 ≤ costFn (g.GetAt p) (g.GetAt c) →
    Visited rc (g.coordToIndex c) ∨ ∃ e ∈ stack, e.index = g.coordToIndex c ∧
      e.distSoFar = n.distSoFar + costFn (g.GetAt p) (g.GetAt c)

/-- A 3x3 grid whose cells hold -1 (impassable with the cost function of the tests) or a
value of at least 2. -/
def tollGrid : HexGrid Int := ⟨3, 3, [2, -1, 2, 2, 5, 2, 2, 2, 3]⟩

/-- The 3x2 grid that `Generate` builds from the initializer `x + 10 * y`. -/
def numberedGrid : HexGrid Int := ⟨3, 2, [0, 1, 2, 10, 11, 12]⟩

/-- Third invariant of the main loop of `FindPath`, used when every step costs 1: the stack
is in the order `sort.Sort(byScore(stack))` leaves it in, every entry carries the estimate
of its own cell, the cost of every locked record plus the estimate of its cell is at most
the estimate of the origin, the origin is locked or still on the stack at cost 0, and every
passable neighbour of a locked cell is locked or on the stack at the cost of the step from
that cell. -/
structure BoundInv [LinearOrderedRing K] (g : HexGrid T) (costFn : Option T → Option T → K)
    (S E : Coord) (rc stack : List (costData K)) : Prop where
  sorted : stack.Pairwise fun a b => ¬ byScoreLess b a
  est : ∀ e ∈ stack, ∃ c, g.isInBounds c = true ∧ e.index = g.coordToIndex c ∧
    e.estRemaining = estDistance c E
  bound : ∀ c n, g.isInBounds c = true → getIdx rc (g.coordToIndex c) = some n →
    0 ≤ n.distSoFar → n.distSoFar + estDistance c E ≤ estDistance S E
  origin : Visited rc (g.coordToIndex S) ∨
    ∃ e ∈ stack, e.index = g.coordToIndex S ∧ e.distSoFar = 0
  frontier : ∀ p c n, g.isInBounds p = true → getIdx rc (g.coordToIndex p) = some n →
    0 ≤ n.distSoFar → c ∈ g.GetNeighbors p → 0 ≤ costFn (g.GetAt p) (g.GetAt c) →
    Visited rc (g.coordToIndex c) ∨ ∃ e ∈ stack, e.index = g.coordToIndex c ∧
      e.distSoFar = n.distSoFar + costFn (g.GetAt p) (g.GetAt c)

/-- `PassSteps g costFn a b n`: `b` is reached from `a` in `n` steps, each to a cell of
`GetNeighbors` of the current cell over an edge whose cost is not negative. -/
inductive PassSteps [LinearOrderedRing K] (g : HexGrid T) (costFn : Option T → Option T → K) :
    Coord → Coord → Nat → Prop
  | refl (a : Coord) : PassSteps g costFn a a 0
  | step {a c b : Coord} {n : Nat} :
      c ∈ g.GetNeighbors a → 0 ≤ costFn (g.GetAt a) (g.GetAt c) →
      PassSteps g costFn c b n → PassSteps g costFn a b (n + 1)

/-- Loop invariant of `FindInRange` with `includeSrc = true` when every passable step costs
the same value `k`: the queue is in breadth-first order, and the cost of a queued cell is
`k` times the number of steps of a passable walk from `start`. -/
structure LayerInv [LinearOrderedRing K] (g : HexGrid T) (costFn : Option T → Option T → K)
    (k : K) (start : Coord) (maxRange : K) (i : Nat) (queue : List Coord)
    (visitSet : List (Coord × K)) (result : List (RangeResult K)) : Prop where
  base : RangeInv g start maxRange true i queue visitSet result
  origin : start ∈ queue ∧ distOf visitSet start = 0
  walk : ∀ c ∈ queue, ∃ n : Nat, mapGet visitSet c = some ((n : K) * k) ∧
    PassSteps g costFn start c n
  mono : queue.Pairwise fun a b => distOf visitSet a ≤ distOf visitSet b
  near : ∀ u ∈ queue.drop i, ∀ c ∈ queue, distOf visitSet c ≤ distOf visitSet u + k
  closed : ∀ a ∈ queue.take i, distOf visitSet a ≤ maxRange →
    ∀ c ∈ g.GetNeighbors a, 0 ≤ costFn (g.GetAt a) (g.GetAt c) →
      c ∈ queue ∧ distOf visitSet c ≤ distOf visitSet a + k
  res : ∀ c d, (⟨c, d⟩ : RangeResult K) ∈ result ↔
    c ∈ queue.take i ∧ d = distOf visitSet c ∧ d ≤ maxRange

/-! ## Theorems -/

/-! ### Grid storage and adjacency -/

theorem isInBounds_iff (g : HexGrid T) (c : Coord) :
    g.isInBounds c = true ↔ 0 ≤ c.X ∧ c.X < g.xdim ∧ 0 ≤ c.Y ∧ c.Y < g.ydim := by
  unfold HexGrid.isInBounds
  by_cases h1 : c.X < 0 ∨ c.X ≥ g.xdim
  · simp only [h1, if_true]
    constructor
    · intro h; exact absurd h (by simp)
    · intro h; omega
  · by_cases h2 : c.Y < 0 ∨ c.Y ≥ g.ydim
    · simp only [h1, h2, if_true, if_false]
      constructor
      · intro h; exact absurd h (by simp)
      · intro h; omega
    · simp only [h1, h2, if_false]
      constructor
      · intro _; omega
      · intro _; trivial

theorem generate_fields {xdim ydim : Int} {initFn : Coord → T} {g : HexGrid T}
    (h : Generate xdim ydim initFn = some g) :
    g.xdim = xdim ∧ g.ydim = ydim ∧ 0 ≤ wrapInt (xdim * ydim) ∧
      g.hexes = (List.range ydim.toNat).flatMap (fun (y : Nat) =>
        (List.range xdim.toNat).map fun (x : Nat) => initFn ⟨Int.ofNat x, Int.ofNat y⟩) ∧
      g.hexes.length = ydim.toNat * xdim.toNat := by
  unfold Generate at h
  split at h
  · exact absurd h (by simp)
  · rename_i hneg
    have hg := Option.some.inj h
    subst hg
    refine ⟨rfl, rfl, not_lt.1 hneg, rfl, ?_⟩
    simp [List.length_flatMap, Function.comp_def]

theorem generate_wf {xdim ydim : Int} {initFn : Coord → T} {g : HexGrid T}
    (h : Generate xdim ydim initFn = some g) {c : Coord} (hc : g.isInBounds c = true) :
    g.WF := by
  obtain ⟨hx, hy, _, _, hlen⟩ := generate_fields h
  rw [isInBounds_iff] at hc
  have hxp : 0 < g.xdim := by omega
  have hyp : 0 < g.ydim := by omega
  refine ⟨hxp, hyp, ?_⟩
  rw [hlen, hx, hy] at *
  push_cast
  rw [Int.toNat_of_nonneg (le_of_lt hxp), Int.toNat_of_nonneg (le_of_lt hyp)]
  ring

theorem coordToIndex_range {g : HexGrid T} (hg : g.WF) {c : Coord}
    (hc : g.isInBounds c = true) :
    0 ≤ g.coordToIndex c ∧ g.coordToIndex c < (g.hexes.length : Int) := by
  obtain ⟨hx, hy, hlen⟩ := hg
  rw [isInBounds_iff] at hc
  obtain ⟨h1, h2, h3, h4⟩ := hc
  unfold HexGrid.coordToIndex HexGrid.xyToIndex
  have hm : 0 ≤ c.Y * g.xdim := mul_nonneg h3 (le_of_lt hx)
  have hm2 : (c.Y + 1) * g.xdim ≤ g.ydim * g.xdim :=
    mul_le_mul_of_nonneg_right (by omega) (le_of_lt hx)
  constructor
  · omega
  · rw [hlen]
    nlinarith

theorem indexToCoord_coordToIndex {g : HexGrid T} (hg : g.WF) {c : Coord}
    (hc : g.isInBounds c = true) :
    g.indexToCoord (g.coordToIndex c) = some c := by
  have hr := coordToIndex_range hg hc
  obtain ⟨hx, hy, hlen⟩ := hg
  rw [isInBounds_iff] at hc
  obtain ⟨h1, h2, h3, h4⟩ := hc
  unfold HexGrid.indexToCoord
  rw [if_neg (by omega)]
  rw [Int.tmod_eq_emod hr.1 (le_of_lt hx), Int.tdiv_eq_ediv hr.1 (le_of_lt hx)]
  unfold HexGrid.coordToIndex HexGrid.xyToIndex
  have e1 : (c.Y * g.xdim + c.X) % g.xdim = c.X := by
    rw [add_comm, Int.add_mul_emod_self, Int.emod_eq_of_lt h1 h2]
  have e2 : (c.Y * g.xdim + c.X) / g.xdim = c.Y := by
    rw [add_comm, Int.add_mul_ediv_right _ _ (by omega), Int.ediv_eq_zero_of_lt h1 h2]
    simp
  rw [e1, e2]

theorem indexToCoord_of_range {g : HexGrid T} (hg : g.WF) {i : Int}
    (h0 : 0 ≤ i) (h1 : i < (g.hexes.length : Int)) :
    ∃ c, g.indexToCoord i = some c ∧ g.isInBounds c = true ∧ g.coordToIndex c = i := by
  obtain ⟨hx, hy, hlen⟩ := hg
  refine ⟨⟨i % g.xdim, i / g.xdim⟩, ?_, ?_, ?_⟩
  · unfold HexGrid.indexToCoord
    rw [if_neg (by omega), Int.tmod_eq_emod h0 (le_of_lt hx), Int.tdiv_eq_ediv h0 (le_of_lt hx)]
  · rw [isInBounds_iff]
    refine ⟨Int.emod_nonneg _ (by omega), Int.emod_lt_of_pos _ hx,
      Int.ediv_nonneg h0 (le_of_lt hx), ?_⟩
    show i / g.xdim < g.ydim
    rw [Int.ediv_lt_iff_lt_mul hx]
    rw [hlen] at h1
    linarith [mul_comm g.xdim g.ydim]
  · unfold HexGrid.coordToIndex HexGrid.xyToIndex
    show i / g.xdim * g.xdim + i % g.xdim = i
    rw [mul_comm]
    exact Int.ediv_add_emod i g.xdim

theorem coordToIndex_inj {g : HexGrid T} (hg : g.WF) {a b : Coord}
    (ha : g.isInBounds a = true) (hb : g.isInBounds b = true)
    (h : g.coordToIndex a = g.coordToIndex b) : a = b := by
  have h1 := indexToCoord_coordToIndex hg ha
  have h2 := indexToCoord_coordToIndex hg hb
  rw [h] at h1
  rw [h1] at h2
  exact Option.some.inj h2

theorem mem_GetNeighbors_inBounds {g : HexGrid T} {a b : Coord}
    (h : b ∈ g.GetNeighbors a) : g.isInBounds b = true := by
  unfold HexGrid.GetNeighbors HexGrid.GetNeighborsXY at h
  exact (List.mem_filter.mp h).2

theorem tmod_two_of_nonneg {y : Int} (h : 0 ≤ y) : y.tmod 2 = y % 2 :=
  Int.tmod_eq_emod h (by decide)

theorem mem_GetNeighbors_odd {g : HexGrid T} {a b : Coord} (hy : 0 ≤ a.Y) (hp : a.Y % 2 = 1) :
    b ∈ g.GetNeighbors a ↔ g.isInBounds b = true ∧
      ((b.X = a.X ∧ b.Y = a.Y - 1) ∨ (b.X = a.X + 1 ∧ b.Y = a.Y - 1) ∨
       (b.X = a.X + 1 ∧ b.Y = a.Y) ∨ (b.X = a.X + 1 ∧ b.Y = a.Y + 1) ∨
       (b.X = a.X ∧ b.Y = a.Y + 1) ∨ (b.X = a.X - 1 ∧ b.Y = a.Y)) := by
  obtain ⟨bx, by_⟩ := b
  unfold HexGrid.GetNeighbors HexGrid.GetNeighborsXY
  rw [List.mem_filter, tmod_two_of_nonneg hy]
  simp only [hp, if_true, oddOffsets, List.map_cons, List.map_nil, List.mem_cons,
    Coord.mk.injEq, List.mem_singleton, List.not_mem_nil, or_false]
  constructor
  · rintro ⟨h, hb⟩
    refine ⟨hb, ?_⟩
    omega
  · rintro ⟨hb, h⟩
    refine ⟨?_, hb⟩
    omega

theorem mem_GetNeighbors_even {g : HexGrid T} {a b : Coord} (hy : 0 ≤ a.Y) (hp : a.Y % 2 = 0) :
    b ∈ g.GetNeighbors a ↔ g.isInBounds b = true ∧
      ((b.X = a.X - 1 ∧ b.Y = a.Y - 1) ∨ (b.X = a.X ∧ b.Y = a.Y - 1) ∨
       (b.X = a.X + 1 ∧ b.Y = a.Y) ∨ (b.X = a.X ∧ b.Y = a.Y + 1) ∨
       (b.X = a.X - 1 ∧ b.Y = a.Y + 1) ∨ (b.X = a.X - 1 ∧ b.Y = a.Y)) := by
  obtain ⟨bx, by_⟩ := b
  unfold HexGrid.GetNeighbors HexGrid.GetNeighborsXY
  rw [List.mem_filter, tmod_two_of_nonneg hy]
  have hp' : ¬ (a.Y % 2 = 1) := by omega
  simp only [hp', if_false, evenOffsets, List.map_cons, List.map_nil, List.mem_cons,
    Coord.mk.injEq, List.mem_singleton, List.not_mem_nil, or_false]
  constructor
  · rintro ⟨h, hb⟩
    refine ⟨hb, ?_⟩
    omega
  · rintro ⟨hb, h⟩
    refine ⟨?_, hb⟩
    omega

/-- Adjacency between in-bounds cells is symmetric although the two rows use different
offset tables. -/
theorem GetNeighbors_symm {g : HexGrid T} {a b : Coord} (ha : g.isInBounds a = true)
    (h : b ∈ g.GetNeighbors a) : a ∈ g.GetNeighbors b := by
  have hb := mem_GetNeighbors_inBounds h
  have ha' := (isInBounds_iff g a).1 ha
  have hb' := (isInBounds_iff g b).1 hb
  rcases Int.emod_two_eq_zero_or_one a.Y with hpa | hpa <;>
  rcases Int.emod_two_eq_zero_or_one b.Y with hpb | hpb
  · rw [mem_GetNeighbors_even ha'.2.2.1 hpa] at h
    rw [mem_GetNeighbors_even hb'.2.2.1 hpb]
    refine ⟨ha, ?_⟩
    obtain ⟨-, h⟩ := h
    rcases h with h | h | h | h | h | h <;> omega
  · rw [mem_GetNeighbors_even ha'.2.2.1 hpa] at h
    rw [mem_GetNeighbors_odd hb'.2.2.1 hpb]
    refine ⟨ha, ?_⟩
    obtain ⟨-, h⟩ := h
    rcases h with h | h | h | h | h | h <;> omega
  · rw [mem_GetNeighbors_odd ha'.2.2.1 hpa] at h
    rw [mem_GetNeighbors_even hb'.2.2.1 hpb]
    refine ⟨ha, ?_⟩
    obtain ⟨-, h⟩ := h
    rcases h with h | h | h | h | h | h <;> omega
  · rw [mem_GetNeighbors_odd ha'.2.2.1 hpa] at h
    rw [mem_GetNeighbors_odd hb'.2.2.1 hpb]
    refine ⟨ha, ?_⟩
    obtain ⟨-, h⟩ := h
    rcases h with h | h | h | h | h | h <;> omega

/-! ### Slices -/

theorem getIdx_some_range {α : Type} {s : List α} {i : Int} {v : α}
    (h : getIdx s i = some v) : 0 ≤ i ∧ i < (s.length : Int) := by
  unfold getIdx at h
  split at h
  · exact absurd h (by simp)
  · rename_i hi
    obtain ⟨hlt, -⟩ := List.getElem?_eq_some.1 h
    omega

theorem getIdx_of_range {α : Type} {s : List α} {i : Int}
    (h0 : 0 ≤ i) (h1 : i < (s.length : Int)) : ∃ v, getIdx s i = some v := by
  unfold getIdx
  rw [if_neg (by omega)]
  have hlt : i.toNat < s.length := by omega
  exact ⟨s[i.toNat], List.getElem?_eq_getElem hlt⟩

theorem length_setIdx {α : Type} (s : List α) (i : Int) (v : α) :
    (setIdx s i v).length = s.length := by
  unfold setIdx
  simp

theorem getIdx_setIdx_eq {α : Type} {s : List α} {i : Int} (v : α)
    (h0 : 0 ≤ i) (h1 : i < (s.length : Int)) : getIdx (setIdx s i v) i = some v := by
  unfold getIdx setIdx
  rw [if_neg (by omega), List.getElem?_set]
  have hlt : i.toNat < s.length := by omega
  simp [hlt]

theorem getIdx_setIdx_ne {α : Type} {s : List α} {i j : Int} (v : α)
    (h0 : 0 ≤ i) (hij : i ≠ j) : getIdx (setIdx s i v) j = getIdx s j := by
  unfold getIdx setIdx
  by_cases hj : j < 0
  · simp [hj]
  · rw [if_neg hj, if_neg hj, List.getElem?_set]
    have hne : i.toNat ≠ j.toNat := by omega
    simp [hne]

theorem countP_set {α : Type} (p : α → Bool) (s : List α) (k : Nat) (old v : α)
    (h : s[k]? = some old) :
    (s.set k v).countP p + (if p old then 1 else 0) =
      s.countP p + (if p v then 1 else 0) := by
  induction s generalizing k with
  | nil => simp at h
  | cons a t ih =>
    cases k with
    | zero =>
      simp only [List.getElem?_cons_zero, Option.some.injEq] at h
      subst h
      simp only [List.set_cons_zero, List.countP_cons]
      omega
    | succ k =>
      simp only [List.getElem?_cons_succ] at h
      have := ih k h
      simp only [List.set_cons_succ, List.countP_cons]
      omega

theorem unvisited_setIdx [LinearOrderedRing K] {rc : List (costData K)} {i : Int}
    {old v : costData K} (h : getIdx rc i = some old) (hold : old.distSoFar < 0)
    (hv : 0 ≤ v.distSoFar) : unvisited (setIdx rc i v) + 1 = unvisited rc := by
  unfold getIdx at h
  split at h
  · exact absurd h (by simp)
  · have := countP_set (fun n : costData K => decide (n.distSoFar < 0)) rc i.toNat old v h
    have h1 : decide (old.distSoFar < 0) = true := by simpa using hold
    have h2 : decide (v.distSoFar < 0) = false := by simpa using hv
    simp only [h1, h2, if_true] at this
    unfold unvisited setIdx
    simpa using this

theorem unvisited_le_length [LinearOrderedRing K] (rc : List (costData K)) :
    unvisited rc ≤ rc.length := by
  unfold unvisited
  exact List.countP_le_length _

/-! ### Back-pointer chains -/

section Search

variable [LinearOrderedRing K] {g : HexGrid T} {costFn : Option T → Option T → K} {S : Coord}

theorem Traced.mono {rc rc' : List (costData K)} {node : costData K} {path : List Coord}
    (h : Traced g costFn S rc node path)
    (hrc : ∀ i n, getIdx rc i = some n → 0 ≤ n.distSoFar → getIdx rc' i = some n) :
    Traced g costFn S rc' node path := by
  induction h with
  | root h1 h2 h3 => exact Traced.root h1 h2 h3
  | step h1 h2 h3 _ h5 h6 h7 h8 h9 ih =>
    exact Traced.step h1 (hrc _ _ h2 h3) h3 ih h5 h6 h7 h8 h9

theorem Traced.head (hS : g.isInBounds S = true) {rc : List (costData K)}
    {node : costData K} {path : List Coord} (h : Traced g costFn S rc node path) :
    ∃ c l, path = c :: l ∧ g.isInBounds c = true ∧ node.index = g.coordToIndex c := by
  cases h with
  | root h1 h2 h3 => exact ⟨S, [], rfl, hS, h1⟩
  | step h1 h2 h3 h4 h5 h6 h7 h8 h9 => exact ⟨_, _, rfl, h5, h6⟩

theorem Traced.dist_nonneg {rc : List (costData K)} {node : costData K} {path : List Coord}
    (h : Traced g costFn S rc node path) : 0 ≤ node.distSoFar := by
  cases h with
  | root h1 h2 h3 => rw [h3]
  | step h1 h2 h3 h4 h5 h6 h7 h8 h9 => rw [h9]; exact add_nonneg h3 h8

theorem Traced.backRoute (hS : g.isInBounds S = true) {rc : List (costData K)}
    {node : costData K} {path : List Coord} (h : Traced g costFn S rc node path) :
    BackRoute g costFn S path node.distSoFar := by
  induction h with
  | root h1 h2 h3 => rw [h3]; exact BackRoute.root
  | step h1 h2 h3 h4 h5 h6 h7 h8 h9 ih =>
    rw [h9]
    obtain ⟨c', l', hcl, hp, -⟩ := Traced.head hS h4
    have hpc := (List.cons.inj hcl).1
    subst hpc
    exact BackRoute.step ih hp h7 h8

theorem reconstruct_of_traced (hg : g.WF) (hS : g.isInBounds S = true)
    {rc : List (costData K)} {node : costData K} {path : List Coord}
    (h : Traced g costFn S rc node path) :
    ∀ (fuel : Nat) (acc : List Coord), path.length ≤ fuel →
      reconstruct g rc fuel node acc = Outcome.done (acc ++ path) := by
  induction h with
  | root h1 h2 h3 =>
    intro fuel acc hf
    cases fuel with
    | zero => simp at hf
    | succ fuel =>
      unfold reconstruct
      rw [h1, indexToCoord_coordToIndex hg hS]
      simp [h2]
  | step h1 h2 h3 h4 h5 h6 h7 h8 h9 ih =>
    intro fuel acc hf
    cases fuel with
    | zero => simp at hf
    | succ fuel =>
      unfold reconstruct
      rw [h6, indexToCoord_coordToIndex hg h5]
      simp only [h1, if_false, h2]
      rw [ih fuel _ (by simpa using hf)]
      simp

theorem BackRoute.getLast {path : List Coord} {d : K} (h : BackRoute g costFn S path d) :
    path.getLast? = some S := by
  induction h with
  | root => rfl
  | step _ _ _ _ ih => rw [List.getLast?_cons_cons]; exact ih

theorem BackRoute.cost_nonneg {path : List Coord} {d : K} (h : BackRoute g costFn S path d) :
    0 ≤ d := by
  induction h with
  | root => exact le_refl 0
  | step _ _ _ hc ih => exact add_nonneg ih hc

end Search

/-! ### The main loop of `FindPath` -/

section Loop

variable [LinearOrderedRing K] {g : HexGrid T} {costFn : Option T → Option T → K}
  {S E : Coord}

theorem GetNeighbors_length_le (g : HexGrid T) (c : Coord) : (g.GetNeighbors c).length ≤ 6 := by
  unfold HexGrid.GetNeighbors HexGrid.GetNeighborsXY
  refine le_trans (List.length_filter_le _ _) ?_
  rw [List.length_map]
  split <;> simp [oddOffsets, evenOffsets]

theorem pushNeighbors_spec (costFn : Option T → Option T → K) (E : Coord) (hg : g.WF)
    (rc : List (costData K))
    (hlen : rc.length = g.hexes.length) (parent : costData K) (pc : Coord) :
    ∀ (nbrs : List Coord) (stack0 : List (costData K)),
      (∀ c ∈ nbrs, g.isInBounds c = true) →
      ∃ stack', pushNeighbors g costFn E rc parent pc nbrs stack0 = Outcome.done stack' ∧
        stack'.length ≤ stack0.length + nbrs.length ∧
        (∀ e ∈ stack0, e ∈ stack') ∧
        (∀ e ∈ stack', e ∈ stack0 ∨ ∃ c ∈ nbrs, 0 ≤ costFn (g.GetAt pc) (g.GetAt c) ∧
          e = ⟨g.coordToIndex c, parent.distSoFar + costFn (g.GetAt pc) (g.GetAt c),
            estDistance c E, parent.index⟩) ∧
        (∀ c ∈ nbrs, 0 ≤ costFn (g.GetAt pc) (g.GetAt c) →
          Visited rc (g.coordToIndex c) ∨ ∃ e ∈ stack', e.index = g.coordToIndex c) := by
  intro nbrs
  induction nbrs with
  | nil =>
    intro stack0 _
    refine ⟨stack0, rfl, by simp, fun e he => he, fun e he => Or.inl he, ?_⟩
    intro c hc
    simp at hc
  | cons nb rest ih =>
    intro stack0 hin
    have hnb : g.isInBounds nb = true := hin nb (List.mem_cons_self _ _)
    have hrest : ∀ c ∈ rest, g.isInBounds c = true :=
      fun c hc => hin c (List.mem_cons_of_mem _ hc)
    have hr := coordToIndex_range hg hnb
    rw [← hlen] at hr
    obtain ⟨rv, hrv⟩ := getIdx_of_range hr.1 hr.2
    unfold pushNeighbors
    simp only [hrv]
    by_cases hvis : rv.distSoFar ≥ 0
    · rw [if_pos hvis]
      obtain ⟨stack', h1, h2, h3, h4, h5⟩ := ih stack0 hrest
      refine ⟨stack', h1, ?_, h3, ?_, ?_⟩
      · simp only [List.length_cons]; omega
      · intro e he
        rcases h4 e he with h | ⟨c, hc, hcost, heq⟩
        · exact Or.inl h
        · exact Or.inr ⟨c, List.mem_cons_of_mem _ hc, hcost, heq⟩
      · intro c hc hcost
        rcases List.mem_cons.1 hc with hceq | hc
        · subst hceq
          exact Or.inl ⟨rv, hrv, hvis⟩
        · exact h5 c hc hcost
    · rw [if_neg hvis]
      by_cases hneg : costFn (g.GetAt pc) (g.GetAt nb) < 0
      · simp only [hneg, if_true]
        obtain ⟨stack', h1, h2, h3, h4, h5⟩ := ih stack0 hrest
        refine ⟨stack', h1, ?_, h3, ?_, ?_⟩
        · simp only [List.length_cons]; omega
        · intro e he
          rcases h4 e he with h | ⟨c, hc, hcost, heq⟩
          · exact Or.inl h
          · exact Or.inr ⟨c, List.mem_cons_of_mem _ hc, hcost, heq⟩
        · intro c hc hcost
          rcases List.mem_cons.1 hc with hceq | hc
          · subst hceq
            exact absurd hcost (not_le.2 hneg)
          · exact h5 c hc hcost
      · simp only [hneg, if_false]
        obtain ⟨stack', h1, h2, h3, h4, h5⟩ := ih (stack0 ++ [⟨g.coordToIndex nb,
          parent.distSoFar + costFn (g.GetAt pc) (g.GetAt nb), estDistance nb E,
          parent.index⟩]) hrest
        refine ⟨stack', h1, ?_, ?_, ?_, ?_⟩
        · simp only [List.length_cons, List.length_append, List.length_nil] at h2 ⊢; omega
        · intro e he
          exact h3 e (List.mem_append_left _ he)
        · intro e he
          rcases h4 e he with h | ⟨c, hc, hcost, heq⟩
          · rcases List.mem_append.1 h with h | h
            · exact Or.inl h
            · refine Or.inr ⟨nb, List.mem_cons_self _ _, not_lt.1 hneg, ?_⟩
              simpa using h
          · exact Or.inr ⟨c, List.mem_cons_of_mem _ hc, hcost, heq⟩
        · intro c hc hcost
          rcases List.mem_cons.1 hc with hceq | hc
          · subst hceq
            refine Or.inr ⟨_, h3 _ (List.mem_append_right _ (List.mem_singleton_self _)), rfl⟩
          · exact h5 c hc hcost

end Loop

section LoopInv

variable [LinearOrderedRing K] {g : HexGrid T} {costFn : Option T → Option T → K}
  {S E : Coord}

theorem closed_reach {rc : List (costData K)} (hinv : PathInv g costFn S E rc [])
    {path : List Coord} {d : K} (h : BackRoute g costFn S path d) :
    ∀ c, path.head? = some c → Visited rc (g.coordToIndex c) := by
  have hsrc : Visited rc (g.coordToIndex S) := by
    rcases hinv.src with h | ⟨e, he, -⟩
    · exact h
    · simp at he
  induction h with
  | root =>
    intro c hc
    simp only [List.head?_cons, Option.some.injEq] at hc
    subst hc
    exact hsrc
  | step hb hp hn hcost ih =>
    intro c hc
    simp only [List.head?_cons, Option.some.injEq] at hc
    subst hc
    have hv := ih _ rfl
    rcases hinv.closed _ _ hp hv hn hcost with h | ⟨e, he, -⟩
    · exact h
    · simp at he

theorem mem_of_getLast? {α : Type} {l : List α} {a : α} (h : l.getLast? = some a) : a ∈ l := by
  obtain ⟨ys, rfl⟩ := List.getLast?_eq_some_iff.1 h
  simp

theorem mem_dropLast_or {α : Type} {l : List α} {a : α} (h : l.getLast? = some a) {e : α}
    (he : e ∈ l) : e ∈ l.dropLast ∨ e = a := by
  obtain ⟨ys, rfl⟩ := List.getLast?_eq_some_iff.1 h
  rw [List.dropLast_concat]
  rcases List.mem_append.1 he with h | h
  · exact Or.inl h
  · exact Or.inr (by simpa using h)

theorem length_dropLast_of_getLast? {α : Type} {l : List α} {a : α}
    (h : l.getLast? = some a) : l.dropLast.length + 1 = l.length := by
  obtain ⟨ys, rfl⟩ := List.getLast?_eq_some_iff.1 h
  rw [List.dropLast_concat]
  simp

theorem inv_pop {rc stack : List (costData K)} (hinv : PathInv g costFn S E rc stack)
    {parent : costData K} (hlast : stack.getLast? = some parent)
    (hvis : Visited rc parent.index) : PathInv g costFn S E rc stack.dropLast where
  len := hinv.len
  vis := hinv.vis
  stk := fun e he => hinv.stk e (List.dropLast_subset _ he)
  goal := hinv.goal
  src := by
    rcases hinv.src with h | ⟨e, he, hidx⟩
    · exact Or.inl h
    · rcases mem_dropLast_or hlast he with h | h
      · exact Or.inr ⟨e, h, hidx⟩
      · subst h
        rw [hidx] at hvis
        exact Or.inl hvis
  closed := by
    intro p c hp hv hn hcost
    rcases hinv.closed p c hp hv hn hcost with h | ⟨e, he, hidx⟩
    · exact Or.inl h
    · rcases mem_dropLast_or hlast he with h | h
      · exact Or.inr ⟨e, h, hidx⟩
      · subst h
        rw [hidx] at hvis
        exact Or.inl hvis

end LoopInv

section LoopStep

variable [LinearOrderedRing K] {g : HexGrid T} {costFn : Option T → Option T → K}
  {S E : Coord}

theorem inv_step (hg : g.WF) (hS : g.isInBounds S = true)
    {rc stack : List (costData K)} (hinv : PathInv g costFn S E rc stack)
    {parent rv : costData K} (hlast : stack.getLast? = some parent)
    (hrv : getIdx rc parent.index = some rv) (hun : ¬ rv.distSoFar ≥ 0)
    (hne : parent.index ≠ g.coordToIndex E) {pc : Coord}
    (hpc : g.indexToCoord parent.index = some pc) {stack' stack'' : List (costData K)}
    (h3 : ∀ e ∈ stack.dropLast, e ∈ stack')
    (h4 : ∀ e ∈ stack', e ∈ stack.dropLast ∨ ∃ c ∈ g.GetNeighbors pc,
      0 ≤ costFn (g.GetAt pc) (g.GetAt c) ∧
      e = ⟨g.coordToIndex c, parent.distSoFar + costFn (g.GetAt pc) (g.GetAt c),
        estDistance c E, parent.index⟩)
    (h5 : ∀ c ∈ g.GetNeighbors pc, 0 ≤ costFn (g.GetAt pc) (g.GetAt c) →
      Visited (setIdx rc parent.index parent) (g.coordToIndex c) ∨
        ∃ e ∈ stack', e.index = g.coordToIndex c)
    (hperm : ∀ e, e ∈ stack'' ↔ e ∈ stack') :
    PathInv g costFn S E (setIdx rc parent.index parent) stack'' := by
  obtain ⟨path, htr, hbound⟩ := hinv.stk parent (mem_of_getLast? hlast)
  obtain ⟨c0, l0, hpath, hc0, hidx⟩ := htr.head hS
  have hpc' : pc = c0 := by
    rw [hidx, indexToCoord_coordToIndex hg hc0] at hpc
    exact (Option.some.inj hpc).symm
  subst hpc'
  have hrange := getIdx_some_range hrv
  have hmono : ∀ i n, getIdx rc i = some n → 0 ≤ n.distSoFar →
      getIdx (setIdx rc parent.index parent) i = some n := by
    intro i n hi hn
    have hine : parent.index ≠ i := by
      intro heq
      rw [← heq, hrv] at hi
      have := Option.some.inj hi
      subst this
      exact hun hn
    rw [getIdx_setIdx_ne _ hrange.1 hine]
    exact hi
  have hU : unvisited (setIdx rc parent.index parent) + 1 = unvisited rc :=
    unvisited_setIdx hrv (not_le.1 hun) htr.dist_nonneg
  have hself : getIdx (setIdx rc parent.index parent) parent.index = some parent :=
    getIdx_setIdx_eq _ hrange.1 hrange.2
  have htr' : Traced g costFn S (setIdx rc parent.index parent) parent path := htr.mono hmono
  have hlen' : (setIdx rc parent.index parent).length = rc.length := length_setIdx _ _ _
  have hvmono : ∀ i, Visited rc i → Visited (setIdx rc parent.index parent) i := by
    rintro i ⟨n, hn, hd⟩
    exact ⟨n, hmono i n hn hd, hd⟩
  have hparentvis : Visited (setIdx rc parent.index parent) parent.index :=
    ⟨parent, hself, htr.dist_nonneg⟩
  have hkeep : ∀ e ∈ stack, Visited (setIdx rc parent.index parent) e.index ∨
      ∃ e' ∈ stack'', e'.index = e.index := by
    intro e he
    rcases mem_dropLast_or hlast he with h | h
    · exact Or.inr ⟨e, (hperm e).2 (h3 e h), rfl⟩
    · subst h
      exact Or.inl hparentvis
  refine ⟨by rw [hlen']; exact hinv.len, ?_, ?_, ?_, ?_, ?_⟩
  · intro i n hi hn
    by_cases hip : parent.index = i
    · subst hip
      rw [hself] at hi
      have := Option.some.inj hi
      subst this
      refine ⟨rfl, path, htr', ?_⟩
      rw [hlen']; omega
    · rw [getIdx_setIdx_ne _ hrange.1 hip] at hi
      obtain ⟨h1, p, hp, hb⟩ := hinv.vis i n hi hn
      refine ⟨h1, p, hp.mono hmono, ?_⟩
      rw [hlen']; omega
  · intro e he
    rcases h4 e ((hperm e).1 he) with h | ⟨c, hc, hcost, heq⟩
    · obtain ⟨p, hp, hb⟩ := hinv.stk e (List.dropLast_subset _ h)
      refine ⟨p, hp.mono hmono, ?_⟩
      rw [hlen']; omega
    · subst heq
      subst hpath
      refine ⟨c :: pc :: l0, ?_, ?_⟩
      · refine Traced.step ?_ hself htr.dist_nonneg htr' (mem_GetNeighbors_inBounds hc) rfl hc
          hcost rfl
        show parent.index ≠ -1
        omega
      · rw [hlen']
        simp only [List.length_cons] at hbound ⊢
        omega
  · rintro ⟨n, hn, hd⟩
    rw [getIdx_setIdx_ne _ hrange.1 hne] at hn
    exact hinv.goal ⟨n, hn, hd⟩
  · rcases hinv.src with h | ⟨e, he, hidx'⟩
    · exact Or.inl (hvmono _ h)
    · rw [← hidx']
      exact hkeep e he
  · intro p c hp hv hn hcost
    by_cases hip : parent.index = g.coordToIndex p
    · have hpeq : p = pc := by
        rw [hidx] at hip
        exact (coordToIndex_inj hg hc0 hp hip).symm
      subst hpeq
      rcases h5 c hn hcost with h | ⟨e, he, hidx'⟩
      · exact Or.inl h
      · exact Or.inr ⟨e, (hperm e).2 he, hidx'⟩
    · obtain ⟨n, hn', hd⟩ := hv
      rw [getIdx_setIdx_ne _ hrange.1 hip] at hn'
      rcases hinv.closed p c hp ⟨n, hn', hd⟩ hn hcost with h | ⟨e, he, hidx'⟩
      · exact Or.inl (hvmono _ h)
      · rw [← hidx']
        exact hkeep e he

end LoopStep

section LoopMain

variable [LinearOrderedRing K] {g : HexGrid T} {costFn : Option T → Option T → K}
  {S E : Coord}

theorem findPathLoop_spec (hg : g.WF) (hS : g.isInBounds S = true)
    (hE : g.isInBounds E = true) {sortFn : List (costData K) → List (costData K)}
    (hsort : ∀ l, (sortFn l).Perm l) :
    ∀ (fuel : Nat) (rc stack : List (costData K)), PathInv g costFn S E rc stack →
      6 * unvisited rc + stack.length + rc.length + 1 ≤ fuel →
      ∃ r, findPathLoop sortFn g costFn E (g.coordToIndex E) fuel rc stack = Outcome.done r ∧
        PathPost g costFn S E r := by
  intro fuel
  induction fuel with
  | zero =>
    intro rc stack _ hf
    omega
  | succ fuel ih =>
    intro rc stack hinv hf
    unfold findPathLoop
    cases hlast : stack.getLast? with
    | none =>
      have hnil : stack = [] := List.getLast?_eq_none_iff.1 hlast
      subst hnil
      refine ⟨⟨0, [], true⟩, rfl, Or.inr ⟨rfl, rfl, rfl, ?_⟩⟩
      rintro ⟨l, d, hb⟩
      exact hinv.goal (closed_reach hinv hb E rfl)
    | some parent =>
      obtain ⟨path, htr, hbound⟩ := hinv.stk parent (mem_of_getLast? hlast)
      obtain ⟨c0, l0, hpath, hc0, hidx⟩ := htr.head hS
      have hr := coordToIndex_range hg hc0
      rw [← hinv.len, ← hidx] at hr
      obtain ⟨rv, hrv⟩ := getIdx_of_range hr.1 hr.2
      have hlenstack := length_dropLast_of_getLast? hlast
      simp only [hrv]
      by_cases hvis : rv.distSoFar ≥ 0
      · rw [if_pos hvis]
        exact ih rc stack.dropLast (inv_pop hinv hlast ⟨rv, hrv, hvis⟩) (by omega)
      · rw [if_neg hvis]
        have hself : getIdx (setIdx rc parent.index parent) parent.index = some parent :=
          getIdx_setIdx_eq _ hr.1 hr.2
        have hmono : ∀ i n, getIdx rc i = some n → 0 ≤ n.distSoFar →
            getIdx (setIdx rc parent.index parent) i = some n := by
          intro i n hi hn
          have hine : parent.index ≠ i := by
            intro heq
            rw [← heq, hrv] at hi
            have := Option.some.inj hi
            subst this
            exact hvis hn
          rw [getIdx_setIdx_ne _ hr.1 hine]
          exact hi
        have hule := unvisited_le_length rc
        by_cases hend : parent.index = g.coordToIndex E
        · simp only [hend, if_true]
          rw [← hend, hself]
          simp only
          have hrec := reconstruct_of_traced hg hS (htr.mono hmono) (fuel + 1) []
            (by omega)
          rw [hrec]
          refine ⟨_, rfl, Or.inl ⟨rfl, ?_, ?_⟩⟩
          · have : c0 = E := coordToIndex_inj hg hc0 hE (by rw [← hidx, hend])
            simp [hpath, this]
          · simpa using htr.backRoute hS
        · simp only [hend, if_false]
          have hpc : g.indexToCoord parent.index = some c0 := by
            rw [hidx]; exact indexToCoord_coordToIndex hg hc0
          simp only [hpc]
          obtain ⟨stack', h1, h2, h3, h4, h5⟩ :=
            pushNeighbors_spec costFn E hg
              (setIdx rc parent.index parent)
              (by rw [length_setIdx]; exact hinv.len) parent c0 (g.GetNeighbors c0)
              stack.dropLast (fun c hc => mem_GetNeighbors_inBounds hc)
          rw [h1]
          simp only
          have hU : unvisited (setIdx rc parent.index parent) + 1 = unvisited rc :=
            unvisited_setIdx hrv (not_le.1 hvis) htr.dist_nonneg
          have hn6 := GetNeighbors_length_le g c0
          refine ih _ _ (inv_step hg hS hinv hlast hrv hvis hend hpc h3 h4 h5
            (fun e => (hsort stack').mem_iff)) ?_
          rw [(hsort stack').length_eq, length_setIdx]
          omega

end LoopMain

/-! ### `FindPath` -/

section Sorting

variable [LinearOrderedRing K]

theorem orderedInsert_perm (a : costData K) (l : List (costData K)) :
    (orderedInsert a l).Perm (a :: l) := by
  induction l with
  | nil => exact List.Perm.refl _
  | cons b t ih =>
    unfold orderedInsert
    split
    · exact List.Perm.refl _
    · exact (List.Perm.cons b ih).trans (List.Perm.swap a b t)

theorem orderedInsert_sorted (a : costData K) (l : List (costData K))
    (h : l.Pairwise fun x y => ¬ byScoreLess y x) :
    (orderedInsert a l).Pairwise fun x y => ¬ byScoreLess y x := by
  induction l with
  | nil => simp [orderedInsert]
  | cons b t ih =>
    obtain ⟨hb, ht⟩ := List.pairwise_cons.1 h
    unfold orderedInsert
    split
    · rename_i hab
      refine List.pairwise_cons.2 ⟨?_, h⟩
      intro x hx
      unfold byScoreLess
      rcases List.mem_cons.1 hx with hx | hx
      · subst hx
        exact not_lt.2 (le_of_lt hab)
      · have := hb x hx
        unfold byScoreLess at this
        exact not_lt.2 (le_trans (not_lt.1 this) (le_of_lt hab))
    · rename_i hab
      refine List.pairwise_cons.2 ⟨?_, ih ht⟩
      intro x hx
      rcases List.mem_cons.1 ((orderedInsert_perm a t).mem_iff.1 hx) with hx | hx
      · subst hx
        exact hab
      · exact hb x hx

theorem foldr_orderedInsert (l : List (costData K)) :
    (l.foldr orderedInsert []).Perm l ∧
      (l.foldr orderedInsert []).Pairwise fun x y => ¬ byScoreLess y x := by
  induction l with
  | nil => exact ⟨List.Perm.refl _, List.Pairwise.nil⟩
  | cons a t ih =>
    refine ⟨?_, orderedInsert_sorted a _ ih.2⟩
    exact (orderedInsert_perm a _).trans (List.Perm.cons a ih.1)

/-- The stable insertion sort meets the contract of `sort.Sort`. -/
theorem insertionSort_contract :
    SortContract (insertionSort : List (costData K) → List (costData K)) := by
  intro l
  unfold insertionSort
  exact ⟨(foldr_orderedInsert l.reverse).1.trans (List.reverse_perm l),
    (foldr_orderedInsert l.reverse).2⟩

end Sorting

section FindPathSpec

variable [LinearOrderedRing K] {g : HexGrid T} {costFn : Option T → Option T → K}

theorem getIdx_initial {n : Nat} {i : Int} {v : costData K}
    (h : getIdx ((List.range n).map fun (i : Nat) => (⟨Int.ofNat i, -1, -1, -1⟩ : costData K)) i
      = some v) : v.distSoFar = -1 := by
  unfold getIdx at h
  split at h
  · exact absurd h (by simp)
  · have hm := List.mem_iff_getElem?.2 ⟨_, h⟩
    obtain ⟨k, -, hk⟩ := List.mem_map.1 hm
    rw [← hk]

theorem initial_inv (S E : Coord) (est : K) :
    PathInv g costFn S E
      ((List.range g.hexes.length).map fun (i : Nat) => (⟨Int.ofNat i, -1, -1, -1⟩ : costData K))
      [⟨g.coordToIndex S, 0, est, -1⟩] := by
  have hnov : ∀ i, ¬ Visited
      ((List.range g.hexes.length).map fun (i : Nat) =>
        (⟨Int.ofNat i, -1, -1, -1⟩ : costData K)) i := by
    rintro i ⟨n, hn, hd⟩
    rw [getIdx_initial hn] at hd
    have : (-1 : K) < 0 := by simp
    exact absurd hd (not_le.2 this)
  refine ⟨by simp, ?_, ?_, hnov _, ?_, ?_⟩
  · intro i n hn hd
    exact absurd ⟨n, hn, hd⟩ (hnov i)
  · intro e he
    rw [List.mem_singleton] at he
    subst he
    refine ⟨[S], Traced.root rfl rfl rfl, ?_⟩
    have := unvisited_le_length
      ((List.range g.hexes.length).map fun (i : Nat) => (⟨Int.ofNat i, -1, -1, -1⟩ : costData K))
    simp only [List.length_singleton]
    omega
  · exact Or.inr ⟨_, List.mem_singleton_self _, rfl⟩
  · intro p c _ hv
    exact absurd hv (hnov _)

/-- With enough loop budget `FindPath` returns, and what it returns is either a back route
from the caller's `start` to the caller's `end` together with its cost, or the error. -/
theorem FindPath_spec (costFn : Option T → Option T → K) (hg : g.WF) {start end_ : Coord}
    (hs : g.isInBounds start = true)
    (he : g.isInBounds end_ = true) {sortFn : List (costData K) → List (costData K)}
    (hsort : SortContract sortFn) {fuel : Nat} (hfuel : 7 * g.hexes.length + 2 ≤ fuel) :
    ∃ r, g.FindPath sortFn fuel start end_ costFn = Outcome.done r ∧
      PathPost g costFn end_ start r := by
  unfold HexGrid.FindPath
  simp only
  refine findPathLoop_spec hg he hs (fun l => (hsort l).1) fuel _ _
    (initial_inv end_ start _) ?_
  have := unvisited_le_length
    ((List.range g.hexes.length).map fun (i : Nat) => (⟨Int.ofNat i, -1, -1, -1⟩ : costData K))
  simp only [List.length_map, List.length_range, List.length_singleton] at this ⊢
  omega

end FindPathSpec

section Claims

variable [LinearOrderedRing K] {g : HexGrid T} {costFn : Option T → Option T → K}

theorem BackRoute.pairs {S : Coord} {path : List Coord} {d : K}
    (h : BackRoute g costFn S path d) :
    ∀ (i : Nat) (a b : Coord), path[i]? = some a → path[i + 1]? = some b →
      a ∈ g.GetNeighbors b ∧ g.isInBounds b = true ∧ 0 ≤ costFn (g.GetAt b) (g.GetAt a) := by
  induction h with
  | root =>
    intro i a b _ hb
    simp at hb
  | step _ hp hn hcost ih =>
    intro i a b ha hb
    cases i with
    | zero =>
      simp only [List.getElem?_cons_zero, Option.some.injEq, zero_add,
        List.getElem?_cons_succ] at ha hb
      subst ha
      subst hb
      exact ⟨hn, hp, hcost⟩
    | succ i =>
      rw [List.getElem?_cons_succ] at ha hb
      exact ih i a b ha hb

theorem BackRoute.cost_eq {S : Coord} {path : List Coord} {d : K}
    (h : BackRoute g costFn S path d) : d = pathCostRev g costFn path := by
  induction h with
  | root => rfl
  | step _ _ _ _ ih =>
    unfold pathCostRev
    rw [← ih, add_comm]

theorem BackRoute.inBounds {S : Coord} (hS : g.isInBounds S = true) {path : List Coord} {d : K}
    (h : BackRoute g costFn S path d) : ∀ c ∈ path, g.isInBounds c = true := by
  induction h with
  | root =>
    intro c hc
    rw [List.mem_singleton] at hc
    subst hc
    exact hS
  | step _ _ hn _ ih =>
    intro c hc
    rcases List.mem_cons.1 hc with hc | hc
    · subst hc
      exact mem_GetNeighbors_inBounds hn
    · exact ih c hc

end Claims

/-! ### Claims about `FindPath` -/

/-- C1: for every grid built by `Generate`, every in-bounds `start` and `end` and every cost
function, `FindPath` returns, and if it succeeds the returned path is non-empty, its first
element is `start` and its last element is `end`. -/
theorem findPath_endpoints [LinearOrderedRing K] {xdim ydim : Int} {initFn : Coord → T}
    {g : HexGrid T} (hgen : Generate xdim ydim initFn = some g) {start end_ : Coord}
    (hs : g.isInBounds start = true) (he : g.isInBounds end_ = true)
    (costFn : Option T → Option T → K) {sortFn : List (costData K) → List (costData K)}
    (hsort : SortContract sortFn) {fuel : Nat} (hfuel : 7 * g.hexes.length + 2 ≤ fuel) :
    ∃ r, g.FindPath sortFn fuel start end_ costFn = Outcome.done r ∧
      (r.err = false →
        r.path ≠ [] ∧ r.path.head? = some start ∧ r.path.getLast? = some end_) := by
  obtain ⟨r, hr, hpost⟩ := FindPath_spec costFn (generate_wf hgen hs) hs he hsort hfuel
  refine ⟨r, hr, fun herr => ?_⟩
  rcases hpost with ⟨-, hhead, hroute⟩ | ⟨herr', -⟩
  · refine ⟨?_, hhead, hroute.getLast⟩
    intro hnil
    rw [hnil] at hhead
    simp at hhead
  · rw [herr] at herr'
    exact absurd herr' (by simp)

/-- Witness of C1 on the uniform 4x4 grid of the tests, from (1,0) to (1,3). -/
theorem findPath_endpoints_witness :
    ∃ r, uniformGrid.FindPath insertionSort 114 ⟨1, 0⟩ ⟨1, 3⟩ enterCost = Outcome.done r ∧
      (r.err = false →
        r.path ≠ [] ∧ r.path.head? = some ⟨1, 0⟩ ∧ r.path.getLast? = some ⟨1, 3⟩) :=
  findPath_endpoints
    (show Generate 4 4 (fun _ => (1 : Int)) = some uniformGrid by rfl)
    (by decide) (by decide) enterCost insertionSort_contract (by decide)

/-- C2: in a path returned by a successful `FindPath`, every two consecutive elements are
mutual neighbours. -/
theorem findPath_consecutive_neighbors [LinearOrderedRing K] {xdim ydim : Int}
    {initFn : Coord → T} {g : HexGrid T} (hgen : Generate xdim ydim initFn = some g)
    {start end_ : Coord} (hs : g.isInBounds start = true) (he : g.isInBounds end_ = true)
    (costFn : Option T → Option T → K) {sortFn : List (costData K) → List (costData K)}
    (hsort : SortContract sortFn) {fuel : Nat} (hfuel : 7 * g.hexes.length + 2 ≤ fuel) :
    ∃ r, g.FindPath sortFn fuel start end_ costFn = Outcome.done r ∧
      (r.err = false → ∀ (i : Nat) (a b : Coord), r.path[i]? = some a →
        r.path[i + 1]? = some b → b ∈ g.GetNeighbors a ∧ a ∈ g.GetNeighbors b) := by
  obtain ⟨r, hr, hpost⟩ := FindPath_spec costFn (generate_wf hgen hs) hs he hsort hfuel
  refine ⟨r, hr, fun herr => ?_⟩
  rcases hpost with ⟨-, -, hroute⟩ | ⟨herr', -⟩
  · intro i a b ha hb
    obtain ⟨h1, h2, -⟩ := hroute.pairs i a b ha hb
    exact ⟨GetNeighbors_symm h2 h1, h1⟩
  · rw [herr] at herr'
    exact absurd herr' (by simp)

/-- Witness of C2 on the uniform 4x4 grid of the tests, from (0,0) to (1,2). -/
theorem findPath_consecutive_neighbors_witness :
    ∃ r, uniformGrid.FindPath insertionSort 114 ⟨0, 0⟩ ⟨1, 2⟩ enterCost = Outcome.done r ∧
      (r.err = false → ∀ (i : Nat) (a b : Coord), r.path[i]? = some a →
        r.path[i + 1]? = some b →
        b ∈ uniformGrid.GetNeighbors a ∧ a ∈ uniformGrid.GetNeighbors b) :=
  findPath_consecutive_neighbors
    (show Generate 4 4 (fun _ => (1 : Int)) = some uniformGrid by rfl)
    (by decide) (by decide) enterCost insertionSort_contract (by decide)

section Routes

variable [LinearOrderedRing K] {g : HexGrid T} {costFn : Option T → Option T → K}

theorem linked_iff_chain' {α : Type} (R : α → α → Prop) (l : List α) :
    (∀ (k : Nat) (c c' : α), l[k]? = some c → l[k + 1]? = some c' → R c c') ↔
      List.Chain' R l := by
  induction l with
  | nil => simp
  | cons a t ih =>
    cases t with
    | nil => simp
    | cons b t =>
      rw [List.chain'_cons, ← ih]
      constructor
      · intro h
        refine ⟨h 0 a b (by simp) (by simp), ?_⟩
        intro k c c' hc hc'
        exact h (k + 1) c c' (by simpa using hc) (by simpa using hc')
      · rintro ⟨hab, h⟩ k c c' hc hc'
        cases k with
        | zero =>
          simp only [List.getElem?_cons_zero, Option.some.injEq, zero_add,
            List.getElem?_cons_succ] at hc hc'
          subst hc
          subst hc'
          exact hab
        | succ k =>
          rw [List.getElem?_cons_succ] at hc hc'
          exact h k c c' hc hc'

theorem BackRoute.passable {S : Coord} (hS : g.isInBounds S = true) {path : List Coord}
    {d : K} (h : BackRoute g costFn S path d) {E : Coord} (hE : path.head? = some E) :
    PassableRoute g costFn S E path.reverse := by
  refine ⟨?_, ?_, ?_, ?_⟩
  · rw [List.head?_reverse]
    exact h.getLast
  · rw [List.getLast?_reverse]
    exact hE
  · intro c hc
    exact h.inBounds hS c (List.mem_reverse.1 hc)
  · rw [linked_iff_chain' (fun c c' => c' ∈ g.GetNeighbors c ∧
      0 ≤ costFn (g.GetAt c) (g.GetAt c')), List.chain'_reverse,
      ← linked_iff_chain']
    intro k c c' hc hc'
    obtain ⟨h1, -, h3⟩ := h.pairs k c c' hc hc'
    exact ⟨h1, h3⟩

theorem BackRoute.extend (costFn : Option T → Option T → K) {S : Coord} :
    ∀ (cs : List Coord) (p : Coord) (l : List Coord) (d : K),
      BackRoute g costFn S (p :: l) d → g.isInBounds p = true →
      List.Chain (fun c c' => c' ∈ g.GetNeighbors c ∧ 0 ≤ costFn (g.GetAt c) (g.GetAt c'))
        p cs →
      ∃ e l' d', (p :: cs).getLast? = some e ∧ BackRoute g costFn S (e :: l') d' := by
  intro cs
  induction cs with
  | nil =>
    intro p l d hb _ _
    exact ⟨p, l, d, rfl, hb⟩
  | cons c cs ih =>
    intro p l d hb hp hch
    obtain ⟨⟨hn, hcost⟩, hch'⟩ := List.chain_cons.1 hch
    obtain ⟨e, l', d', he, hb'⟩ := ih c (p :: l) _ (BackRoute.step hb hp hn hcost)
      (mem_GetNeighbors_inBounds hn) hch'
    refine ⟨e, l', d', ?_, hb'⟩
    rw [List.getLast?_cons_cons]
    exact he

theorem backRoute_of_passable {S E : Coord} {cs : List Coord}
    (h : PassableRoute g costFn S E cs) : ∃ l d, BackRoute g costFn S (E :: l) d := by
  obtain ⟨hhead, hlast, hin, hlink⟩ := h
  rw [linked_iff_chain' (fun c c' => c' ∈ g.GetNeighbors c ∧
    0 ≤ costFn (g.GetAt c) (g.GetAt c'))] at hlink
  cases cs with
  | nil => simp at hhead
  | cons a rest =>
    simp only [List.head?_cons, Option.some.injEq] at hhead
    subst hhead
    obtain ⟨e, l', d', he, hb⟩ := BackRoute.extend costFn rest a [] 0
      BackRoute.root (hin a (List.mem_cons_self _ _)) hlink
    rw [hlast] at he
    have := Option.some.inj he
    subst this
    exact ⟨l', d', hb⟩

end Routes

/-- C3: for every grid, in-bounds `start` and `end` and real-valued cost function,
`FindPath` returns, and it returns the error (with cost 0 and an empty path) exactly when no
passable route from `end` to `start` exists; otherwise it succeeds. -/
theorem findPath_error_iff_no_route [LinearOrderedRing K] {xdim ydim : Int}
    {initFn : Coord → T} {g : HexGrid T} (hgen : Generate xdim ydim initFn = some g)
    {start end_ : Coord} (hs : g.isInBounds start = true) (he : g.isInBounds end_ = true)
    (costFn : Option T → Option T → K) {sortFn : List (costData K) → List (costData K)}
    (hsort : SortContract sortFn) {fuel : Nat} (hfuel : 7 * g.hexes.length + 2 ≤ fuel) :
    ∃ r, g.FindPath sortFn fuel start end_ costFn = Outcome.done r ∧
      ((r.err = true ∧ r.cost = 0 ∧ r.path = []) ↔
        ¬ ∃ cs, PassableRoute g costFn end_ start cs) ∧
      (r.err = false ↔ ∃ cs, PassableRoute g costFn end_ start cs) := by
  obtain ⟨r, hr, hpost⟩ := FindPath_spec costFn (generate_wf hgen hs) hs he hsort hfuel
  refine ⟨r, hr, ?_⟩
  rcases hpost with ⟨herr, hhead, hroute⟩ | ⟨herr, hcost, hpath, hno⟩
  · have hex : ∃ cs, PassableRoute g costFn end_ start cs :=
      ⟨_, hroute.passable he hhead⟩
    refine ⟨⟨?_, fun h => absurd hex h⟩, ⟨fun _ => hex, fun _ => herr⟩⟩
    rintro ⟨h, -⟩
    rw [herr] at h
    exact absurd h (by simp)
  · have hno' : ¬ ∃ cs, PassableRoute g costFn end_ start cs := by
      rintro ⟨cs, hcs⟩
      exact hno (backRoute_of_passable hcs)
    refine ⟨⟨fun _ => hno', fun _ => ⟨herr, hcost, hpath⟩⟩, ⟨?_, fun h => absurd h hno'⟩⟩
    intro h
    rw [herr] at h
    exact absurd h (by simp)

/-- Witness of C3 on the grid of the test `No available path`, where the search reports the
error. -/
theorem findPath_error_iff_no_route_witness :
    (∃ r, blockedGrid.FindPath insertionSort 114 ⟨0, 0⟩ ⟨1, 2⟩ enterCost = Outcome.done r ∧
      ((r.err = true ∧ r.cost = 0 ∧ r.path = []) ↔
        ¬ ∃ cs, PassableRoute blockedGrid enterCost ⟨1, 2⟩ ⟨0, 0⟩ cs) ∧
      (r.err = false ↔ ∃ cs, PassableRoute blockedGrid enterCost ⟨1, 2⟩ ⟨0, 0⟩ cs)) ∧
    blockedGrid.FindPath insertionSort 114 ⟨0, 0⟩ ⟨1, 2⟩ enterCost =
      Outcome.done ⟨0, [], true⟩ :=
  ⟨findPath_error_iff_no_route
    (show Generate 4 4 (fun c => ([1, 1, 1, 1, -1, -1, -1, -1, 3, 1, 3, 1, 3, 1, 1, 1] : List Int).getD
      (c.Y * 4 + c.X).toNat 0) = some blockedGrid by rfl)
    (by decide) (by decide) enterCost insertionSort_contract
    (by decide),
   by decide⟩

section CostLemmas

variable [LinearOrderedRing K] {g : HexGrid T} {costFn : Option T → Option T → K}

theorem pathCostRev_eq_pathCost (hsymm : ∀ a b, costFn a b = costFn b a) :
    ∀ path : List Coord, pathCostRev g costFn path = pathCost g costFn path
  | [] => rfl
  | [_] => rfl
  | a :: b :: l => by
    unfold pathCostRev pathCost
    rw [hsymm, pathCostRev_eq_pathCost hsymm (b :: l)]

theorem pathCostRev_entering {f : Option T → K} (hf : ∀ a b, costFn a b = f b) :
    ∀ path : List Coord,
      pathCostRev g costFn path = (path.dropLast.map fun c => f (g.GetAt c)).sum
  | [] => rfl
  | [_] => rfl
  | a :: b :: l => by
    unfold pathCostRev
    rw [hf, pathCostRev_entering hf (b :: l)]
    simp [List.dropLast]

end CostLemmas

/-- C5 (amended): when `FindPath` succeeds with a symmetric cost function, the cost is the
sum over consecutive pairs of `costFn(payload(path[i]), payload(path[i+1]))`; with a cost
function that returns a value `f` of the second cell only, as in the tests, the cost is the
sum of `f` over every path cell except the last one, `end`. -/
theorem findPath_cost_symmetric [LinearOrderedRing K] {xdim ydim : Int}
    {initFn : Coord → T} {g : HexGrid T} (hgen : Generate xdim ydim initFn = some g)
    {start end_ : Coord} (hs : g.isInBounds start = true) (he : g.isInBounds end_ = true)
    (costFn : Option T → Option T → K) {sortFn : List (costData K) → List (costData K)}
    (hsort : SortContract sortFn) {fuel : Nat} (hfuel : 7 * g.hexes.length + 2 ≤ fuel) :
    ∃ r, g.FindPath sortFn fuel start end_ costFn = Outcome.done r ∧
      (r.err = false →
        ((∀ a b, costFn a b = costFn b a) → r.cost = pathCost g costFn r.path) ∧
        (∀ f : Option T → K, (∀ a b, costFn a b = f b) →
          r.cost = (r.path.dropLast.map fun c => f (g.GetAt c)).sum)) := by
  obtain ⟨r, hr, hpost⟩ := FindPath_spec costFn (generate_wf hgen hs) hs he hsort hfuel
  refine ⟨r, hr, fun herr => ?_⟩
  rcases hpost with ⟨-, -, hroute⟩ | ⟨herr', -⟩
  · refine ⟨fun hsymm => ?_, fun f hf => ?_⟩
    · rw [hroute.cost_eq, pathCostRev_eq_pathCost hsymm]
    · rw [hroute.cost_eq, pathCostRev_entering hf]
  · rw [herr] at herr'
    exact absurd herr' (by simp)

/-- Witness of C5 (amended) on the two-cell grid, with the cost function of the tests. -/
theorem findPath_cost_symmetric_witness :
    ∃ r, pairGrid.FindPath insertionSort 16 ⟨0, 0⟩ ⟨1, 0⟩ enterCost = Outcome.done r ∧
      (r.err = false →
        ((∀ a b, enterCost a b = enterCost b a) → r.cost = pathCost pairGrid enterCost r.path) ∧
        (∀ f : Option Int → Int, (∀ a b, enterCost a b = f b) →
          r.cost = (r.path.dropLast.map fun c => f (pairGrid.GetAt c)).sum)) :=
  findPath_cost_symmetric
    (show Generate 2 1 (fun c => ([5, 7] : List Int).getD c.X.toNat 0) = some pairGrid by rfl)
    (by decide) (by decide) enterCost insertionSort_contract (by decide)

/-- C5 as stated fails: on the two-cell grid with the cost function of the tests
(`costFn(a, b)` = value of `b`), `FindPath` from (0,0) to (1,0) returns cost 5, the value of
`start`, while the forward sum `costFn(payload(path[0]), payload(path[1]))` is 7. -/
theorem findPath_forward_cost_counterexample :
    Generate 2 1 (fun c => ([5, 7] : List Int).getD c.X.toNat 0) = some pairGrid ∧
    pairGrid.FindPath insertionSort 16 ⟨0, 0⟩ ⟨1, 0⟩ enterCost =
      Outcome.done ⟨5, [⟨0, 0⟩, ⟨1, 0⟩], false⟩ ∧
    pathCost pairGrid enterCost [⟨0, 0⟩, ⟨1, 0⟩] = 7 ∧
    (5 : Int) ≠ pathCost pairGrid enterCost [⟨0, 0⟩, ⟨1, 0⟩] := by
  refine ⟨by rfl, by decide, by decide, by decide⟩

/-- C6: no edge used by a path that `FindPath` returns is impassable: for every consecutive
pair the cost the search evaluated, `costFn(payload(path[i+1]), payload(path[i]))`, is not
negative; so when `costFn` is a function `f` of the cell being entered, no cell strictly
between `start` and `end` on the path has a negative `f`. -/
theorem findPath_no_impassable_edge [LinearOrderedRing K] {xdim ydim : Int}
    {initFn : Coord → T} {g : HexGrid T} (hgen : Generate xdim ydim initFn = some g)
    {start end_ : Coord} (hs : g.isInBounds start = true) (he : g.isInBounds end_ = true)
    (costFn : Option T → Option T → K) {sortFn : List (costData K) → List (costData K)}
    (hsort : SortContract sortFn) {fuel : Nat} (hfuel : 7 * g.hexes.length + 2 ≤ fuel) :
    ∃ r, g.FindPath sortFn fuel start end_ costFn = Outcome.done r ∧
      (r.err = false →
        (∀ (i : Nat) (a b : Coord), r.path[i]? = some a → r.path[i + 1]? = some b →
          0 ≤ costFn (g.GetAt b) (g.GetAt a)) ∧
        (∀ f : Option T → K, (∀ a b, costFn a b = f b) →
          ∀ (i : Nat) (c : Coord), 0 < i → i + 1 < r.path.length → r.path[i]? = some c →
            0 ≤ f (g.GetAt c))) := by
  obtain ⟨r, hr, hpost⟩ := FindPath_spec costFn (generate_wf hgen hs) hs he hsort hfuel
  refine ⟨r, hr, fun herr => ?_⟩
  rcases hpost with ⟨-, -, hroute⟩ | ⟨herr', -⟩
  · refine ⟨fun i a b ha hb => (hroute.pairs i a b ha hb).2.2, ?_⟩
    intro f hf i c _ hlt hc
    have hb : r.path[i + 1]? = some r.path[i + 1] := List.getElem?_eq_getElem hlt
    have := (hroute.pairs i c _ hc hb).2.2
    rw [hf] at this
    exact this
  · rw [herr] at herr'
    exact absurd herr' (by simp)

/-- Witness of C6 on the grid of the test `Verify that negative numbers are impassable`,
together with the path the search returns there. -/
theorem findPath_no_impassable_edge_witness :
    (∃ r, wallGrid.FindPath insertionSort 114 ⟨0, 0⟩ ⟨1, 2⟩ enterCost = Outcome.done r ∧
      (r.err = false →
        (∀ (i : Nat) (a b : Coord), r.path[i]? = some a → r.path[i + 1]? = some b →
          0 ≤ enterCost (wallGrid.GetAt b) (wallGrid.GetAt a)) ∧
        (∀ f : Option Int → Int, (∀ a b, enterCost a b = f b) →
          ∀ (i : Nat) (c : Coord), 0 < i → i + 1 < r.path.length → r.path[i]? = some c →
            0 ≤ f (wallGrid.GetAt c)))) ∧
    wallGrid.FindPath insertionSort 114 ⟨0, 0⟩ ⟨1, 2⟩ enterCost =
      Outcome.done ⟨8, [⟨0, 0⟩, ⟨1, 0⟩, ⟨2, 0⟩, ⟨3, 0⟩, ⟨3, 1⟩, ⟨3, 2⟩, ⟨2, 3⟩, ⟨1, 3⟩,
        ⟨1, 2⟩], false⟩ :=
  ⟨findPath_no_impassable_edge
    (show Generate 4 4 (fun c => ([1, 1, 1, 1, -1, -1, -1, 1, -1, 1, -1, 1, -1, 1, 1, 1] : List Int).getD
      (c.Y * 4 + c.X).toNat 0) = some wallGrid by rfl)
    (by decide) (by decide) enterCost insertionSort_contract
    (by decide),
   by decide⟩

section Uniform

variable [LinearOrderedRing K] {g : HexGrid T}

theorem mem_GetNeighbors_of_axis {p c : Coord} (hp : g.isInBounds p = true)
    (hc : g.isInBounds c = true)
    (h : (c.X = p.X ∧ (c.Y = p.Y + 1 ∨ c.Y = p.Y - 1)) ∨
      (c.Y = p.Y ∧ (c.X = p.X + 1 ∨ c.X = p.X - 1))) : c ∈ g.GetNeighbors p := by
  have hp' := (isInBounds_iff g p).1 hp
  rcases Int.emod_two_eq_zero_or_one p.Y with hpar | hpar
  · rw [mem_GetNeighbors_even hp'.2.2.1 hpar]
    refine ⟨hc, ?_⟩
    omega
  · rw [mem_GetNeighbors_odd hp'.2.2.1 hpar]
    refine ⟨hc, ?_⟩
    omega

theorem unit_connected {costFn : Option T → Option T → K}
    (hpass : ∀ p c, g.isInBounds p = true → c ∈ g.GetNeighbors p →
      0 ≤ costFn (g.GetAt p) (g.GetAt c)) {S : Coord} (hS : g.isInBounds S = true) :
    ∀ (n : Nat) (E : Coord), g.isInBounds E = true →
      (E.X - S.X).natAbs + (E.Y - S.Y).natAbs = n →
      ∃ l d, BackRoute g costFn S (E :: l) d := by
  have hS' := (isInBounds_iff g S).1 hS
  intro n
  induction n with
  | zero =>
    intro E _ h
    have hE : E = S := by
      obtain ⟨ex, ey⟩ := E
      obtain ⟨sx, sy⟩ := S
      simp only [Coord.mk.injEq]
      simp only at h
      omega
    subst hE
    exact ⟨[], 0, BackRoute.root⟩
  | succ n ih =>
    intro E hE h
    have hE' := (isInBounds_iff g E).1 hE
    by_cases hx : E.X = S.X
    · by_cases hy : S.Y < E.Y
      · have hp : g.isInBounds ⟨E.X, E.Y - 1⟩ = true := by
          rw [isInBounds_iff]; simp only; omega
        obtain ⟨l, d, hb⟩ := ih ⟨E.X, E.Y - 1⟩ hp (by simp only; omega)
        have hm := mem_GetNeighbors_of_axis hp hE
          (Or.inl ⟨rfl, Or.inl (by show E.Y = E.Y - 1 + 1; omega)⟩)
        exact ⟨_, _, BackRoute.step hb hp hm (hpass _ _ hp hm)⟩
      · have hp : g.isInBounds ⟨E.X, E.Y + 1⟩ = true := by
          rw [isInBounds_iff]; simp only; omega
        obtain ⟨l, d, hb⟩ := ih ⟨E.X, E.Y + 1⟩ hp (by simp only; omega)
        have hm := mem_GetNeighbors_of_axis hp hE
          (Or.inl ⟨rfl, Or.inr (by show E.Y = E.Y + 1 - 1; omega)⟩)
        exact ⟨_, _, BackRoute.step hb hp hm (hpass _ _ hp hm)⟩
    · by_cases hlt : S.X < E.X
      · have hp : g.isInBounds ⟨E.X - 1, E.Y⟩ = true := by
          rw [isInBounds_iff]; simp only; omega
        obtain ⟨l, d, hb⟩ := ih ⟨E.X - 1, E.Y⟩ hp (by simp only; omega)
        have hm := mem_GetNeighbors_of_axis hp hE
          (Or.inr ⟨rfl, Or.inl (by show E.X = E.X - 1 + 1; omega)⟩)
        exact ⟨_, _, BackRoute.step hb hp hm (hpass _ _ hp hm)⟩
      · have hp : g.isInBounds ⟨E.X + 1, E.Y⟩ = true := by
          rw [isInBounds_iff]; simp only; omega
        obtain ⟨l, d, hb⟩ := ih ⟨E.X + 1, E.Y⟩ hp (by simp only; omega)
        have hm := mem_GetNeighbors_of_axis hp hE
          (Or.inr ⟨rfl, Or.inr (by show E.X = E.X + 1 - 1; omega)⟩)
        exact ⟨_, _, BackRoute.step hb hp hm (hpass _ _ hp hm)⟩

theorem BackRoute.unit_cost {costFn : Option T → Option T → K}
    (hunit : ∀ p c, g.isInBounds p = true → c ∈ g.GetNeighbors p →
      costFn (g.GetAt p) (g.GetAt c) = 1) {S : Coord} {path : List Coord} {d : K}
    (h : BackRoute g costFn S path d) :
    d = ((path.length - 1 : Nat) : K) := by
  induction h with
  | root => simp
  | step _ hp hn _ ih =>
    rw [ih, hunit _ _ hp hn]
    simp

theorem BackRoute.hexSteps {costFn : Option T → Option T → K} {S : Coord} {path : List Coord}
    {d : K} (h : BackRoute g costFn S path d) :
    ∀ E, path.head? = some E → HexSteps g E S (path.length - 1) := by
  induction h with
  | root =>
    intro E hE
    simp only [List.head?_cons, Option.some.injEq] at hE
    subst hE
    exact HexSteps.refl _
  | step _ hp hn _ ih =>
    intro E hE
    simp only [List.head?_cons, Option.some.injEq] at hE
    subst hE
    exact HexSteps.step (GetNeighbors_symm hp hn) (ih _ rfl)

end Uniform

/-- C4 as stated fails: on the uniform 2x3 grid the hex-grid distance from (1,0) to (0,2) is
2 (through (0,1)), but `FindPath` returns cost 3 and the path through (1,1) and (1,2). The
stack never holds more than four entries here, so the sort is the insertion sort. -/
theorem findPath_uniform_cost_counterexample :
    Generate 2 3 (fun _ => (1 : Int)) = some smallGrid ∧
    smallGrid.FindPath insertionSort 44 ⟨1, 0⟩ ⟨0, 2⟩
        (unitCost : Option Int → Option Int → Int) =
      Outcome.done ⟨3, [⟨1, 0⟩, ⟨1, 1⟩, ⟨1, 2⟩, ⟨0, 2⟩], false⟩ ∧
    IsHexDistance smallGrid ⟨1, 0⟩ ⟨0, 2⟩ 2 := by
  refine ⟨by rfl, by decide, ?_, ?_⟩
  · exact HexSteps.step (c := ⟨0, 1⟩) (by decide)
      (HexSteps.step (c := ⟨0, 2⟩) (by decide) (HexSteps.refl _))
  · intro n hn
    cases hn with
    | step h1 h2 =>
      cases h2 with
      | refl => exact absurd h1 (by decide)
      | step _ _ => omega

/-! ### The loop of `FindInRange` -/

theorem mapGet_mapSet (vs : List (Coord × K)) (k c : Coord) (v : K) :
    mapGet (mapSet vs k v) c = if c = k then some v else mapGet vs c := by
  unfold mapGet mapSet
  rw [List.lookup_cons]
  by_cases h : c = k
  · simp [h]
  · have hb : (c == k) = false := by simpa using h
    simp [h, hb]

section Range

variable [LinearOrderedRing K] {g : HexGrid T} {costFn : Option T → Option T → K}

theorem visitNeighbors_spec (g : HexGrid T) (costFn : Option T → Option T → K)
    (candidate : Coord) (candidateCost : K) :
    ∀ (nbrs queue : List Coord) (vs : List (Coord × K)), queue.Nodup →
      (∀ c, (mapGet vs c).isSome = true ↔ c ∈ queue) →
      ∃ new, (visitNeighbors g costFn candidate candidateCost nbrs queue vs).1 = queue ++ new ∧
        (visitNeighbors g costFn candidate candidateCost nbrs queue vs).1.Nodup ∧
        (∀ c, (mapGet (visitNeighbors g costFn candidate candidateCost nbrs queue vs).2 c).isSome
            = true ↔
          c ∈ (visitNeighbors g costFn candidate candidateCost nbrs queue vs).1) ∧
        (∀ c ∈ new, c ∈ nbrs) ∧
        (∀ c ∈ queue,
          mapGet (visitNeighbors g costFn candidate candidateCost nbrs queue vs).2 c =
            mapGet vs c) ∧
        (∀ c ∈ new, 0 ≤ costFn (g.GetAt candidate) (g.GetAt c) ∧
          mapGet (visitNeighbors g costFn candidate candidateCost nbrs queue vs).2 c =
            some (candidateCost + costFn (g.GetAt candidate) (g.GetAt c))) ∧
        (∀ c ∈ nbrs, 0 ≤ costFn (g.GetAt candidate) (g.GetAt c) → c ∈ queue ++ new) := by
  intro nbrs
  induction nbrs with
  | nil =>
    intro queue vs hnd hkeys
    exact ⟨[], by simp [visitNeighbors], by simpa [visitNeighbors] using hnd,
      by simpa [visitNeighbors] using hkeys, by simp, by simp [visitNeighbors], by simp,
      by simp⟩
  | cons nb rest ih =>
    intro queue vs hnd hkeys
    unfold visitNeighbors
    cases hget : mapGet vs nb with
    | some v =>
      simp only
      obtain ⟨new, h1, h2, h3, h4, h5, h6, h7⟩ := ih queue vs hnd hkeys
      refine ⟨new, h1, h2, h3, fun c hc => List.mem_cons_of_mem _ (h4 c hc), h5, h6, ?_⟩
      intro c hc hcost
      rcases List.mem_cons.1 hc with hc | hc
      · subst hc
        refine List.mem_append_left _ ((hkeys c).1 ?_)
        rw [hget]
        rfl
      · exact h7 c hc hcost
    | none =>
      simp only
      by_cases hneg : costFn (g.GetAt candidate) (g.GetAt nb) < 0
      · rw [if_pos hneg]
        obtain ⟨new, h1, h2, h3, h4, h5, h6, h7⟩ := ih queue vs hnd hkeys
        refine ⟨new, h1, h2, h3, fun c hc => List.mem_cons_of_mem _ (h4 c hc), h5, h6, ?_⟩
        intro c hc hcost
        rcases List.mem_cons.1 hc with hc | hc
        · subst hc
          exact absurd hcost (not_le.2 hneg)
        · exact h7 c hc hcost
      · rw [if_neg hneg]
        have hnotin : nb ∉ queue := by
          intro hin
          have := (hkeys nb).2 hin
          rw [hget] at this
          simp at this
        have hnd' : (queue ++ [nb]).Nodup := by
          rw [List.nodup_append]
          refine ⟨hnd, List.nodup_singleton _, ?_⟩
          intro a ha hb
          rw [List.mem_singleton] at hb
          subst hb
          exact hnotin ha
        have hkeys' : ∀ c, (mapGet (mapSet vs nb
            (candidateCost + costFn (g.GetAt candidate) (g.GetAt nb))) c).isSome = true ↔
            c ∈ queue ++ [nb] := by
          intro c
          rw [mapGet_mapSet]
          by_cases hc : c = nb
          · simp [hc]
          · simp [hc, hkeys c]
        obtain ⟨new, h1, h2, h3, h4, h5, h6, h7⟩ := ih (queue ++ [nb]) _ hnd' hkeys'
        refine ⟨nb :: new, ?_, h2, h3, ?_, ?_, ?_, ?_⟩
        · rw [h1]; simp
        · intro c hc
          rcases List.mem_cons.1 hc with hc | hc
          · subst hc; exact List.mem_cons_self _ _
          · exact List.mem_cons_of_mem _ (h4 c hc)
        · intro c hc
          rw [h5 c (List.mem_append_left _ hc), mapGet_mapSet]
          have hne : c ≠ nb := fun h => hnotin (h ▸ hc)
          simp [hne]
        · intro c hc
          rcases List.mem_cons.1 hc with hc | hc
          · subst hc
            refine ⟨not_lt.1 hneg, ?_⟩
            rw [h5 c (List.mem_append_right _ (List.mem_singleton_self _)), mapGet_mapSet]
            simp
          · exact h6 c hc
        · intro c hc hcost
          rcases List.mem_cons.1 hc with hc | hc
          · subst hc
            simp
          · have := h7 c hc hcost
            simpa using this

end Range
theorem inBounds_nodup_length_le {xdim ydim : Int} {initFn : Coord → T} {g : HexGrid T}
    (hgen : Generate xdim ydim initFn = some g) (l : List Coord) (hnd : l.Nodup)
    (hin : ∀ c ∈ l, g.isInBounds c = true) : l.length ≤ g.hexes.length := by
  cases l with
  | nil => simp
  | cons c0 t =>
    have hg : g.WF := generate_wf hgen (hin c0 (List.mem_cons_self _ _))
    have hnd' : ((c0 :: t).map fun c => (g.coordToIndex c).toNat).Nodup := by
      refine List.Nodup.map_on ?_ hnd
      intro a ha b hb hab
      have ra := coordToIndex_range hg (hin a ha)
      have rb := coordToIndex_range hg (hin b hb)
      exact coordToIndex_inj hg (hin a ha) (hin b hb) (by omega)
    have hsub : ((c0 :: t).map fun c => (g.coordToIndex c).toNat) ⊆
        List.range g.hexes.length := by
      intro k hk
      obtain ⟨c, hc, rfl⟩ := List.mem_map.1 hk
      have rc := coordToIndex_range hg (hin c hc)
      rw [List.mem_range]
      omega
    have := (List.subperm_of_subset hnd' hsub).length_le
    simpa using this

section RangeLoop

variable [LinearOrderedRing K] {g : HexGrid T} {costFn : Option T → Option T → K}
  {start : Coord} {maxRange : K} {includeSrc : Bool}

theorem RangeInv.length_le (hN : ∀ l : List Coord, l.Nodup →
      (∀ c ∈ l, g.isInBounds c = true) → l.length ≤ g.hexes.length)
    {i : Nat} {queue : List Coord} {vs : List (Coord × K)} {result : List (RangeResult K)}
    (h : RangeInv g start maxRange includeSrc i queue vs result) :
    queue.length ≤ g.hexes.length + 1 := by
  cases queue with
  | nil => simp
  | cons a t =>
    have := hN t (List.nodup_cons.1 h.nodup).2 h.tailIn
    simp only [List.length_cons]
    omega

theorem RangeInv.skip {i : Nat} {queue : List Coord} {vs : List (Coord × K)}
    {result : List (RangeResult K)}
    (h : RangeInv g start maxRange includeSrc i queue vs result) {c : Coord}
    (hc : queue[i]? = some c) :
    RangeInv g start maxRange includeSrc (i + 1) queue vs result := by
  obtain ⟨hlt, -⟩ := List.getElem?_eq_some.1 hc
  refine ⟨h.nodup, h.keys, h.head, h.tailIn, hlt, ?_, h.dist⟩
  refine h.sub.trans ?_
  rw [List.take_succ, hc]
  exact (List.sublist_append_left _ _).drop _

theorem RangeInv.visit {i : Nat} {queue : List Coord} {vs : List (Coord × K)}
    {result : List (RangeResult K)}
    (h : RangeInv g start maxRange includeSrc i queue vs result)
    (costFn : Option T → Option T → K) {c : Coord}
    (hc : queue[i]? = some c) {d : K} (hd : ¬ d > maxRange) :
    RangeInv g start maxRange includeSrc (i + 1)
      (visitNeighbors g costFn c d (g.GetNeighbors c) queue vs).1
      (visitNeighbors g costFn c d (g.GetNeighbors c) queue vs).2
      (if i ≠ 0 ∨ includeSrc = true then result ++ [⟨c, d⟩] else result) := by
  obtain ⟨hlt, hget⟩ := List.getElem?_eq_some.1 hc
  obtain ⟨new, h1, h2, h3, h4, -⟩ :=
    visitNeighbors_spec g costFn c d (g.GetNeighbors c) queue vs
      h.nodup h.keys
  have hne : queue ≠ [] := by
    intro hnil
    rw [hnil] at hlt
    simp at hlt
  refine ⟨h2, h3, ?_, ?_, ?_, ?_, ?_⟩
  · rw [h1, List.head?_append_of_ne_nil _ hne]
    exact h.head
  · rw [h1, List.tail_append_of_ne_nil hne]
    intro x hx
    rcases List.mem_append.1 hx with hx | hx
    · exact h.tailIn x hx
    · exact mem_GetNeighbors_inBounds (h4 x hx)
  · rw [h1, List.length_append]
    omega
  · have htake : ((queue ++ new).take (i + 1)) = queue.take i ++ [c] := by
      rw [List.take_append_of_le_length (by omega), List.take_succ, hc]
      rfl
    rw [h1, htake]
    by_cases hcond : i ≠ 0 ∨ includeSrc = true
    · rw [if_pos hcond]
      have hk : (if includeSrc = true then 0 else 1) ≤ (queue.take i).length := by
        rw [List.length_take]
        split
        · omega
        · rename_i hinc
          rcases hcond with hi | hi
          · omega
          · exact absurd hi hinc
      rw [List.drop_append_of_le_length hk, List.map_append]
      exact h.sub.append (List.Sublist.refl _)
    · rw [if_neg hcond]
      exact h.sub.trans ((List.sublist_append_left _ _).drop _)
  · intro p hp
    by_cases hcond : i ≠ 0 ∨ includeSrc = true
    · rw [if_pos hcond] at hp
      rcases List.mem_append.1 hp with hp | hp
      · exact h.dist p hp
      · rw [List.mem_singleton] at hp
        subst hp
        exact not_lt.1 hd
    · rw [if_neg hcond] at hp
      exact h.dist p hp

theorem findInRangeLoop_spec (hN : ∀ l : List Coord, l.Nodup →
      (∀ c ∈ l, g.isInBounds c = true) → l.length ≤ g.hexes.length) :
    ∀ (fuel i : Nat) (queue : List Coord) (vs : List (Coord × K))
      (result : List (RangeResult K)),
      RangeInv g start maxRange includeSrc i queue vs result →
      g.hexes.length + 2 ≤ fuel + i →
      ∃ res queue' vs',
        findInRangeLoop g maxRange includeSrc costFn fuel i queue vs result =
          Outcome.done res ∧
        RangeInv g start maxRange includeSrc queue'.length queue' vs' res := by
  intro fuel
  induction fuel with
  | zero =>
    intro i queue vs result hinv hf
    have := hinv.length_le hN
    have := hinv.idx
    omega
  | succ fuel ih =>
    intro i queue vs result hinv hf
    unfold findInRangeLoop
    cases hc : queue[i]? with
    | none =>
      have hlen : queue.length ≤ i := List.getElem?_eq_none_iff.1 hc
      have hi : i = queue.length := le_antisymm hinv.idx hlen
      subst hi
      exact ⟨result, queue, vs, rfl, hinv⟩
    | some c =>
      simp only
      by_cases hgt : (mapGet vs c).getD 0 > maxRange
      · rw [if_pos hgt]
        exact ih (i + 1) queue vs result (hinv.skip hc) (by omega)
      · rw [if_neg hgt]
        exact ih (i + 1) _ _ _ (hinv.visit costFn hc hgt) (by omega)

theorem initial_rangeInv (g : HexGrid T) (start : Coord) (maxRange : K) (includeSrc : Bool) :
    RangeInv g start maxRange includeSrc 0 [start] [(start, 0)] [] := by
  refine ⟨List.nodup_singleton _, ?_, rfl, by simp, by simp, by simp, by simp⟩
  intro c
  have := mapGet_mapSet ([] : List (Coord × K)) start c 0
  unfold mapSet at this
  rw [this]
  by_cases h : c = start
  · simp [h]
  · simp [h, mapGet]

/-- With enough loop budget `FindInRange` returns, and the loop invariant holds for the
final queue and visit set. -/
theorem FindInRange_spec {xdim ydim : Int} {initFn : Coord → T}
    (hgen : Generate xdim ydim initFn = some g) (start : Coord) (maxRange : K)
    (includeSrc : Bool) (costFn : Option T → Option T → K) {fuel : Nat}
    (hfuel : g.hexes.length + 2 ≤ fuel) :
    ∃ res queue vs, g.FindInRange fuel start maxRange includeSrc costFn = Outcome.done res ∧
      RangeInv g start maxRange includeSrc queue.length queue vs res := by
  unfold HexGrid.FindInRange
  exact findInRangeLoop_spec (inBounds_nodup_length_le hgen) fuel 0 _ _ _
    (initial_rangeInv g start maxRange includeSrc) (by omega)

end RangeLoop

/-! ### Claims about `FindInRange` -/

/-- C8: for every grid, `start`, `maxRange`, `includeSrc` and real-valued cost function,
`FindInRange` returns and every (coordinate, cost) pair it returns has cost `<= maxRange`. -/
theorem findInRange_cost_le_maxRange [LinearOrderedRing K] {xdim ydim : Int}
    {initFn : Coord → T} {g : HexGrid T} (hgen : Generate xdim ydim initFn = some g)
    (start : Coord) (maxRange : K) (includeSrc : Bool) (costFn : Option T → Option T → K)
    {fuel : Nat} (hfuel : g.hexes.length + 2 ≤ fuel) :
    ∃ res, g.FindInRange fuel start maxRange includeSrc costFn = Outcome.done res ∧
      ∀ p ∈ res, p.Dist ≤ maxRange := by
  obtain ⟨res, queue, vs, hres, hinv⟩ :=
    FindInRange_spec hgen start maxRange includeSrc costFn hfuel
  exact ⟨res, hres, hinv.dist⟩

/-- C9: for every grid, `start`, `maxRange`, `includeSrc` and cost function, `FindInRange`
returns a list that contains no coordinate more than once. -/
theorem findInRange_nodup [LinearOrderedRing K] {xdim ydim : Int}
    {initFn : Coord → T} {g : HexGrid T} (hgen : Generate xdim ydim initFn = some g)
    (start : Coord) (maxRange : K) (includeSrc : Bool) (costFn : Option T → Option T → K)
    {fuel : Nat} (hfuel : g.hexes.length + 2 ≤ fuel) :
    ∃ res, g.FindInRange fuel start maxRange includeSrc costFn = Outcome.done res ∧
      (res.map RangeResult.Coord).Nodup := by
  obtain ⟨res, queue, vs, hres, hinv⟩ :=
    FindInRange_spec hgen start maxRange includeSrc costFn hfuel
  refine ⟨res, hres, ?_⟩
  exact ((hinv.nodup.sublist (List.take_sublist _ _)).sublist (List.drop_sublist _ _)).sublist
    hinv.sub
/-- Witness of C8 on the grid of the test `Nonuniform costs`, with the list the loop
returns there. -/
theorem findInRange_cost_le_maxRange_witness :
    (∃ res, hillGrid.FindInRange 18 ⟨0, 2⟩ 5 false enterCost = Outcome.done res ∧
      ∀ p ∈ res, p.Dist ≤ 5) ∧
    hillGrid.FindInRange 18 ⟨0, 2⟩ 5 false enterCost =
      Outcome.done [⟨⟨1, 2⟩, 1⟩, ⟨⟨1, 1⟩, 2⟩, ⟨⟨2, 2⟩, 4⟩, ⟨⟨1, 0⟩, 3⟩, ⟨⟨3, 2⟩, 5⟩,
        ⟨⟨2, 3⟩, 5⟩, ⟨⟨0, 0⟩, 4⟩] :=
  ⟨findInRange_cost_le_maxRange
    (show Generate 4 4 (fun c => ([1, 1, 5, 1, 9, 1, 5, 1, 1, 1, 3, 1, 9, 9, 1, 1] : List Int).getD
      (c.Y * 4 + c.X).toNat 0) = some hillGrid by rfl)
    ⟨0, 2⟩ 5 false enterCost (by decide),
   by decide⟩

/-- Witness of C9 on the uniform 4x4 grid of the tests. -/
theorem findInRange_nodup_witness :
    ∃ res, uniformGrid.FindInRange 18 ⟨1, 0⟩ 2 true enterCost = Outcome.done res ∧
      (res.map RangeResult.Coord).Nodup :=
  findInRange_nodup
    (show Generate 4 4 (fun _ => (1 : Int)) = some uniformGrid by rfl)
    ⟨1, 0⟩ 2 true enterCost (by decide)

section IncludeSrc

variable [LinearOrderedRing K] {g : HexGrid T} {costFn : Option T → Option T → K}
  {maxRange : K}

theorem findInRangeLoop_append (g : HexGrid T) (costFn : Option T → Option T → K)
    (maxRange : K) (pre : List (RangeResult K)) (b b' : Bool) :
    ∀ (fuel i : Nat) (queue : List Coord) (vs : List (Coord × K))
      (result res : List (RangeResult K)), 0 < i →
      findInRangeLoop g maxRange b' costFn fuel i queue vs result = Outcome.done res →
      findInRangeLoop g maxRange b costFn fuel i queue vs (pre ++ result) =
        Outcome.done (pre ++ res) := by
  intro fuel
  induction fuel with
  | zero =>
    intro i queue vs result res _ h
    simp [findInRangeLoop] at h
  | succ fuel ih =>
    intro i queue vs result res hi h
    unfold findInRangeLoop at h ⊢
    cases hc : queue[i]? with
    | none =>
      rw [hc] at h
      simp only at h ⊢
      rw [Outcome.done.injEq] at h
      rw [h]
    | some c =>
      rw [hc] at h
      simp only at h ⊢
      have hne : i ≠ 0 := by omega
      by_cases hgt : (mapGet vs c).getD 0 > maxRange
      · rw [if_pos hgt] at h ⊢
        exact ih (i + 1) queue vs result res (by omega) h
      · rw [if_neg hgt] at h ⊢
        simp only [hne, ne_eq, not_false_eq_true, true_or, if_true] at h ⊢
        rw [List.append_assoc]
        exact ih (i + 1) _ _ _ res (by omega) h

end IncludeSrc

/-- Relation between the two values of `includeSrc`: the runs differ only in the pair
`(start, 0)` at the head of the result. -/
theorem findInRange_src_split [LinearOrderedRing K] {xdim ydim : Int}
    {initFn : Coord → T} {g : HexGrid T} (hgen : Generate xdim ydim initFn = some g)
    (start : Coord) (maxRange : K)
    (costFn : Option T → Option T → K) {fuel : Nat} (hfuel : g.hexes.length + 2 ≤ fuel) :
    ∃ resT resF, g.FindInRange fuel start maxRange true costFn = Outcome.done resT ∧
      g.FindInRange fuel start maxRange false costFn = Outcome.done resF ∧
      (0 ≤ maxRange → resT = ⟨start, 0⟩ :: resF) ∧
      (maxRange < 0 → resT = [] ∧ resF = []) ∧
      ∀ p ∈ resF, p.Coord ≠ start := by
  obtain ⟨resF, queue, vs, hF, hinv⟩ := FindInRange_spec hgen start maxRange false costFn hfuel
  have hnot : ∀ p ∈ resF, p.Coord ≠ start := by
    intro p hp heq
    have hmem : p.Coord ∈ (queue.take queue.length).drop 1 :=
      hinv.sub.subset (List.mem_map_of_mem _ hp)
    rw [List.take_length] at hmem
    have hnd := hinv.nodup
    have hhead := hinv.head
    cases queue with
    | nil => simp at hmem
    | cons a t =>
      simp only [List.head?_cons, Option.some.injEq] at hhead
      simp only [List.drop_succ_cons, List.drop_zero] at hmem
      rw [heq, ← hhead] at hmem
      exact (List.nodup_cons.1 hnd).1 hmem
  have hget : (mapGet [(start, (0 : K))] start).getD 0 = 0 := by
    simp [mapGet, List.lookup]
  obtain ⟨f, rfl⟩ : ∃ f, fuel = f + 1 := ⟨fuel - 1, by omega⟩
  have hF0 := hF
  unfold HexGrid.FindInRange at hF
  unfold findInRangeLoop at hF
  simp only [List.getElem?_cons_zero, hget] at hF
  by_cases hgt : (0 : K) > maxRange
  · rw [if_pos hgt] at hF
    have hT : g.FindInRange (f + 1) start maxRange true costFn = Outcome.done resF := by
      unfold HexGrid.FindInRange
      unfold findInRangeLoop
      simp only [List.getElem?_cons_zero, hget]
      rw [if_pos hgt]
      have := findInRangeLoop_append g costFn maxRange
        [] true false f 1 [start] [(start, 0)] [] resF (by omega) hF
      simpa using this
    refine ⟨resF, resF, hT, hF0, fun h => absurd hgt (not_lt.2 h), ?_, hnot⟩
    intro _
    obtain ⟨f', rfl⟩ : ∃ f', f = f' + 1 := ⟨f - 1, by omega⟩
    unfold findInRangeLoop at hF
    simp only [List.getElem?_cons_succ, List.getElem?_nil, zero_add] at hF
    rw [Outcome.done.injEq] at hF
    exact ⟨hF.symm, hF.symm⟩
  · rw [if_neg hgt] at hF
    simp only [ne_eq, not_true_eq_false, Bool.false_eq_true, or_self, if_false] at hF
    have hT : g.FindInRange (f + 1) start maxRange true costFn =
        Outcome.done (⟨start, 0⟩ :: resF) := by
      unfold HexGrid.FindInRange
      unfold findInRangeLoop
      simp only [List.getElem?_cons_zero, hget]
      rw [if_neg hgt]
      simp only [or_true, if_true, List.nil_append]
      have := findInRangeLoop_append g costFn maxRange
        [⟨start, 0⟩] true false f 1 _ _ [] resF (by omega) hF
      simpa using this
    exact ⟨⟨start, 0⟩ :: resF, resF, hT, hF0, fun _ => rfl,
      fun h => absurd h hgt, hnot⟩

/-- C10 (amended): for every grid, `start` (in bounds or not), `maxRange` and cost
function, `FindInRange` returns for both values of `includeSrc`; when
`maxRange >= 0` the result for `includeSrc = true` is the pair `(start, 0)` followed by the
result for `includeSrc = false`; when `maxRange < 0` both results are empty; and the result
for `includeSrc = false` never contains `start`. -/
theorem findInRange_includeSrc [LinearOrderedRing K] {xdim ydim : Int}
    {initFn : Coord → T} {g : HexGrid T} (hgen : Generate xdim ydim initFn = some g)
    (start : Coord) (maxRange : K)
    (costFn : Option T → Option T → K) {fuel : Nat} (hfuel : g.hexes.length + 2 ≤ fuel) :
    ∃ resT resF, g.FindInRange fuel start maxRange true costFn = Outcome.done resT ∧
      g.FindInRange fuel start maxRange false costFn = Outcome.done resF ∧
      (0 ≤ maxRange → resT = ⟨start, 0⟩ :: resF) ∧
      (maxRange < 0 → resT = [] ∧ resF = []) ∧
      ∀ p ∈ resF, p.Coord ≠ start := by
  obtain ⟨resT, resF, hT, hF, hpos, hneg, hnot⟩ :=
    findInRange_src_split hgen start maxRange costFn hfuel
  refine ⟨resT, resF, hT, hF, ?_, ?_, hnot⟩
  · intro h
    exact hpos h
  · intro h
    exact hneg h

/-- Witness of C10 (amended) on the uniform 4x4 grid of the tests. -/
theorem findInRange_includeSrc_witness :
    ∃ resT resF, uniformGrid.FindInRange 18 ⟨1, 0⟩ 2 true enterCost = Outcome.done resT ∧
      uniformGrid.FindInRange 18 ⟨1, 0⟩ 2 false enterCost = Outcome.done resF ∧
      ((0 : Int) ≤ 2 → resT = ⟨⟨1, 0⟩, 0⟩ :: resF) ∧
      ((2 : Int) < 0 → resT = [] ∧ resF = []) ∧
      ∀ p ∈ resF, p.Coord ≠ ⟨1, 0⟩ :=
  findInRange_includeSrc
    (show Generate 4 4 (fun _ => (1 : Int)) = some uniformGrid by rfl)
    ⟨1, 0⟩ 2 enterCost (by decide)

/-- C10 as stated fails for a negative `maxRange`: on the uniform 2x3 grid with
`maxRange = -1` the result for `includeSrc = true` is empty, like the result for
`includeSrc = false`, so it is not that result plus the pair `(start, 0)`. -/
theorem findInRange_includeSrc_counterexample :
    Generate 2 3 (fun _ => (1 : Int)) = some smallGrid ∧
    smallGrid.isInBounds ⟨0, 0⟩ = true ∧
    smallGrid.FindInRange 8 ⟨0, 0⟩ (-1) true enterCost = Outcome.done [] ∧
    smallGrid.FindInRange 8 ⟨0, 0⟩ (-1) false enterCost = Outcome.done [] := by
  refine ⟨by rfl, by decide, by decide, by decide⟩

/-! ### List and walk lemmas -/

theorem HexSteps.snoc {g : HexGrid T} {a b c : Coord} {n : Nat} (h : HexSteps g a b n)
    (hc : c ∈ g.GetNeighbors b) : HexSteps g a c (n + 1) := by
  induction h with
  | refl a => exact HexSteps.step hc (HexSteps.refl _)
  | step h1 _ ih => exact HexSteps.step h1 (ih hc)

theorem take_succ_of_getElem? {α : Type} {l : List α} {i : Nat} {c : α}
    (hc : l[i]? = some c) : l.take (i + 1) = l.take i ++ [c] := by
  rw [List.take_succ, hc]
  rfl

theorem drop_of_getElem? {α : Type} {l : List α} {i : Nat} {c : α}
    (hc : l[i]? = some c) : l.drop i = c :: l.drop (i + 1) := by
  obtain ⟨hlt, hget⟩ := List.getElem?_eq_some.1 hc
  rw [List.drop_eq_getElem_cons hlt, hget]

/-! ### Adjacency, cost direction and termination -/

/-- C18: adjacency is symmetric on the grid: for every grid and every two in-bounds
coordinates `a` and `b`, `b` is in `GetNeighbors(a)` if and only if `a` is in
`GetNeighbors(b)`, whichever offset tables the two rows use. -/
theorem getNeighbors_symmetric {g : HexGrid T} {a b : Coord} (ha : g.isInBounds a = true)
    (hb : g.isInBounds b = true) : b ∈ g.GetNeighbors a ↔ a ∈ g.GetNeighbors b := by
  constructor
  · intro h
    exact GetNeighbors_symm ha h
  · intro h
    exact GetNeighbors_symm hb h

/-- Witness of C18 on the uniform 4x4 grid: (1,1) lies in an odd row, (1,2) in an even row,
and each is a neighbour of the other. -/
theorem getNeighbors_symmetric_witness :
    ((⟨1, 2⟩ : Coord) ∈ uniformGrid.GetNeighbors ⟨1, 1⟩ ↔
      (⟨1, 1⟩ : Coord) ∈ uniformGrid.GetNeighbors ⟨1, 2⟩) ∧
    (⟨1, 2⟩ : Coord) ∈ uniformGrid.GetNeighbors ⟨1, 1⟩ :=
  ⟨getNeighbors_symmetric (g := uniformGrid) (a := ⟨1, 1⟩) (b := ⟨1, 2⟩) (by decide)
    (by decide), by decide⟩

/-- C16: when `FindPath` succeeds with `(cost, path)`, `cost` is the sum over consecutive
pairs of `costFn(payload(path[i+1]), payload(path[i]))`: each edge is costed from the later
path cell to the earlier one, because the search runs from `end` back to `start`; so it is
the forward traversal cost whenever `costFn` is symmetric. -/
theorem findPath_cost_reversed [LinearOrderedRing K] {xdim ydim : Int}
    {initFn : Coord → T} {g : HexGrid T} (hgen : Generate xdim ydim initFn = some g)
    {start end_ : Coord} (hs : g.isInBounds start = true) (he : g.isInBounds end_ = true)
    (costFn : Option T → Option T → K) {sortFn : List (costData K) → List (costData K)}
    (hsort : SortContract sortFn) {fuel : Nat} (hfuel : 7 * g.hexes.length + 2 ≤ fuel) :
    ∃ r, g.FindPath sortFn fuel start end_ costFn = Outcome.done r ∧
      (r.err = false → r.cost = pathCostRev g costFn r.path ∧
        ((∀ a b, costFn a b = costFn b a) → r.cost = pathCost g costFn r.path)) := by
  obtain ⟨r, hr, hpost⟩ := FindPath_spec costFn (generate_wf hgen hs) hs he hsort hfuel
  refine ⟨r, hr, fun herr => ?_⟩
  rcases hpost with ⟨-, -, hroute⟩ | ⟨herr', -⟩
  · refine ⟨hroute.cost_eq, fun hsymm => ?_⟩
    rw [← pathCostRev_eq_pathCost hsymm]
    exact hroute.cost_eq
  · rw [herr] at herr'
    exact absurd herr' (by simp)

/-- Witness of C16 on the two-cell grid with the cost function of the tests: the cost 5 is
the backward sum, the value of the cell (0,0) entered last by the search. -/
theorem findPath_cost_reversed_witness :
    (∃ r, pairGrid.FindPath insertionSort 16 ⟨0, 0⟩ ⟨1, 0⟩ enterCost = Outcome.done r ∧
      (r.err = false → r.cost = pathCostRev pairGrid enterCost r.path ∧
        ((∀ a b, enterCost a b = enterCost b a) →
          r.cost = pathCost pairGrid enterCost r.path))) ∧
    pathCostRev pairGrid enterCost [⟨0, 0⟩, ⟨1, 0⟩] = 5 :=
  ⟨findPath_cost_reversed
    (show Generate 2 1 (fun c => ([5, 7] : List Int).getD c.X.toNat 0) = some pairGrid by rfl)
    (by decide) (by decide) enterCost insertionSort_contract (by decide),
   by decide⟩

theorem reconstruct_fuel_succ {g : HexGrid T} (rc : List (costData K)) :
    ∀ (fuel : Nat) (node : costData K) (acc p : List Coord),
      reconstruct g rc fuel node acc = Outcome.done p →
      reconstruct g rc (fuel + 1) node acc = Outcome.done p := by
  intro fuel
  induction fuel with
  | zero =>
    intro node acc p h
    simp [reconstruct] at h
  | succ fuel ih =>
    intro node acc p h
    unfold reconstruct at h ⊢
    cases hc : g.indexToCoord node.index with
    | none => rw [hc] at h; simp at h
    | some c =>
      rw [hc] at h
      simp only at h ⊢
      by_cases hp : node.prevIndex = -1
      · rw [if_pos hp] at h ⊢
        exact h
      · rw [if_neg hp] at h ⊢
        cases hn : getIdx rc node.prevIndex with
        | none => rw [hn] at h; simp at h
        | some node' =>
          rw [hn] at h
          simp only at h ⊢
          exact ih node' _ p h

section FuelMono

variable [LinearOrderedRing K] {g : HexGrid T}

theorem findPathLoop_fuel_succ (sortFn : List (costData K) → List (costData K))
    (costFn : Option T → Option T → K) (E : Coord) (eIdx : Int) :
    ∀ (fuel : Nat) (rc stack : List (costData K)) (r : PathResult K),
      findPathLoop sortFn g costFn E eIdx fuel rc stack = Outcome.done r →
      findPathLoop sortFn g costFn E eIdx (fuel + 1) rc stack = Outcome.done r := by
  intro fuel
  induction fuel with
  | zero =>
    intro rc stack r h
    simp [findPathLoop] at h
  | succ fuel ih =>
    intro rc stack r h
    unfold findPathLoop at h ⊢
    cases hlast : stack.getLast? with
    | none => rw [hlast] at h; exact h
    | some parent =>
      rw [hlast] at h
      simp only at h ⊢
      cases hrv : getIdx rc parent.index with
      | none => rw [hrv] at h; simp at h
      | some rv =>
        rw [hrv] at h
        simp only at h ⊢
        by_cases hvis : rv.distSoFar ≥ 0
        · rw [if_pos hvis] at h ⊢
          exact ih _ _ r h
        · rw [if_neg hvis] at h ⊢
          by_cases hend : parent.index = eIdx
          · rw [if_pos hend] at h ⊢
            cases hnode : getIdx (setIdx rc parent.index parent) eIdx with
            | none => rw [hnode] at h; simp at h
            | some node =>
              rw [hnode] at h
              simp only at h ⊢
              cases hrec : reconstruct g (setIdx rc parent.index parent) (fuel + 1) node [] with
              | done p =>
                rw [hrec] at h
                rw [reconstruct_fuel_succ _ _ _ _ p hrec]
                exact h
              | fault => rw [hrec] at h; simp at h
              | timeout => rw [hrec] at h; simp at h
          · rw [if_neg hend] at h ⊢
            cases hpc : g.indexToCoord parent.index with
            | none => rw [hpc] at h; simp at h
            | some pc =>
              rw [hpc] at h
              simp only at h ⊢
              cases hpush : pushNeighbors g costFn E (setIdx rc parent.index parent) parent pc
                  (g.GetNeighbors pc) stack.dropLast with
              | done stack' =>
                rw [hpush] at h
                simp only at h ⊢
                exact ih _ _ r h
              | fault => rw [hpush] at h; simp at h
              | timeout => rw [hpush] at h; simp at h

theorem FindPath_fuel_le (sortFn : List (costData K) → List (costData K))
    (costFn : Option T → Option T → K) (start end_ : Coord) {fuel fuel' : Nat}
    (hle : fuel ≤ fuel') {r : PathResult K}
    (h : g.FindPath sortFn fuel start end_ costFn = Outcome.done r) :
    g.FindPath sortFn fuel' start end_ costFn = Outcome.done r := by
  induction hle with
  | refl => exact h
  | step _ ih =>
    unfold HexGrid.FindPath at ih ⊢
    exact findPathLoop_fuel_succ sortFn costFn _ _ _ _ _ r ih

end FuelMono

/-- C17: for every grid, in-bounds `start` and `end` and every real-valued cost function,
zero-cost edges and zero-cost cycles included, the main loop of `FindPath` terminates:
`7 * len(hexes) + 2` iterations are enough (each cell is locked at most once and pushes at
most 6 entries), a larger budget returns the same value, and that value is a success or the
no-path error. -/
theorem findPath_terminates [LinearOrderedRing K] {xdim ydim : Int}
    {initFn : Coord → T} {g : HexGrid T} (hgen : Generate xdim ydim initFn = some g)
    {start end_ : Coord} (hs : g.isInBounds start = true) (he : g.isInBounds end_ = true)
    (costFn : Option T → Option T → K) {sortFn : List (costData K) → List (costData K)}
    (hsort : SortContract sortFn) :
    ∃ r, (∀ fuel, 7 * g.hexes.length + 2 ≤ fuel →
        g.FindPath sortFn fuel start end_ costFn = Outcome.done r) ∧
      ((r.err = false ∧ r.path ≠ []) ∨ (r.err = true ∧ r.cost = 0 ∧ r.path = [])) := by
  obtain ⟨r, hr, hpost⟩ := FindPath_spec costFn (generate_wf hgen hs) hs he hsort
    (le_refl (7 * g.hexes.length + 2))
  refine ⟨r, fun fuel hfuel => FindPath_fuel_le sortFn costFn start end_ hfuel hr, ?_⟩
  rcases hpost with ⟨herr, hhead, -⟩ | ⟨herr, hcost, hpath, -⟩
  · refine Or.inl ⟨herr, ?_⟩
    intro hnil
    rw [hnil] at hhead
    simp at hhead
  · exact Or.inr ⟨herr, hcost, hpath⟩

/-- Witness of C17 on the grid of the test with zero-cost cells, with the value returned
there. -/
theorem findPath_terminates_witness :
    (∃ r, (∀ fuel, 7 * zeroGrid.hexes.length + 2 ≤ fuel →
        zeroGrid.FindPath insertionSort fuel ⟨0, 0⟩ ⟨1, 2⟩ enterCost = Outcome.done r) ∧
      ((r.err = false ∧ r.path ≠ []) ∨ (r.err = true ∧ r.cost = 0 ∧ r.path = []))) ∧
    zeroGrid.FindPath insertionSort 114 ⟨0, 0⟩ ⟨1, 2⟩ enterCost =
      Outcome.done ⟨1, [⟨0, 0⟩, ⟨0, 1⟩, ⟨1, 2⟩], false⟩ :=
  ⟨findPath_terminates
    (show Generate 4 4 (fun c => ([1, 1, 1, 1, 0, 1, 1, 1, 0, 1, 0, 1, 0, 1, 1, 1] :
      List Int).getD (c.Y * 4 + c.X).toNat 0) = some zeroGrid by rfl)
    (by decide) (by decide) enterCost insertionSort_contract,
   by decide⟩
/-! ### Neighbour counts, offset tables and grid storage -/

theorem GetNeighbors_eq_filter (g : HexGrid T) (c : Coord) :
    g.GetNeighbors c = (candidates c).filter g.isInBounds := rfl

theorem candidates_length (c : Coord) : (candidates c).length = 6 := by
  unfold candidates
  split <;> simp [oddOffsets, evenOffsets]

/-- C12: for every grid and every interior coordinate `c = (x, y)` with
`1 <= x <= xdim-2` and `1 <= y <= ydim-2`, `GetNeighbors(c)` returns exactly 6 pairwise
distinct in-bounds coordinates, none equal to `c`; for every coordinate it returns 6 minus
the number of its six candidates that fall outside the grid. -/
theorem getNeighbors_count (g : HexGrid T) :
    (∀ c : Coord, 1 ≤ c.X → c.X ≤ g.xdim - 2 → 1 ≤ c.Y → c.Y ≤ g.ydim - 2 →
      (g.GetNeighbors c).length = 6 ∧ (g.GetNeighbors c).Nodup ∧
      ∀ n ∈ g.GetNeighbors c, g.isInBounds n = true ∧ n ≠ c) ∧
    (∀ c : Coord, (g.GetNeighbors c).length =
      6 - (candidates c).countP fun n => !g.isInBounds n) := by
  constructor
  · intro c hx1 hx2 hy1 hy2
    have hy0 : 0 ≤ c.Y := by omega
    have hall : ∀ n ∈ candidates c, g.isInBounds n = true := by
      intro n hn
      rw [isInBounds_iff]
      unfold candidates at hn
      rw [tmod_two_of_nonneg hy0] at hn
      obtain ⟨nx, ny⟩ := n
      split at hn
      · simp only [oddOffsets, List.map_cons, List.map_nil, List.mem_cons, Coord.mk.injEq,
          List.not_mem_nil, or_false] at hn
        simp only
        omega
      · simp only [evenOffsets, List.map_cons, List.map_nil, List.mem_cons, Coord.mk.injEq,
          List.not_mem_nil, or_false] at hn
        simp only
        omega
    have heq : g.GetNeighbors c = candidates c := by
      rw [GetNeighbors_eq_filter]
      exact List.filter_eq_self.2 hall
    rw [heq]
    refine ⟨candidates_length c, ?_, ?_⟩
    · unfold candidates
      split
      · simp only [oddOffsets, List.map_cons, List.map_nil, List.nodup_cons, List.mem_cons,
          Coord.mk.injEq, List.not_mem_nil, or_false, not_false_eq_true, List.nodup_nil,
          and_true, not_or]
        omega
      · simp only [evenOffsets, List.map_cons, List.map_nil, List.nodup_cons, List.mem_cons,
          Coord.mk.injEq, List.not_mem_nil, or_false, not_false_eq_true, List.nodup_nil,
          and_true, not_or]
        omega
    · intro n hn
      refine ⟨hall n hn, ?_⟩
      intro hnc
      subst hnc
      unfold candidates at hn
      obtain ⟨nx, ny⟩ := n
      split at hn
      · simp only [oddOffsets, List.map_cons, List.map_nil, List.mem_cons, Coord.mk.injEq,
          List.not_mem_nil, or_false] at hn
        omega
      · simp only [evenOffsets, List.map_cons, List.map_nil, List.mem_cons, Coord.mk.injEq,
          List.not_mem_nil, or_false] at hn
        omega
  · intro c
    rw [GetNeighbors_eq_filter, ← List.countP_eq_length_filter]
    have h := List.length_eq_countP_add_countP g.isInBounds (candidates c)
    rw [candidates_length] at h
    have h2 : List.countP (fun n => !g.isInBounds n) (candidates c) =
        List.countP (fun a => decide ¬g.isInBounds a = true) (candidates c) := by
      congr 1
      funext a
      cases g.isInBounds a <;> simp
    omega

/-- Witness of C12 on the 3x3 grid of the tests: the interior cell (1,1) has 6 neighbours
and the corner (0,0) has 2, four of its candidates falling outside the grid. -/
theorem getNeighbors_count_witness :
    ((nineGrid.GetNeighbors ⟨1, 1⟩).length = 6 ∧ (nineGrid.GetNeighbors ⟨1, 1⟩).Nodup ∧
      ∀ n ∈ nineGrid.GetNeighbors ⟨1, 1⟩, nineGrid.isInBounds n = true ∧ n ≠ ⟨1, 1⟩) ∧
    (nineGrid.GetNeighbors ⟨0, 0⟩).length =
      6 - (candidates ⟨0, 0⟩).countP (fun n => !nineGrid.isInBounds n) ∧
    (nineGrid.GetNeighbors ⟨0, 0⟩).length = 2 :=
  ⟨(getNeighbors_count nineGrid).1 ⟨1, 1⟩ (by decide) (by decide) (by decide) (by decide),
   (getNeighbors_count nineGrid).2 ⟨0, 0⟩, by decide⟩

/-- On rows `y >= 0` and on even rows `GetNeighborsXY` selects its offset table by the parity
of `y`. -/
theorem GetNeighborsXY_parity (g : HexGrid T) (x y : Int) (h : 0 ≤ y ∨ y % 2 = 0) :
    g.GetNeighborsXY x y =
      ((if y % 2 = 1 then oddOffsets else evenOffsets).map
        fun o => (⟨x + o.1, y + o.2⟩ : Coord)).filter g.isInBounds := by
  unfold HexGrid.GetNeighborsXY
  have hcond : (y.tmod 2 = 1) ↔ (y % 2 = 1) := by
    rcases h with h | h
    · rw [tmod_two_of_nonneg h]
    · have h1 : ¬ (y % 2 = 1) := by omega
      have h2 : ¬ (y.tmod 2 = 1) := by
        intro ht
        have := Int.tmod_add_tdiv y 2
        omega
      exact ⟨fun a => absurd a h2, fun a => absurd a h1⟩
  simp only [hcond]

/-- C13 fails on a negative odd row: Go's `%` truncates, so `(-1) % 2 == -1` and the row
`y = -1` takes the table of the even rows. On the two-cell grid `GetNeighborsXY(0, -1)`
returns `[(0,0)]`, whereas the table of the odd rows gives `[(1,0), (0,0)]`. -/
theorem getNeighborsXY_negative_odd_row :
    pairGrid.GetNeighborsXY 0 (-1) = [⟨0, 0⟩] ∧
    (oddOffsets.map fun o => (⟨0 + o.1, -1 + o.2⟩ : Coord)).filter pairGrid.isInBounds =
      [⟨1, 0⟩, ⟨0, 0⟩] ∧
    (evenOffsets.map fun o => (⟨0 + o.1, -1 + o.2⟩ : Coord)).filter pairGrid.isInBounds =
      [⟨0, 0⟩] := by
  decide

/-- C15 fails for an `end` outside the grid: on the 2x3 grid `FindPath` from (0,0) to (5,5)
reads `realCosts[15]` in a slice of 6 records, an index-out-of-range panic. -/
theorem findPath_out_of_bounds_fault :
    Generate 2 3 (fun _ => (1 : Int)) = some smallGrid ∧
    smallGrid.isInBounds ⟨5, 5⟩ = false ∧
    smallGrid.coordToIndex ⟨5, 5⟩ = 15 ∧
    (∀ fuel, smallGrid.FindPath insertionSort (fuel + 1) ⟨0, 0⟩ ⟨5, 5⟩
      (unitCost : Option Int → Option Int → Int) = Outcome.fault) := by
  refine ⟨by rfl, by decide, by decide, ?_⟩
  intro fuel
  rfl

theorem flatMap_range_length {α : Type} (f : Nat → Nat → α) (X : Nat) :
    ∀ Y : Nat, ((List.range Y).flatMap fun (y : Nat) =>
      (List.range X).map fun (x : Nat) => f x y).length = Y * X := by
  intro Y
  induction Y with
  | zero => simp
  | succ Y ih =>
    rw [List.range_succ, List.flatMap_append, List.length_append, ih, List.flatMap_singleton,
      List.length_map, List.length_range]
    ring

theorem flatMap_range_getElem? {α : Type} (f : Nat → Nat → α) (X : Nat) :
    ∀ (Y x y : Nat), x < X → y < Y →
      ((List.range Y).flatMap fun (y : Nat) =>
        (List.range X).map fun (x : Nat) => f x y)[y * X + x]? = some (f x y) := by
  intro Y
  induction Y with
  | zero =>
    intro x y _ hy
    omega
  | succ Y ih =>
    intro x y hx hy
    rw [List.range_succ, List.flatMap_append, List.flatMap_singleton]
    by_cases hlt : y < Y
    · have hidx : y * X + x < Y * X := by
        have : (y + 1) * X ≤ Y * X := Nat.mul_le_mul_right X hlt
        rw [Nat.add_mul, Nat.one_mul] at this
        omega
      rw [List.getElem?_append_left (by rw [flatMap_range_length]; exact hidx)]
      exact ih x y hx hlt
    · have hyY : y = Y := by omega
      subst hyY
      rw [List.getElem?_append_right (by rw [flatMap_range_length]; omega),
        flatMap_range_length, Nat.add_sub_cancel_left, List.getElem?_map,
        List.getElem?_range hx]
      rfl

/-- C14: for all `xdim >= 0`, `ydim >= 0` and every pure initializer, whenever `Generate`
returns a grid `g`, its dimensions are `(xdim, ydim)`; `GetAt(c)` returns the nil pointer
when `c` is out of bounds (`x < 0`, `x >= xdim`, `y < 0` or `y >= ydim`) and otherwise the
element equal to `init(c)`; and the storage lists the values of `init` in row-major order
(`y` outer, `x` inner). -/
theorem generate_getAt {xdim ydim : Int} (hx : 0 ≤ xdim) (hy : 0 ≤ ydim)
    {initFn : Coord → T} {g : HexGrid T} (hgen : Generate xdim ydim initFn = some g) :
    g.Dims = (xdim, ydim) ∧
      (∀ c : Coord, (c.X < 0 ∨ c.X ≥ xdim ∨ c.Y < 0 ∨ c.Y ≥ ydim) → g.GetAt c = none) ∧
      (∀ c : Coord, 0 ≤ c.X → c.X < xdim → 0 ≤ c.Y → c.Y < ydim →
        g.GetAt c = some (initFn c)) ∧
      g.hexes = (rowMajor xdim ydim).map initFn := by
  obtain ⟨hgx, hgy, -, hhex, -⟩ := generate_fields hgen
  refine ⟨?_, ?_, ?_, ?_⟩
  · unfold HexGrid.Dims
    rw [hgx, hgy]
  · intro c hc
    unfold HexGrid.GetAt HexGrid.GetAtXY
    rw [hgx, hgy, if_pos hc]
  · intro c h1 h2 h3 h4
    unfold HexGrid.GetAt HexGrid.GetAtXY
    rw [hgx, hgy, if_neg (by omega)]
    unfold getIdx HexGrid.xyToIndex
    rw [hgx, hhex]
    have hm : 0 ≤ c.Y * xdim := mul_nonneg h3 hx
    rw [if_neg (by omega)]
    have hidx : (c.Y * xdim + c.X).toNat = c.Y.toNat * xdim.toNat + c.X.toNat := by
      have e1 : ((c.Y.toNat * xdim.toNat + c.X.toNat : Nat) : Int) = c.Y * xdim + c.X := by
        push_cast
        rw [Int.toNat_of_nonneg h3, Int.toNat_of_nonneg hx, Int.toNat_of_nonneg h1]
      rw [← e1]
      exact Int.toNat_natCast _
    rw [hidx, flatMap_range_getElem? (fun x y => initFn ⟨Int.ofNat x, Int.ofNat y⟩)
      xdim.toNat ydim.toNat c.X.toNat c.Y.toNat (by omega) (by omega)]
    have ex : Int.ofNat c.X.toNat = c.X := Int.toNat_of_nonneg h1
    have ey : Int.ofNat c.Y.toNat = c.Y := Int.toNat_of_nonneg h3
    simp only [ex, ey]
  · rw [hhex]
    unfold rowMajor
    rw [List.map_flatMap]
    simp only [List.map_map, Function.comp_def]

/-- Witness of C14 on the 3x2 grid whose initializer numbers the cells `x + 10 * y`:
`Generate` returns `numberedGrid`, and the statement of C14 holds of it. -/
theorem generate_getAt_witness :
    Generate 3 2 (fun c => c.X + 10 * c.Y) = some numberedGrid ∧
    (numberedGrid.Dims = (3, 2) ∧
      (∀ c : Coord, (c.X < 0 ∨ c.X ≥ 3 ∨ c.Y < 0 ∨ c.Y ≥ 2) → numberedGrid.GetAt c = none) ∧
      (∀ c : Coord, 0 ≤ c.X → c.X < 3 → 0 ≤ c.Y → c.Y < 2 →
        numberedGrid.GetAt c = some (c.X + 10 * c.Y)) ∧
      numberedGrid.hexes = (rowMajor 3 2).map fun c => c.X + 10 * c.Y) :=
  ⟨by rfl, generate_getAt (by decide) (by decide)
    (show Generate 3 2 (fun c => c.X + 10 * c.Y) = some numberedGrid by rfl)⟩

/-- The capacity of `Generate` is a Go `int` product: at `xdim = 2^32`, `ydim = 2^31` it
wraps to `-2^63` and `make` panics; at `xdim = 2^62`, `ydim = -4` it wraps to 0, `make`
succeeds and no cell is appended. -/
theorem generate_capacity_wraps (initFn : Coord → T) :
    Generate 4294967296 2147483648 initFn = none ∧
    Generate 4611686018427387904 (-4) initFn = some ⟨4611686018427387904, -4, []⟩ := by
  constructor
  · unfold Generate
    rw [if_pos (by decide)]
  · unfold Generate
    rw [if_neg (by decide)]
    rfl

/-! ### Parents of the cells that `FindInRange` returns -/

section Parent

variable [LinearOrderedRing K] {g : HexGrid T} {costFn : Option T → Option T → K}
  {start : Coord} {maxRange : K}

theorem ParentInv.parent_skip {i : Nat} {queue : List Coord} {vs : List (Coord × K)}
    {result : List (RangeResult K)}
    (h : ParentInv g costFn start maxRange i queue vs result)
    {c : Coord} (hc : queue[i]? = some c) (hgt : distOf vs c > maxRange) :
    ParentInv g costFn start maxRange (i + 1) queue vs result := by
  have htake := take_succ_of_getElem? hc
  refine ⟨h.base.skip hc, h.origin, ?_, h.parent, h.route⟩
  intro x d
  rw [h.res, htake]
  constructor
  · rintro ⟨h1, h2, h3⟩
    exact ⟨List.mem_append_left _ h1, h2, h3⟩
  · rintro ⟨h1, h2, h3⟩
    rcases List.mem_append.1 h1 with h1 | h1
    · exact ⟨h1, h2, h3⟩
    · rw [List.mem_singleton] at h1
      subst h1
      rw [h2] at h3
      exact absurd hgt (not_lt.2 h3)

theorem ParentInv.parent_visit (hs : g.isInBounds start = true) {i : Nat}
    {queue : List Coord} {vs : List (Coord × K)} {result : List (RangeResult K)}
    (h : ParentInv g costFn start maxRange i queue vs result)
    {c : Coord} (hc : queue[i]? = some c) (hle : ¬ distOf vs c > maxRange) :
    ParentInv g costFn start maxRange (i + 1)
      (visitNeighbors g costFn c (distOf vs c) (g.GetNeighbors c) queue vs).1
      (visitNeighbors g costFn c (distOf vs c) (g.GetNeighbors c) queue vs).2
      (result ++ [⟨c, distOf vs c⟩]) := by
  have hbase := h.base.visit costFn hc hle
  simp only [or_true, if_true] at hbase
  obtain ⟨new, h1, -, -, h4, h5, h6, -⟩ :=
    visitNeighbors_spec g costFn c (distOf vs c) (g.GetNeighbors c) queue vs
      h.base.nodup h.base.keys
  obtain ⟨hlt, hget⟩ := List.getElem?_eq_some.1 hc
  have hcq : c ∈ queue := by rw [← hget]; exact List.getElem_mem _
  have hold : ∀ x ∈ queue, distOf (visitNeighbors g costFn c (distOf vs c)
      (g.GetNeighbors c) queue vs).2 x = distOf vs x := by
    intro x hx
    show (mapGet _ x).getD 0 = (mapGet vs x).getD 0
    rw [h5 x hx]
  have htake : ((queue ++ new).take (i + 1)) = queue.take i ++ [c] := by
    rw [List.take_append_of_le_length (by omega)]
    exact take_succ_of_getElem? hc
  have hinq : ∀ x ∈ queue, g.isInBounds x = true := by
    intro x hx
    have hhead := h.base.head
    have htail := h.base.tailIn
    cases queue with
    | nil => simp at hx
    | cons a t =>
      simp only [List.head?_cons, Option.some.injEq] at hhead
      rcases List.mem_cons.1 hx with hx | hx
      · rw [hx, hhead]; exact hs
      · exact htail x hx
  have hresq : ∀ p d, (⟨p, d⟩ : RangeResult K) ∈ result → p ∈ queue ∧ d = distOf vs p := by
    intro p d hp
    obtain ⟨hp1, hp2, -⟩ := (h.res p d).1 hp
    exact ⟨List.mem_of_mem_take hp1, hp2⟩
  rw [h1] at hbase ⊢
  refine ⟨hbase, ⟨List.mem_append_left _ h.origin.1, ?_⟩, ?_, ?_, ?_⟩
  · rw [hold start h.origin.1]
    exact h.origin.2
  · intro x d
    rw [htake, List.mem_append, h.res, List.mem_append, List.mem_singleton,
      List.mem_singleton, RangeResult.mk.injEq]
    constructor
    · rintro (⟨hx, hd, hdm⟩ | ⟨rfl, rfl⟩)
      · exact ⟨Or.inl hx, by rw [hold x (List.mem_of_mem_take hx)]; exact hd, hdm⟩
      · exact ⟨Or.inr rfl, (hold x hcq).symm, not_lt.1 hle⟩
    · rintro ⟨hx | rfl, hd, hdm⟩
      · exact Or.inl ⟨hx, by rw [← hold x (List.mem_of_mem_take hx)]; exact hd, hdm⟩
      · exact Or.inr ⟨rfl, by rw [hd, hold x hcq]⟩
  · intro x hx hxs
    rcases List.mem_append.1 hx with hx | hx
    · obtain ⟨p, hp, hn, hcost, hd⟩ := h.parent x hx hxs
      have hpq := (hresq p _ hp).1
      refine ⟨p, ?_, hn, hcost, ?_⟩
      · rw [hold p hpq]
        exact List.mem_append_left _ hp
      · rw [hold x hx, hold p hpq]
        exact hd
    · refine ⟨c, ?_, h4 x hx, (h6 x hx).1, ?_⟩
      · rw [hold c hcq]
        exact List.mem_append_right _ (List.mem_singleton_self _)
      · rw [hold c hcq]
        show (mapGet _ x).getD 0 = _
        rw [(h6 x hx).2]
        rfl
  · intro x d hx
    have hgrow : ∀ y ∈ result.map RangeResult.Coord,
        y ∈ (result ++ [RangeResult.mk c (distOf vs c)]).map RangeResult.Coord := by
      intro y hy
      rw [List.map_append]
      exact List.mem_append_left _ hy
    rcases List.mem_append.1 hx with hx | hx
    · obtain ⟨l, hl, hmem⟩ := h.route x d hx
      exact ⟨l, hl, fun y hy => hgrow y (hmem y hy)⟩
    · rw [List.mem_singleton, RangeResult.mk.injEq] at hx
      obtain ⟨rfl, rfl⟩ := hx
      have hself : x ∈ (result ++ [RangeResult.mk x (distOf vs x)]).map RangeResult.Coord := by
        rw [List.map_append]
        exact List.mem_append_right _ (by simp)
      by_cases hxs : x = start
      · subst hxs
        refine ⟨[], ?_, ?_⟩
        · rw [h.origin.2]
          exact BackRoute.root
        · intro y hy
          rw [List.mem_singleton] at hy
          rw [hy]
          exact hself
      · obtain ⟨p, hp, hn, hcost, hd⟩ := h.parent x hcq hxs
        obtain ⟨l, hl, hmem⟩ := h.route p _ hp
        refine ⟨p :: l, ?_, ?_⟩
        · rw [hd]
          exact BackRoute.step hl (hinq p (hresq p _ hp).1) hn hcost
        · intro y hy
          rcases List.mem_cons.1 hy with hy | hy
          · rw [hy]; exact hself
          · exact hgrow y (hmem y hy)

theorem findInRangeLoop_parent (hs : g.isInBounds start = true) :
    ∀ (fuel i : Nat) (queue : List Coord) (vs : List (Coord × K))
      (result res : List (RangeResult K)),
      ParentInv g costFn start maxRange i queue vs result →
      findInRangeLoop g maxRange true costFn fuel i queue vs result = Outcome.done res →
      ∃ queue' vs', ParentInv g costFn start maxRange queue'.length queue' vs' res := by
  intro fuel
  induction fuel with
  | zero =>
    intro i queue vs result res _ h
    simp [findInRangeLoop] at h
  | succ fuel ih =>
    intro i queue vs result res hinv h
    unfold findInRangeLoop at h
    cases hc : queue[i]? with
    | none =>
      rw [hc] at h
      simp only at h
      rw [Outcome.done.injEq] at h
      subst h
      have hlen : queue.length ≤ i := List.getElem?_eq_none_iff.1 hc
      have hi : i = queue.length := le_antisymm hinv.base.idx hlen
      subst hi
      exact ⟨queue, vs, hinv⟩
    | some c =>
      rw [hc] at h
      simp only at h
      by_cases hgt : (mapGet vs c).getD 0 > maxRange
      · rw [if_pos hgt] at h
        exact ih (i + 1) queue vs result res (hinv.parent_skip hc hgt) h
      · rw [if_neg hgt] at h
        simp only [or_true, if_true] at h
        exact ih (i + 1) _ _ _ res (hinv.parent_visit hs hc hgt) h

theorem initial_parentInv (g : HexGrid T) (costFn : Option T → Option T → K) (start : Coord)
    (maxRange : K) : ParentInv g costFn start maxRange 0 [start] [(start, 0)] [] := by
  have hget : mapGet [(start, (0 : K))] start = some 0 := by
    simp [mapGet, List.lookup]
  refine ⟨initial_rangeInv g start maxRange true, ⟨List.mem_singleton_self _, ?_⟩, ?_, ?_, ?_⟩
  · unfold distOf
    rw [hget]
    rfl
  · intro c d
    simp
  · intro c hc hcs
    rw [List.mem_singleton] at hc
    exact absurd hc hcs
  · intro c d hc
    simp at hc

end Parent

/-- C20: for every grid, in-bounds `start`, `maxRange` and real-valued cost function, every
pair `(c, d)` with `c` different from `start` in the result of
`FindInRange(start, maxRange, true, costFn)` has a parent: a cell `p` with `c` in
`GetNeighbors(p)` such that `(p, dp)` is also in the result,
`costFn(payload(p), payload(c))` is not negative and `d = dp + costFn(payload(p),
payload(c))`; hence every returned cost is the cost of a passable route from `start` that
stays inside the returned set. -/
theorem findInRange_parent [LinearOrderedRing K] {xdim ydim : Int} {initFn : Coord → T}
    {g : HexGrid T} (hgen : Generate xdim ydim initFn = some g) {start : Coord}
    (hs : g.isInBounds start = true) (maxRange : K) (costFn : Option T → Option T → K)
    {fuel : Nat} (hfuel : g.hexes.length + 2 ≤ fuel) :
    ∃ res, g.FindInRange fuel start maxRange true costFn = Outcome.done res ∧
      (∀ (c : Coord) (d : K), (⟨c, d⟩ : RangeResult K) ∈ res → c ≠ start →
        ∃ (p : Coord) (dp : K), (⟨p, dp⟩ : RangeResult K) ∈ res ∧ c ∈ g.GetNeighbors p ∧
          0 ≤ costFn (g.GetAt p) (g.GetAt c) ∧ d = dp + costFn (g.GetAt p) (g.GetAt c)) ∧
      (∀ (c : Coord) (d : K), (⟨c, d⟩ : RangeResult K) ∈ res →
        ∃ l, BackRoute g costFn start (c :: l) d ∧
          ∀ x ∈ c :: l, x ∈ res.map RangeResult.Coord) := by
  obtain ⟨res, -, -, hres, -⟩ := FindInRange_spec hgen start maxRange true costFn hfuel
  refine ⟨res, hres, ?_⟩
  unfold HexGrid.FindInRange at hres
  obtain ⟨queue, vs, hinv⟩ := findInRangeLoop_parent hs fuel 0 _ _ _ res
    (initial_parentInv g costFn start maxRange) hres
  refine ⟨?_, hinv.route⟩
  intro c d hc hcs
  obtain ⟨hcq, hd, -⟩ := (hinv.res c d).1 hc
  obtain ⟨p, hp, hn, hcost, hdp⟩ := hinv.parent c (List.mem_of_mem_take hcq) hcs
  exact ⟨p, distOf vs p, hp, hn, hcost, by rw [hd, hdp]⟩

/-- Witness of C20 on the grid of the test `Nonuniform costs`. -/
theorem findInRange_parent_witness :
    ∃ res, hillGrid.FindInRange 18 ⟨0, 2⟩ 5 true enterCost = Outcome.done res ∧
      (∀ (c : Coord) (d : Int), (⟨c, d⟩ : RangeResult Int) ∈ res → c ≠ ⟨0, 2⟩ →
        ∃ (p : Coord) (dp : Int), (⟨p, dp⟩ : RangeResult Int) ∈ res ∧
          c ∈ hillGrid.GetNeighbors p ∧
          0 ≤ enterCost (hillGrid.GetAt p) (hillGrid.GetAt c) ∧
          d = dp + enterCost (hillGrid.GetAt p) (hillGrid.GetAt c)) ∧
      (∀ (c : Coord) (d : Int), (⟨c, d⟩ : RangeResult Int) ∈ res →
        ∃ l, BackRoute hillGrid enterCost ⟨0, 2⟩ (c :: l) d ∧
          ∀ x ∈ c :: l, x ∈ res.map RangeResult.Coord) :=
  findInRange_parent
    (show Generate 4 4 (fun c => ([1, 1, 5, 1, 9, 1, 5, 1, 1, 1, 3, 1, 9, 9, 1, 1] :
      List Int).getD (c.Y * 4 + c.X).toNat 0) = some hillGrid by rfl)
    (by decide) 5 enterCost (by decide)

/-! ### Growing the range -/

/-- C11 as stated fails when costs differ: on the 2x2 grid where (1,0) holds 5 and the
other cells hold 1, with the cost function of the tests and `start` (0,0), range 2 returns
(1,1) at cost 2 (through (0,1)); with range 5 the cell (1,0) is expanded first and fixes the
cost of (1,1) at 6, so (1,1) is no longer returned. -/
theorem findInRange_monotone_counterexample :
    Generate 2 2 (fun c => ([1, 5, 1, 1] : List Int).getD (c.Y * 2 + c.X).toNat 0) =
      some detourGrid ∧
    detourGrid.FindInRange 6 ⟨0, 0⟩ 2 false enterCost =
      Outcome.done [⟨⟨0, 1⟩, 1⟩, ⟨⟨1, 1⟩, 2⟩] ∧
    detourGrid.FindInRange 6 ⟨0, 0⟩ 5 false enterCost =
      Outcome.done [⟨⟨1, 0⟩, 5⟩, ⟨⟨0, 1⟩, 1⟩] ∧
    (⟨1, 1⟩ : Coord) ∈ ([⟨⟨0, 1⟩, 1⟩, ⟨⟨1, 1⟩, 2⟩] : List (RangeResult Int)).map
      RangeResult.Coord ∧
    (⟨1, 1⟩ : Coord) ∉ ([⟨⟨1, 0⟩, 5⟩, ⟨⟨0, 1⟩, 1⟩] : List (RangeResult Int)).map
      RangeResult.Coord := by
  refine ⟨by rfl, by decide, by decide, by decide, by decide⟩

/-! ### Minimal cost when every passable step costs at least 2 -/

section Optimal

variable [LinearOrderedRing K] {g : HexGrid T} {costFn : Option T → Option T → K}
  {S E : Coord}

theorem neighbor_offsets {p c : Coord} (h : c ∈ g.GetNeighbors p) :
    |p.X - c.X| ≤ 1 ∧ |p.Y - c.Y| ≤ 1 := by
  unfold HexGrid.GetNeighbors HexGrid.GetNeighborsXY at h
  obtain ⟨h, -⟩ := List.mem_filter.1 h
  obtain ⟨o, ho, rfl⟩ := List.mem_map.1 h
  have hoo : o ∈ oddOffsets ∨ o ∈ evenOffsets := by
    split at ho
    · exact Or.inl ho
    · exact Or.inr ho
  simp only [oddOffsets, evenOffsets, List.mem_cons, List.mem_singleton, List.not_mem_nil,
    or_false] at hoo
  rcases hoo with (h | h | h | h | h | h) | (h | h | h | h | h | h) <;> subst h <;>
    refine ⟨abs_le.2 ⟨?_, ?_⟩, abs_le.2 ⟨?_, ?_⟩⟩ <;> dsimp only <;> omega

/-- The estimate `estDistance` changes by at most 2 along one hex step. -/
theorem estDistance_step {p c : Coord} (E : Coord) (h : c ∈ g.GetNeighbors p) :
    (estDistance p E : K) ≤ 2 + estDistance c E := by
  obtain ⟨hx, hy⟩ := neighbor_offsets h
  have hi : |p.X - E.X| + |p.Y - E.Y| ≤ 2 + (|c.X - E.X| + |c.Y - E.Y|) := by
    have h1 : |p.X - E.X| ≤ |p.X - c.X| + |c.X - E.X| := abs_sub_le _ _ _
    have h2 : |p.Y - E.Y| ≤ |p.Y - c.Y| + |c.Y - E.Y| := abs_sub_le _ _ _
    linarith
  have hk : ((|p.X - E.X| + |p.Y - E.Y| : Int) : K) ≤
      ((2 + (|c.X - E.X| + |c.Y - E.Y|) : Int) : K) := Int.cast_le.2 hi
  unfold estDistance
  push_cast at hk ⊢
  exact hk

theorem sorted_last_le {stack : List (costData K)}
    (hs : stack.Pairwise fun a b => ¬ byScoreLess b a) {parent : costData K}
    (hlast : stack.getLast? = some parent) {e : costData K} (he : e ∈ stack) :
    parent.estTotal ≤ e.estTotal := by
  obtain ⟨ys, rfl⟩ := List.getLast?_eq_some_iff.1 hlast
  rcases List.mem_append.1 he with h | h
  · have := (List.pairwise_append.1 hs).2.2 e h parent (List.mem_singleton_self _)
    unfold byScoreLess at this
    exact not_lt.1 this
  · rw [List.mem_singleton] at h
    rw [h]

/-- Every back route to a cell that is not locked yet is matched by a stack entry whose
priority is at most the cost of the route plus the estimate of the cell. -/
theorem OptInv.open_entry (hg : g.WF) (hS : g.isInBounds S = true)
    (hcost : ∀ p c, g.isInBounds p = true → c ∈ g.GetNeighbors p →
      costFn (g.GetAt p) (g.GetAt c) < 0 ∨ 2 ≤ costFn (g.GetAt p) (g.GetAt c))
    {rc stack : List (costData K)} (hopt : OptInv g costFn S E rc stack)
    {path : List Coord} {d : K} (h : BackRoute g costFn S path d) :
    ∀ c, path.head? = some c → ¬ Visited rc (g.coordToIndex c) →
      ∃ e ∈ stack, e.estTotal ≤ d + estDistance c E := by
  induction h with
  | root =>
    intro c hc hnv
    simp only [List.head?_cons, Option.some.injEq] at hc
    subst hc
    rcases hopt.origin with h | ⟨e, he, hidx, hd⟩
    · exact absurd h hnv
    · obtain ⟨c', hc', hidx', hest⟩ := hopt.est e he
      have hcc : c' = S := coordToIndex_inj hg hc' hS (by rw [← hidx', hidx])
      subst hcc
      refine ⟨e, he, ?_⟩
      unfold costData.estTotal
      rw [hd, hest]
  | @step p c l d hb hp hn hw ih =>
    intro c1 hc hnv
    simp only [List.head?_cons, Option.some.injEq] at hc
    subst hc
    have hw2 := (hcost p c hp hn).resolve_left (not_lt.2 hw)
    have hcons : (estDistance p E : K) ≤ 2 + estDistance c E := estDistance_step E hn
    by_cases hv : Visited rc (g.coordToIndex p)
    · obtain ⟨n, hn', hd⟩ := hv
      have hbest := hopt.best p n hp hn' hd l d hb
      rcases hopt.frontier p c n hp hn' hd hn hw with h | ⟨e, he, hidx, hdist⟩
      · exact absurd h hnv
      · obtain ⟨c', hc', hidx', hest⟩ := hopt.est e he
        have hcc : c' = c := coordToIndex_inj hg hc' (mem_GetNeighbors_inBounds hn)
          (by rw [← hidx', hidx])
        subst hcc
        refine ⟨e, he, ?_⟩
        unfold costData.estTotal
        rw [hdist, hest]
        exact add_le_add_right (add_le_add_right hbest _) _
    · obtain ⟨e, he, hle⟩ := ih p rfl hv
      refine ⟨e, he, le_trans hle ?_⟩
      rw [add_assoc]
      exact add_le_add_left (le_trans hcons (add_le_add_right hw2 _)) _

/-- The entry popped for a cell that is not locked yet carries a cost that no back route to
that cell beats. -/
theorem OptInv.pop_best (hg : g.WF) (hS : g.isInBounds S = true)
    (hcost : ∀ p c, g.isInBounds p = true → c ∈ g.GetNeighbors p →
      costFn (g.GetAt p) (g.GetAt c) < 0 ∨ 2 ≤ costFn (g.GetAt p) (g.GetAt c))
    {rc stack : List (costData K)} (hopt : OptInv g costFn S E rc stack)
    {parent rv : costData K} (hlast : stack.getLast? = some parent)
    (hrv : getIdx rc parent.index = some rv) (hun : ¬ rv.distSoFar ≥ 0) {c0 : Coord}
    (hc0 : g.isInBounds c0 = true) (hidx : parent.index = g.coordToIndex c0) :
    ∀ l d, BackRoute g costFn S (c0 :: l) d → parent.distSoFar ≤ d := by
  intro l d hb
  have hnv : ¬ Visited rc (g.coordToIndex c0) := by
    rintro ⟨n, hn, hd⟩
    rw [← hidx, hrv] at hn
    have := Option.some.inj hn
    subst this
    exact hun hd
  obtain ⟨e, he, hle⟩ := hopt.open_entry hg hS hcost hb c0 rfl hnv
  have h1 := sorted_last_le hopt.sorted hlast he
  obtain ⟨c', hc', hidx', hest⟩ := hopt.est parent (mem_of_getLast? hlast)
  have hcc : c' = c0 := coordToIndex_inj hg hc' hc0 (by rw [← hidx', hidx])
  subst hcc
  unfold costData.estTotal at h1 hle
  rw [hest] at h1
  exact le_of_add_le_add_right (le_trans h1 hle)

theorem OptInv.opt_pop {rc stack : List (costData K)} (hopt : OptInv g costFn S E rc stack)
    {parent : costData K} (hlast : stack.getLast? = some parent)
    (hvis : Visited rc parent.index) : OptInv g costFn S E rc stack.dropLast where
  sorted := hopt.sorted.sublist (List.dropLast_sublist _)
  est := fun e he => hopt.est e (List.dropLast_subset _ he)
  best := hopt.best
  origin := by
    rcases hopt.origin with h | ⟨e, he, hidx, hd⟩
    · exact Or.inl h
    · rcases mem_dropLast_or hlast he with h | h
      · exact Or.inr ⟨e, h, hidx, hd⟩
      · subst h
        rw [hidx] at hvis
        exact Or.inl hvis
  frontier := by
    intro p c n hp hn hd hc hw
    rcases hopt.frontier p c n hp hn hd hc hw with h | ⟨e, he, hidx, hdist⟩
    · exact Or.inl h
    · rcases mem_dropLast_or hlast he with h | h
      · exact Or.inr ⟨e, h, hidx, hdist⟩
      · subst h
        rw [hidx] at hvis
        exact Or.inl hvis

/-- Each passable neighbour that is not locked is pushed with the cost of the popped entry
plus the cost of the step, the estimate of the neighbour and the index of the popped
entry. -/
theorem pushNeighbors_entry (costFn : Option T → Option T → K) (E : Coord)
    (rc : List (costData K)) (parent : costData K) (pc : Coord) :
    ∀ (nbrs : List Coord) (stack0 stack' : List (costData K)),
      pushNeighbors g costFn E rc parent pc nbrs stack0 = Outcome.done stack' →
      (∀ e ∈ stack0, e ∈ stack') ∧
      ∀ c ∈ nbrs, 0 ≤ costFn (g.GetAt pc) (g.GetAt c) →
        Visited rc (g.coordToIndex c) ∨
          (⟨g.coordToIndex c, parent.distSoFar + costFn (g.GetAt pc) (g.GetAt c),
            estDistance c E, parent.index⟩ : costData K) ∈ stack' := by
  intro nbrs
  induction nbrs with
  | nil =>
    intro stack0 stack' h
    unfold pushNeighbors at h
    rw [Outcome.done.injEq] at h
    subst h
    refine ⟨fun e he => he, ?_⟩
    intro c hc
    simp at hc
  | cons nb rest ih =>
    intro stack0 stack' h
    unfold pushNeighbors at h
    cases hrv : getIdx rc (g.coordToIndex nb) with
    | none =>
      rw [hrv] at h
      exact absurd h (by simp)
    | some rv =>
      rw [hrv] at h
      simp only at h
      by_cases hvis : rv.distSoFar ≥ 0
      · rw [if_pos hvis] at h
        obtain ⟨h3, h6⟩ := ih stack0 stack' h
        refine ⟨h3, ?_⟩
        intro c hc hw
        rcases List.mem_cons.1 hc with hceq | hc
        · subst hceq
          exact Or.inl ⟨rv, hrv, hvis⟩
        · exact h6 c hc hw
      · rw [if_neg hvis] at h
        by_cases hneg : costFn (g.GetAt pc) (g.GetAt nb) < 0
        · rw [if_pos hneg] at h
          obtain ⟨h3, h6⟩ := ih stack0 stack' h
          refine ⟨h3, ?_⟩
          intro c hc hw
          rcases List.mem_cons.1 hc with hceq | hc
          · subst hceq
            exact absurd hw (not_le.2 hneg)
          · exact h6 c hc hw
        · rw [if_neg hneg] at h
          obtain ⟨h3, h6⟩ := ih _ stack' h
          refine ⟨fun e he => h3 e (List.mem_append_left _ he), ?_⟩
          intro c hc hw
          rcases List.mem_cons.1 hc with hceq | hc
          · subst hceq
            exact Or.inr (h3 _ (List.mem_append_right _ (List.mem_singleton_self _)))
          · exact h6 c hc hw

theorem OptInv.opt_step (hg : g.WF) (hS : g.isInBounds S = true)
    (hcost : ∀ p c, g.isInBounds p = true → c ∈ g.GetNeighbors p →
      costFn (g.GetAt p) (g.GetAt c) < 0 ∨ 2 ≤ costFn (g.GetAt p) (g.GetAt c))
    {rc stack : List (costData K)} (hopt : OptInv g costFn S E rc stack)
    {parent rv : costData K} (hlast : stack.getLast? = some parent)
    (hrv : getIdx rc parent.index = some rv) (hun : ¬ rv.distSoFar ≥ 0)
    (hd0 : 0 ≤ parent.distSoFar) {pc : Coord} (hpc : g.isInBounds pc = true)
    (hidx : parent.index = g.coordToIndex pc) {stack' stack'' : List (costData K)}
    (h3 : ∀ e ∈ stack.dropLast, e ∈ stack')
    (h4 : ∀ e ∈ stack', e ∈ stack.dropLast ∨ ∃ c ∈ g.GetNeighbors pc,
      0 ≤ costFn (g.GetAt pc) (g.GetAt c) ∧
      e = ⟨g.coordToIndex c, parent.distSoFar + costFn (g.GetAt pc) (g.GetAt c),
        estDistance c E, parent.index⟩)
    (h6 : ∀ c ∈ g.GetNeighbors pc, 0 ≤ costFn (g.GetAt pc) (g.GetAt c) →
      Visited (setIdx rc parent.index parent) (g.coordToIndex c) ∨
        (⟨g.coordToIndex c, parent.distSoFar + costFn (g.GetAt pc) (g.GetAt c),
          estDistance c E, parent.index⟩ : costData K) ∈ stack')
    (hperm : ∀ e, e ∈ stack'' ↔ e ∈ stack')
    (hsorted : stack''.Pairwise fun a b => ¬ byScoreLess b a) :
    OptInv g costFn S E (setIdx rc parent.index parent) stack'' := by
  have hrange := getIdx_some_range hrv
  have hmono : ∀ i n, getIdx rc i = some n → 0 ≤ n.distSoFar →
      getIdx (setIdx rc parent.index parent) i = some n := by
    intro i n hi hn
    have hine : parent.index ≠ i := by
      intro heq
      rw [← heq, hrv] at hi
      have := Option.some.inj hi
      subst this
      exact hun hn
    rw [getIdx_setIdx_ne _ hrange.1 hine]
    exact hi
  have hself : getIdx (setIdx rc parent.index parent) parent.index = some parent :=
    getIdx_setIdx_eq _ hrange.1 hrange.2
  have hvmono : ∀ i, Visited rc i → Visited (setIdx rc parent.index parent) i := by
    rintro i ⟨n, hn, hd⟩
    exact ⟨n, hmono i n hn hd, hd⟩
  have hparentvis : Visited (setIdx rc parent.index parent) parent.index :=
    ⟨parent, hself, hd0⟩
  have hpop := hopt.pop_best hg hS hcost hlast hrv hun hpc hidx
  refine ⟨hsorted, ?_, ?_, ?_, ?_⟩
  · intro e he
    rcases h4 e ((hperm e).1 he) with h | ⟨c, hc, -, heq⟩
    · exact hopt.est e (List.dropLast_subset _ h)
    · subst heq
      exact ⟨c, mem_GetNeighbors_inBounds hc, rfl, rfl⟩
  · intro c n hc hn hd l d hb
    by_cases hip : parent.index = g.coordToIndex c
    · have hceq : c = pc := by
        rw [hidx] at hip
        exact (coordToIndex_inj hg hpc hc hip).symm
      subst hceq
      rw [← hip, hself] at hn
      have := Option.some.inj hn
      subst this
      exact hpop l d hb
    · rw [getIdx_setIdx_ne _ hrange.1 hip] at hn
      exact hopt.best c n hc hn hd l d hb
  · rcases hopt.origin with h | ⟨e, he, hidx', hd⟩
    · exact Or.inl (hvmono _ h)
    · rcases mem_dropLast_or hlast he with h | h
      · exact Or.inr ⟨e, (hperm e).2 (h3 e h), hidx', hd⟩
      · subst h
        refine Or.inl ?_
        rw [← hidx']
        exact hparentvis
  · intro p c n hp hn hd hc hw
    by_cases hip : parent.index = g.coordToIndex p
    · have hpeq : p = pc := by
        rw [hidx] at hip
        exact (coordToIndex_inj hg hpc hp hip).symm
      subst hpeq
      rw [← hip, hself] at hn
      have := Option.some.inj hn
      subst this
      rcases h6 c hc hw with h | h
      · exact Or.inl h
      · exact Or.inr ⟨_, (hperm _).2 h, rfl, rfl⟩
    · rw [getIdx_setIdx_ne _ hrange.1 hip] at hn
      rcases hopt.frontier p c n hp hn hd hc hw with h | ⟨e, he, hidx', hdist⟩
      · exact Or.inl (hvmono _ h)
      · rcases mem_dropLast_or hlast he with h | h
        · exact Or.inr ⟨e, (hperm e).2 (h3 e h), hidx', hdist⟩
        · subst h
          refine Or.inl ?_
          rw [← hidx']
          exact hparentvis

/-- With enough loop budget the main loop returns, and when it reports a path its cost is
at most the cost of every back route from the goal to the origin. -/
theorem findPathLoop_minimal (hg : g.WF) (hS : g.isInBounds S = true)
    (hE : g.isInBounds E = true)
    (hcost : ∀ p c, g.isInBounds p = true → c ∈ g.GetNeighbors p →
      costFn (g.GetAt p) (g.GetAt c) < 0 ∨ 2 ≤ costFn (g.GetAt p) (g.GetAt c))
    {sortFn : List (costData K) → List (costData K)} (hsort : SortContract sortFn) :
    ∀ (fuel : Nat) (rc stack : List (costData K)), PathInv g costFn S E rc stack →
      OptInv g costFn S E rc stack →
      6 * unvisited rc + stack.length + rc.length + 1 ≤ fuel →
      ∃ r, findPathLoop sortFn g costFn E (g.coordToIndex E) fuel rc stack = Outcome.done r ∧
        (r.err = false → ∀ l d, BackRoute g costFn S (E :: l) d → r.cost ≤ d) := by
  intro fuel
  induction fuel with
  | zero =>
    intro rc stack _ _ hf
    omega
  | succ fuel ih =>
    intro rc stack hinv hopt hf
    unfold findPathLoop
    cases hlast : stack.getLast? with
    | none =>
      refine ⟨⟨0, [], true⟩, rfl, ?_⟩
      intro herr
      exact absurd herr (by simp)
    | some parent =>
      obtain ⟨path, htr, hbound⟩ := hinv.stk parent (mem_of_getLast? hlast)
      obtain ⟨c0, l0, hpath, hc0, hidx⟩ := htr.head hS
      have hr := coordToIndex_range hg hc0
      rw [← hinv.len, ← hidx] at hr
      obtain ⟨rv, hrv⟩ := getIdx_of_range hr.1 hr.2
      have hlenstack := length_dropLast_of_getLast? hlast
      simp only [hrv]
      by_cases hvis : rv.distSoFar ≥ 0
      · rw [if_pos hvis]
        exact ih rc stack.dropLast (inv_pop hinv hlast ⟨rv, hrv, hvis⟩)
          (hopt.opt_pop hlast ⟨rv, hrv, hvis⟩) (by omega)
      · rw [if_neg hvis]
        have hself : getIdx (setIdx rc parent.index parent) parent.index = some parent :=
          getIdx_setIdx_eq _ hr.1 hr.2
        have hmono : ∀ i n, getIdx rc i = some n → 0 ≤ n.distSoFar →
            getIdx (setIdx rc parent.index parent) i = some n := by
          intro i n hi hn
          have hine : parent.index ≠ i := by
            intro heq
            rw [← heq, hrv] at hi
            have := Option.some.inj hi
            subst this
            exact hvis hn
          rw [getIdx_setIdx_ne _ hr.1 hine]
          exact hi
        have hule := unvisited_le_length rc
        by_cases hend : parent.index = g.coordToIndex E
        · simp only [hend, if_true]
          rw [← hend, hself]
          simp only
          have hrec := reconstruct_of_traced hg hS (htr.mono hmono) (fuel + 1) []
            (by omega)
          rw [hrec]
          refine ⟨_, rfl, fun _ => ?_⟩
          exact hopt.pop_best hg hS hcost hlast hrv hvis hE hend
        · simp only [hend, if_false]
          have hpc : g.indexToCoord parent.index = some c0 := by
            rw [hidx]; exact indexToCoord_coordToIndex hg hc0
          simp only [hpc]
          obtain ⟨stack', h1, h2, h3, h4, h5⟩ :=
            pushNeighbors_spec costFn E hg
              (setIdx rc parent.index parent)
              (by rw [length_setIdx]; exact hinv.len) parent c0 (g.GetNeighbors c0)
              stack.dropLast (fun c hc => mem_GetNeighbors_inBounds hc)
          have h6 := (pushNeighbors_entry costFn E _ parent c0 _ _ _ h1).2
          rw [h1]
          simp only
          have hU : unvisited (setIdx rc parent.index parent) + 1 = unvisited rc :=
            unvisited_setIdx hrv (not_le.1 hvis) htr.dist_nonneg
          have hn6 := GetNeighbors_length_le g c0
          refine ih _ _ (inv_step hg hS hinv hlast hrv hvis hend hpc h3 h4 h5
            (fun e => (hsort stack').1.mem_iff))
            (hopt.opt_step hg hS hcost hlast hrv hvis htr.dist_nonneg hc0 hidx h3 h4 h6
              (fun e => (hsort stack').1.mem_iff) (hsort stack').2) ?_
          rw [(hsort stack').1.length_eq, length_setIdx]
          omega

theorem initial_optInv (hS : g.isInBounds S = true) (E : Coord) :
    OptInv g costFn S E
      ((List.range g.hexes.length).map fun (i : Nat) => (⟨Int.ofNat i, -1, -1, -1⟩ : costData K))
      [⟨g.coordToIndex S, 0, estDistance S E, -1⟩] := by
  have hnov : ∀ i n, getIdx
      ((List.range g.hexes.length).map fun (i : Nat) =>
        (⟨Int.ofNat i, -1, -1, -1⟩ : costData K)) i = some n → ¬ 0 ≤ n.distSoFar := by
    intro i n hn hd
    rw [getIdx_initial hn] at hd
    have : (-1 : K) < 0 := by simp
    exact absurd hd (not_le.2 this)
  refine ⟨List.pairwise_singleton _ _, ?_, ?_, ?_, ?_⟩
  · intro e he
    rw [List.mem_singleton] at he
    subst he
    exact ⟨S, hS, rfl, rfl⟩
  · intro c n _ hn hd
    exact absurd hd (hnov _ n hn)
  · exact Or.inr ⟨_, List.mem_singleton_self _, rfl, rfl⟩
  · intro p c n _ hn hd
    exact absurd hd (hnov _ n hn)

/-- A passable route, read backwards, is a back route whose cost is the forward traversal
cost of the route. -/
theorem BackRoute.extend_cost (costFn : Option T → Option T → K) {S : Coord} :
    ∀ (cs : List Coord) (p : Coord) (l : List Coord) (d : K),
      BackRoute g costFn S (p :: l) d → g.isInBounds p = true →
      List.Chain (fun c c' => c' ∈ g.GetNeighbors c ∧ 0 ≤ costFn (g.GetAt c) (g.GetAt c'))
        p cs →
      ∃ e l', (p :: cs).getLast? = some e ∧
        BackRoute g costFn S (e :: l') (d + pathCost g costFn (p :: cs)) := by
  intro cs
  induction cs with
  | nil =>
    intro p l d hb _ _
    refine ⟨p, l, rfl, ?_⟩
    have : pathCost g costFn [p] = 0 := rfl
    rw [this, add_zero]
    exact hb
  | cons c cs ih =>
    intro p l d hb hp hch
    obtain ⟨⟨hn, hw⟩, hch'⟩ := List.chain_cons.1 hch
    obtain ⟨e, l', he, hb'⟩ := ih c (p :: l) _ (BackRoute.step hb hp hn hw)
      (mem_GetNeighbors_inBounds hn) hch'
    refine ⟨e, l', ?_, ?_⟩
    · rw [List.getLast?_cons_cons]
      exact he
    · have : pathCost g costFn (p :: c :: cs) =
          costFn (g.GetAt p) (g.GetAt c) + pathCost g costFn (c :: cs) := rfl
      rw [this, ← add_assoc]
      exact hb'

theorem backRoute_cost_of_passable {cs : List Coord}
    (h : PassableRoute g costFn S E cs) :
    ∃ l, BackRoute g costFn S (E :: l) (pathCost g costFn cs) := by
  obtain ⟨hhead, hlast, hin, hlink⟩ := h
  rw [linked_iff_chain' (fun c c' => c' ∈ g.GetNeighbors c ∧
    0 ≤ costFn (g.GetAt c) (g.GetAt c'))] at hlink
  cases cs with
  | nil => simp at hhead
  | cons a rest =>
    simp only [List.head?_cons, Option.some.injEq] at hhead
    subst hhead
    obtain ⟨e, l', he, hb⟩ := BackRoute.extend_cost costFn rest a [] 0
      BackRoute.root (hin a (List.mem_cons_self _ _)) hlink
    rw [hlast] at he
    have := Option.some.inj he
    subst this
    rw [zero_add] at hb
    exact ⟨l', hb⟩

theorem pathCost_snoc (g : HexGrid T) (costFn : Option T → Option T → K) (xs : List Coord)
    (b a : Coord) :
    pathCost g costFn (xs ++ [b, a]) =
      pathCost g costFn (xs ++ [b]) + costFn (g.GetAt b) (g.GetAt a) := by
  induction xs with
  | nil => simp [pathCost]
  | cons x xs ih =>
    cases xs with
    | nil => simp [pathCost, add_assoc]
    | cons y ys =>
      have e1 : pathCost g costFn (x :: y :: ys ++ [b, a]) =
          costFn (g.GetAt x) (g.GetAt y) + pathCost g costFn (y :: ys ++ [b, a]) := rfl
      have e2 : pathCost g costFn (x :: y :: ys ++ [b]) =
          costFn (g.GetAt x) (g.GetAt y) + pathCost g costFn (y :: ys ++ [b]) := rfl
      rw [e1, e2, ih, add_assoc]

/-- The forward cost of a reversed path is the backward cost of the path. -/
theorem pathCost_reverse (g : HexGrid T) (costFn : Option T → Option T → K) :
    ∀ l : List Coord, pathCost g costFn l.reverse = pathCostRev g costFn l := by
  intro l
  induction l with
  | nil => rfl
  | cons a l ih =>
    cases l with
    | nil => rfl
    | cons b t =>
      have e1 : (a :: b :: t).reverse = t.reverse ++ [b, a] := by simp
      have e2 : (b :: t).reverse = t.reverse ++ [b] := by simp
      have e3 : pathCostRev g costFn (a :: b :: t) =
          costFn (g.GetAt b) (g.GetAt a) + pathCostRev g costFn (b :: t) := rfl
      rw [e1, pathCost_snoc, ← e2, ih, e3, add_comm]

end Optimal

/-- With the cost function of the tests, every step between cells of `tollGrid` costs a
negative value or at least 2. -/
theorem tollGrid_costs (p c : Coord) (_hp : tollGrid.isInBounds p = true)
    (hc : c ∈ tollGrid.GetNeighbors p) :
    enterCost (tollGrid.GetAt p) (tollGrid.GetAt c) < 0 ∨
      2 ≤ enterCost (tollGrid.GetAt p) (tollGrid.GetAt c) := by
  have hb := (isInBounds_iff tollGrid c).1 (mem_GetNeighbors_inBounds hc)
  obtain ⟨x, y⟩ := c
  have hx : tollGrid.xdim = 3 := rfl
  have hy : tollGrid.ydim = 3 := rfl
  rw [hx, hy] at hb
  dsimp only at hb
  obtain ⟨h1, h2, h3, h4⟩ := hb
  show (tollGrid.GetAt ⟨x, y⟩).getD 0 < 0 ∨ 2 ≤ (tollGrid.GetAt ⟨x, y⟩).getD 0
  interval_cases x <;> interval_cases y <;> decide

/-- C19: if the cost function returns, for every pair of adjacent cells, a negative value or
a value of at least 2, then for every in-bounds `start` and `end` and every order in which
`sort.Sort` leaves entries of equal priority, `FindPath` returns, and when it succeeds its
cost is minimal: it is the total cost of one passable route `end = c0, ..., cn = start`,
costed as the sum of `costFn(payload(c(k)), payload(c(k+1)))`, and it is at most the total
cost of every such route. -/
theorem findPath_cost_minimal [LinearOrderedRing K] {xdim ydim : Int} {initFn : Coord → T}
    {g : HexGrid T} (hgen : Generate xdim ydim initFn = some g) {start end_ : Coord}
    (hs : g.isInBounds start = true) (he : g.isInBounds end_ = true)
    (costFn : Option T → Option T → K)
    (hcost : ∀ p c, g.isInBounds p = true → c ∈ g.GetNeighbors p →
      costFn (g.GetAt p) (g.GetAt c) < 0 ∨ 2 ≤ costFn (g.GetAt p) (g.GetAt c))
    {sortFn : List (costData K) → List (costData K)} (hsort : SortContract sortFn)
    {fuel : Nat} (hfuel : 7 * g.hexes.length + 2 ≤ fuel) :
    ∃ r, g.FindPath sortFn fuel start end_ costFn = Outcome.done r ∧
      (r.err = false →
        (∃ cs, PassableRoute g costFn end_ start cs ∧ r.cost = pathCost g costFn cs) ∧
        ∀ cs, PassableRoute g costFn end_ start cs → r.cost ≤ pathCost g costFn cs) := by
  have hg := generate_wf hgen hs
  obtain ⟨r', hr', hpost⟩ := FindPath_spec costFn hg hs he hsort hfuel
  have hloop := findPathLoop_minimal hg he hs hcost hsort fuel _ _
    (initial_inv end_ start (estDistance end_ start)) (initial_optInv he start) (by
      have := unvisited_le_length
        ((List.range g.hexes.length).map fun (i : Nat) =>
          (⟨Int.ofNat i, -1, -1, -1⟩ : costData K))
      simp only [List.length_map, List.length_range, List.length_singleton] at this ⊢
      omega)
  obtain ⟨r, hr, hmin⟩ := hloop
  have hrr : r' = r := by
    have hr2 : g.FindPath sortFn fuel start end_ costFn = Outcome.done r := hr
    rw [hr', Outcome.done.injEq] at hr2
    exact hr2
  subst hrr
  refine ⟨r', hr', ?_⟩
  intro herr
  refine ⟨?_, ?_⟩
  · rcases hpost with ⟨-, hhead, hroute⟩ | ⟨herr', -⟩
    · refine ⟨r'.path.reverse, hroute.passable he hhead, ?_⟩
      rw [pathCost_reverse]
      exact hroute.cost_eq
    · rw [herr] at herr'
      exact absurd herr' (by simp)
  · intro cs hcs
    obtain ⟨l, hb⟩ := backRoute_cost_of_passable hcs
    exact hmin herr l _ hb

/-- Witness of C19 on `tollGrid` with the cost function of the tests, from (0,0) to (2,2):
the search succeeds with cost 6, and no passable route from (2,2) to (0,0) is cheaper. -/
theorem findPath_cost_minimal_witness :
    (∃ r, tollGrid.FindPath insertionSort 65 ⟨0, 0⟩ ⟨2, 2⟩ enterCost = Outcome.done r ∧
      (r.err = false →
        (∃ cs, PassableRoute tollGrid enterCost ⟨2, 2⟩ ⟨0, 0⟩ cs ∧
          r.cost = pathCost tollGrid enterCost cs) ∧
        ∀ cs, PassableRoute tollGrid enterCost ⟨2, 2⟩ ⟨0, 0⟩ cs →
          r.cost ≤ pathCost tollGrid enterCost cs)) ∧
    tollGrid.FindPath insertionSort 65 ⟨0, 0⟩ ⟨2, 2⟩ enterCost =
      Outcome.done ⟨6, [⟨0, 0⟩, ⟨0, 1⟩, ⟨1, 2⟩, ⟨2, 2⟩], false⟩ :=
  ⟨findPath_cost_minimal
    (show Generate 3 3 (fun c => ([2, -1, 2, 2, 5, 2, 2, 2, 3] : List Int).getD
      (c.Y * 3 + c.X).toNat 0) = some tollGrid by rfl)
    (by decide) (by decide) enterCost tollGrid_costs insertionSort_contract (by decide),
   by decide⟩

/-! ### Unit costs: the cost of `FindPath` is at most the estimate `estDistance` -/

section Bounded

variable [LinearOrderedRing K] {g : HexGrid T} {costFn : Option T → Option T → K}
  {S E : Coord}

theorem estDistance_natAbs (a b : Coord) :
    (estDistance a b : K) = (((a.X - b.X).natAbs + (a.Y - b.Y).natAbs : Nat) : K) := by
  unfold estDistance
  rw [← Int.natCast_natAbs, ← Int.natCast_natAbs, Int.cast_natCast, Int.cast_natCast,
    Nat.cast_add]

theorem estDistance_comm (a b : Coord) : (estDistance a b : K) = estDistance b a := by
  rw [estDistance_natAbs, estDistance_natAbs]
  congr 1
  omega

theorem estDistance_self (a : Coord) : (estDistance a a : K) = 0 := by
  rw [estDistance_natAbs]
  simp

/-- From every in-bounds cell other than `E` one step along a row or a column leads to an
in-bounds neighbour that is closer to `E` by one in the measure of `estDistance`. -/
theorem exists_closer {c E : Coord} (hc : g.isInBounds c = true) (hE : g.isInBounds E = true)
    (hne : c ≠ E) :
    ∃ c', g.isInBounds c' = true ∧ c' ∈ g.GetNeighbors c ∧
      (c.X - E.X).natAbs + (c.Y - E.Y).natAbs =
        (c'.X - E.X).natAbs + (c'.Y - E.Y).natAbs + 1 := by
  have hc' := (isInBounds_iff g c).1 hc
  have hE' := (isInBounds_iff g E).1 hE
  have hxy : c.X ≠ E.X ∨ c.Y ≠ E.Y := by
    by_contra hcon
    push_neg at hcon
    apply hne
    obtain ⟨cx, cy⟩ := c
    obtain ⟨ex, ey⟩ := E
    simp only at hcon
    rw [hcon.1, hcon.2]
  by_cases hx : c.X = E.X
  · by_cases hy : E.Y < c.Y
    · have hp : g.isInBounds ⟨c.X, c.Y - 1⟩ = true := by
        rw [isInBounds_iff]; simp only; omega
      refine ⟨⟨c.X, c.Y - 1⟩, hp, mem_GetNeighbors_of_axis hc hp
        (Or.inl ⟨rfl, Or.inr rfl⟩), ?_⟩
      simp only
      omega
    · have hp : g.isInBounds ⟨c.X, c.Y + 1⟩ = true := by
        rw [isInBounds_iff]; simp only; omega
      refine ⟨⟨c.X, c.Y + 1⟩, hp, mem_GetNeighbors_of_axis hc hp
        (Or.inl ⟨rfl, Or.inl rfl⟩), ?_⟩
      simp only
      omega
  · by_cases hlt : E.X < c.X
    · have hp : g.isInBounds ⟨c.X - 1, c.Y⟩ = true := by
        rw [isInBounds_iff]; simp only; omega
      refine ⟨⟨c.X - 1, c.Y⟩, hp, mem_GetNeighbors_of_axis hc hp
        (Or.inr ⟨rfl, Or.inr rfl⟩), ?_⟩
      simp only
      omega
    · have hp : g.isInBounds ⟨c.X + 1, c.Y⟩ = true := by
        rw [isInBounds_iff]; simp only; omega
      refine ⟨⟨c.X + 1, c.Y⟩, hp, mem_GetNeighbors_of_axis hc hp
        (Or.inr ⟨rfl, Or.inl rfl⟩), ?_⟩
      simp only
      omega

/-- While the goal is not locked, below every locked cell there is a stack entry whose
priority is at most the estimate of the origin. -/
theorem BoundInv.descend (hg : g.WF) (hE : g.isInBounds E = true)
    (hunit : ∀ p c, g.isInBounds p = true → c ∈ g.GetNeighbors p →
      costFn (g.GetAt p) (g.GetAt c) = 1)
    {rc stack : List (costData K)} (hb : BoundInv g costFn S E rc stack)
    (hgoal : ¬ Visited rc (g.coordToIndex E)) :
    ∀ (m : Nat) (c : Coord) (n : costData K), g.isInBounds c = true →
      getIdx rc (g.coordToIndex c) = some n → 0 ≤ n.distSoFar →
      (c.X - E.X).natAbs + (c.Y - E.Y).natAbs = m →
      ∃ e ∈ stack, e.estTotal ≤ estDistance S E := by
  intro m
  induction m with
  | zero =>
    intro c n hc hn hd hm
    have hcE : c = E := by
      obtain ⟨cx, cy⟩ := c
      obtain ⟨ex, ey⟩ := E
      simp only [Coord.mk.injEq]
      simp only at hm
      omega
    subst hcE
    exact absurd ⟨n, hn, hd⟩ hgoal
  | succ m ih =>
    intro c n hc hn hd hm
    have hne : c ≠ E := by
      intro hcE
      subst hcE
      simp at hm
    obtain ⟨c', hc', hmem, hstep⟩ := exists_closer hc hE hne
    have hone := hunit c c' hc hmem
    have hpos : 0 ≤ costFn (g.GetAt c) (g.GetAt c') := by
      rw [hone]; exact zero_le_one
    by_cases hv : Visited rc (g.coordToIndex c')
    · obtain ⟨n', hn', hd'⟩ := hv
      exact ih c' n' hc' hn' hd' (by omega)
    · rcases hb.frontier c c' n hc hn hd hmem hpos with h | ⟨e, he, hidx, hdist⟩
      · exact absurd h hv
      · obtain ⟨c'', hc'', hidx'', hest⟩ := hb.est e he
        have hcc : c'' = c' := coordToIndex_inj hg hc'' hc' (by rw [← hidx'', hidx])
        subst hcc
        refine ⟨e, he, ?_⟩
        have hbound := hb.bound c n hc hn hd
        have hh : (estDistance c E : K) = estDistance c'' E + 1 := by
          rw [estDistance_natAbs, estDistance_natAbs, hstep, Nat.cast_add, Nat.cast_one]
        unfold costData.estTotal
        rw [hdist, hest, hone]
        rw [hh] at hbound
        have hre : n.distSoFar + 1 + (estDistance c'' E : K) =
            n.distSoFar + (estDistance c'' E + 1) := by abel
        rw [hre]
        exact hbound

theorem BoundInv.low_entry (hg : g.WF) (hS : g.isInBounds S = true)
    (hE : g.isInBounds E = true)
    (hunit : ∀ p c, g.isInBounds p = true → c ∈ g.GetNeighbors p →
      costFn (g.GetAt p) (g.GetAt c) = 1)
    {rc stack : List (costData K)} (hb : BoundInv g costFn S E rc stack)
    (hgoal : ¬ Visited rc (g.coordToIndex E)) :
    ∃ e ∈ stack, e.estTotal ≤ estDistance S E := by
  rcases hb.origin with ⟨n, hn, hd⟩ | ⟨e, he, hidx, hd⟩
  · exact hb.descend hg hE hunit hgoal _ S n hS hn hd rfl
  · obtain ⟨c', hc', hidx', hest⟩ := hb.est e he
    have hcc : c' = S := coordToIndex_inj hg hc' hS (by rw [← hidx', hidx])
    subst hcc
    refine ⟨e, he, ?_⟩
    unfold costData.estTotal
    rw [hd, hest, zero_add]

/-- The entry popped while the goal is not locked has a priority of at most the estimate of
the origin. -/
theorem BoundInv.pop_bound (hg : g.WF) (hS : g.isInBounds S = true)
    (hE : g.isInBounds E = true)
    (hunit : ∀ p c, g.isInBounds p = true → c ∈ g.GetNeighbors p →
      costFn (g.GetAt p) (g.GetAt c) = 1)
    {rc stack : List (costData K)} (hb : BoundInv g costFn S E rc stack)
    (hgoal : ¬ Visited rc (g.coordToIndex E)) {parent : costData K}
    (hlast : stack.getLast? = some parent) :
    parent.estTotal ≤ estDistance S E := by
  obtain ⟨e, he, hle⟩ := hb.low_entry hg hS hE hunit hgoal
  exact le_trans (sorted_last_le hb.sorted hlast he) hle

theorem BoundInv.bound_pop {rc stack : List (costData K)}
    (hb : BoundInv g costFn S E rc stack)
    {parent : costData K} (hlast : stack.getLast? = some parent)
    (hvis : Visited rc parent.index) : BoundInv g costFn S E rc stack.dropLast where
  sorted := hb.sorted.sublist (List.dropLast_sublist _)
  est := fun e he => hb.est e (List.dropLast_subset _ he)
  bound := hb.bound
  origin := by
    rcases hb.origin with h | ⟨e, he, hidx, hd⟩
    · exact Or.inl h
    · rcases mem_dropLast_or hlast he with h | h
      · exact Or.inr ⟨e, h, hidx, hd⟩
      · subst h
        rw [hidx] at hvis
        exact Or.inl hvis
  frontier := by
    intro p c n hp hn hd hc hw
    rcases hb.frontier p c n hp hn hd hc hw with h | ⟨e, he, hidx, hdist⟩
    · exact Or.inl h
    · rcases mem_dropLast_or hlast he with h | h
      · exact Or.inr ⟨e, h, hidx, hdist⟩
      · subst h
        rw [hidx] at hvis
        exact Or.inl hvis

theorem BoundInv.bound_step (hg : g.WF)
    {rc stack : List (costData K)} (hb : BoundInv g costFn S E rc stack)
    {parent rv : costData K} (hlast : stack.getLast? = some parent)
    (hrv : getIdx rc parent.index = some rv) (hun : ¬ rv.distSoFar ≥ 0)
    (hd0 : 0 ≤ parent.distSoFar) (hpop : parent.estTotal ≤ estDistance S E) {pc : Coord}
    (hpc : g.isInBounds pc = true)
    (hidx : parent.index = g.coordToIndex pc) {stack' stack'' : List (costData K)}
    (h3 : ∀ e ∈ stack.dropLast, e ∈ stack')
    (h4 : ∀ e ∈ stack', e ∈ stack.dropLast ∨ ∃ c ∈ g.GetNeighbors pc,
      0 ≤ costFn (g.GetAt pc) (g.GetAt c) ∧
      e = ⟨g.coordToIndex c, parent.distSoFar + costFn (g.GetAt pc) (g.GetAt c),
        estDistance c E, parent.index⟩)
    (h6 : ∀ c ∈ g.GetNeighbors pc, 0 ≤ costFn (g.GetAt pc) (g.GetAt c) →
      Visited (setIdx rc parent.index parent) (g.coordToIndex c) ∨
        (⟨g.coordToIndex c, parent.distSoFar + costFn (g.GetAt pc) (g.GetAt c),
          estDistance c E, parent.index⟩ : costData K) ∈ stack')
    (hperm : ∀ e, e ∈ stack'' ↔ e ∈ stack')
    (hsorted : stack''.Pairwise fun a b => ¬ byScoreLess b a) :
    BoundInv g costFn S E (setIdx rc parent.index parent) stack'' := by
  have hrange := getIdx_some_range hrv
  have hmono : ∀ i n, getIdx rc i = some n → 0 ≤ n.distSoFar →
      getIdx (setIdx rc parent.index parent) i = some n := by
    intro i n hi hn
    have hine : parent.index ≠ i := by
      intro heq
      rw [← heq, hrv] at hi
      have := Option.some.inj hi
      subst this
      exact hun hn
    rw [getIdx_setIdx_ne _ hrange.1 hine]
    exact hi
  have hself : getIdx (setIdx rc parent.index parent) parent.index = some parent :=
    getIdx_setIdx_eq _ hrange.1 hrange.2
  have hvmono : ∀ i, Visited rc i → Visited (setIdx rc parent.index parent) i := by
    rintro i ⟨n, hn, hd⟩
    exact ⟨n, hmono i n hn hd, hd⟩
  have hparentvis : Visited (setIdx rc parent.index parent) parent.index :=
    ⟨parent, hself, hd0⟩
  obtain ⟨c0, hc0, hidx0, hest0⟩ := hb.est parent (mem_of_getLast? hlast)
  have hc0pc : c0 = pc := coordToIndex_inj hg hc0 hpc (by rw [← hidx0, hidx])
  subst hc0pc
  refine ⟨hsorted, ?_, ?_, ?_, ?_⟩
  · intro e he
    rcases h4 e ((hperm e).1 he) with h | ⟨c, hc, -, heq⟩
    · exact hb.est e (List.dropLast_subset _ h)
    · subst heq
      exact ⟨c, mem_GetNeighbors_inBounds hc, rfl, rfl⟩
  · intro c n hc hn hd
    by_cases hip : parent.index = g.coordToIndex c
    · have hceq : c = c0 := by
        rw [hidx] at hip
        exact (coordToIndex_inj hg hpc hc hip).symm
      subst hceq
      rw [← hip, hself] at hn
      have := Option.some.inj hn
      subst this
      unfold costData.estTotal at hpop
      rw [hest0] at hpop
      exact hpop
    · rw [getIdx_setIdx_ne _ hrange.1 hip] at hn
      exact hb.bound c n hc hn hd
  · rcases hb.origin with h | ⟨e, he, hidx', hd⟩
    · exact Or.inl (hvmono _ h)
    · rcases mem_dropLast_or hlast he with h | h
      · exact Or.inr ⟨e, (hperm e).2 (h3 e h), hidx', hd⟩
      · subst h
        refine Or.inl ?_
        rw [← hidx']
        exact hparentvis
  · intro p c n hp hn hd hc hw
    by_cases hip : parent.index = g.coordToIndex p
    · have hpeq : p = c0 := by
        rw [hidx] at hip
        exact (coordToIndex_inj hg hpc hp hip).symm
      subst hpeq
      rw [← hip, hself] at hn
      have := Option.some.inj hn
      subst this
      rcases h6 c hc hw with h | h
      · exact Or.inl h
      · exact Or.inr ⟨_, (hperm _).2 h, rfl, rfl⟩
    · rw [getIdx_setIdx_ne _ hrange.1 hip] at hn
      rcases hb.frontier p c n hp hn hd hc hw with h | ⟨e, he, hidx', hdist⟩
      · exact Or.inl (hvmono _ h)
      · rcases mem_dropLast_or hlast he with h | h
        · exact Or.inr ⟨e, (hperm e).2 (h3 e h), hidx', hdist⟩
        · subst h
          refine Or.inl ?_
          rw [← hidx']
          exact hparentvis

/-- With enough loop budget and unit costs the main loop returns, and when it reports a path
its cost is at most the estimate `estDistance` between the origin and the goal. -/
theorem findPathLoop_bound (hg : g.WF) (hS : g.isInBounds S = true)
    (hE : g.isInBounds E = true)
    (hunit : ∀ p c, g.isInBounds p = true → c ∈ g.GetNeighbors p →
      costFn (g.GetAt p) (g.GetAt c) = 1)
    {sortFn : List (costData K) → List (costData K)} (hsort : SortContract sortFn) :
    ∀ (fuel : Nat) (rc stack : List (costData K)), PathInv g costFn S E rc stack →
      BoundInv g costFn S E rc stack →
      6 * unvisited rc + stack.length + rc.length + 1 ≤ fuel →
      ∃ r, findPathLoop sortFn g costFn E (g.coordToIndex E) fuel rc stack = Outcome.done r ∧
        (r.err = false → r.cost ≤ estDistance S E) := by
  intro fuel
  induction fuel with
  | zero =>
    intro rc stack _ _ hf
    omega
  | succ fuel ih =>
    intro rc stack hinv hb hf
    unfold findPathLoop
    cases hlast : stack.getLast? with
    | none =>
      refine ⟨⟨0, [], true⟩, rfl, ?_⟩
      intro herr
      exact absurd herr (by simp)
    | some parent =>
      obtain ⟨path, htr, hbound⟩ := hinv.stk parent (mem_of_getLast? hlast)
      obtain ⟨c0, l0, hpath, hc0, hidx⟩ := htr.head hS
      have hr := coordToIndex_range hg hc0
      rw [← hinv.len, ← hidx] at hr
      obtain ⟨rv, hrv⟩ := getIdx_of_range hr.1 hr.2
      have hlenstack := length_dropLast_of_getLast? hlast
      simp only [hrv]
      by_cases hvis : rv.distSoFar ≥ 0
      · rw [if_pos hvis]
        exact ih rc stack.dropLast (inv_pop hinv hlast ⟨rv, hrv, hvis⟩)
          (hb.bound_pop hlast ⟨rv, hrv, hvis⟩) (by omega)
      · rw [if_neg hvis]
        have hpop := hb.pop_bound hg hS hE hunit hinv.goal hlast
        have hself : getIdx (setIdx rc parent.index parent) parent.index = some parent :=
          getIdx_setIdx_eq _ hr.1 hr.2
        have hmono : ∀ i n, getIdx rc i = some n → 0 ≤ n.distSoFar →
            getIdx (setIdx rc parent.index parent) i = some n := by
          intro i n hi hn
          have hine : parent.index ≠ i := by
            intro heq
            rw [← heq, hrv] at hi
            have := Option.some.inj hi
            subst this
            exact hvis hn
          rw [getIdx_setIdx_ne _ hr.1 hine]
          exact hi
        have hule := unvisited_le_length rc
        by_cases hend : parent.index = g.coordToIndex E
        · simp only [hend, if_true]
          rw [← hend, hself]
          simp only
          have hrec := reconstruct_of_traced hg hS (htr.mono hmono) (fuel + 1) []
            (by omega)
          rw [hrec]
          refine ⟨_, rfl, fun _ => ?_⟩
          obtain ⟨c', hc', hidx', hest⟩ := hb.est parent (mem_of_getLast? hlast)
          have hcc : c' = E := coordToIndex_inj hg hc' hE (by rw [← hidx', hend])
          subst hcc
          unfold costData.estTotal at hpop
          rw [hest, estDistance_self, add_zero] at hpop
          exact hpop
        · simp only [hend, if_false]
          have hpc : g.indexToCoord parent.index = some c0 := by
            rw [hidx]; exact indexToCoord_coordToIndex hg hc0
          simp only [hpc]
          obtain ⟨stack', h1, h2, h3, h4, h5⟩ :=
            pushNeighbors_spec costFn E hg
              (setIdx rc parent.index parent)
              (by rw [length_setIdx]; exact hinv.len) parent c0 (g.GetNeighbors c0)
              stack.dropLast (fun c hc => mem_GetNeighbors_inBounds hc)
          have h6 := (pushNeighbors_entry costFn E _ parent c0 _ _ _ h1).2
          rw [h1]
          simp only
          have hU : unvisited (setIdx rc parent.index parent) + 1 = unvisited rc :=
            unvisited_setIdx hrv (not_le.1 hvis) htr.dist_nonneg
          have hn6 := GetNeighbors_length_le g c0
          refine ih _ _ (inv_step hg hS hinv hlast hrv hvis hend hpc h3 h4 h5
            (fun e => (hsort stack').1.mem_iff))
            (hb.bound_step hg hlast hrv hvis htr.dist_nonneg hpop hc0 hidx h3 h4 h6
              (fun e => (hsort stack').1.mem_iff) (hsort stack').2) ?_
          rw [(hsort stack').1.length_eq, length_setIdx]
          omega

theorem initial_boundInv (hS : g.isInBounds S = true) (E : Coord) :
    BoundInv g costFn S E
      ((List.range g.hexes.length).map fun (i : Nat) => (⟨Int.ofNat i, -1, -1, -1⟩ : costData K))
      [⟨g.coordToIndex S, 0, estDistance S E, -1⟩] := by
  have hnov : ∀ i n, getIdx
      ((List.range g.hexes.length).map fun (i : Nat) =>
        (⟨Int.ofNat i, -1, -1, -1⟩ : costData K)) i = some n → ¬ 0 ≤ n.distSoFar := by
    intro i n hn hd
    rw [getIdx_initial hn] at hd
    have : (-1 : K) < 0 := by simp
    exact absurd hd (not_le.2 this)
  refine ⟨List.pairwise_singleton _ _, ?_, ?_, ?_, ?_⟩
  · intro e he
    rw [List.mem_singleton] at he
    subst he
    exact ⟨S, hS, rfl, rfl⟩
  · intro c n _ hn hd
    exact absurd hd (hnov _ n hn)
  · exact Or.inr ⟨_, List.mem_singleton_self _, rfl, rfl⟩
  · intro p c n _ hn hd
    exact absurd hd (hnov _ n hn)

/-- A walk of `n` hex steps changes each coordinate by at most `n`. -/
theorem HexSteps.natAbs_le {a b : Coord} {n : Nat} (h : HexSteps g a b n) :
    (a.X - b.X).natAbs ≤ n ∧ (a.Y - b.Y).natAbs ≤ n := by
  induction h with
  | refl a => simp
  | step hn _ ih =>
    obtain ⟨hx, hy⟩ := neighbor_offsets hn
    have hx' := abs_le.1 hx
    have hy' := abs_le.1 hy
    omega

end Bounded

/-- With the cost function of the tests, every step between cells of `uniformGrid` costs
1. -/
theorem uniformGrid_unit (p c : Coord) (_hp : uniformGrid.isInBounds p = true)
    (hc : c ∈ uniformGrid.GetNeighbors p) :
    enterCost (uniformGrid.GetAt p) (uniformGrid.GetAt c) = 1 := by
  have hb := (isInBounds_iff uniformGrid c).1 (mem_GetNeighbors_inBounds hc)
  obtain ⟨x, y⟩ := c
  have hx : uniformGrid.xdim = 4 := rfl
  have hy : uniformGrid.ydim = 4 := rfl
  rw [hx, hy] at hb
  dsimp only at hb
  obtain ⟨h1, h2, h3, h4⟩ := hb
  show (uniformGrid.GetAt ⟨x, y⟩).getD 0 = 1
  interval_cases x <;> interval_cases y <;> decide

/-- C4 (amended): on every grid where the cost function returns 1 for every pair of adjacent
cells, for every in-bounds `start` and `end` and every order in which `sort.Sort` leaves
entries of equal priority, `FindPath` succeeds; the cost it returns is the number of steps
of the returned path, which is a `GetNeighbors` walk from `start` to `end`, so the cost is
at least the hex-grid distance; the cost is at most `estDistance(start, end)`, that is
`|dx| + |dy|`; and when `start` and `end` share a row or a column the cost is exactly the
hex-grid distance. -/
theorem findPath_uniform_cost [LinearOrderedRing K] {xdim ydim : Int}
    {initFn : Coord → T} {g : HexGrid T} (hgen : Generate xdim ydim initFn = some g)
    {start end_ : Coord} (hs : g.isInBounds start = true) (he : g.isInBounds end_ = true)
    (costFn : Option T → Option T → K)
    (hunit : ∀ p c, g.isInBounds p = true → c ∈ g.GetNeighbors p →
      costFn (g.GetAt p) (g.GetAt c) = 1)
    {sortFn : List (costData K) → List (costData K)}
    (hsort : SortContract sortFn) {fuel : Nat} (hfuel : 7 * g.hexes.length + 2 ≤ fuel) :
    ∃ r, g.FindPath sortFn fuel start end_ costFn = Outcome.done r ∧
      r.err = false ∧ r.cost = ((r.path.length - 1 : Nat) : K) ∧
      HexSteps g start end_ (r.path.length - 1) ∧
      (∀ d, IsHexDistance g start end_ d → ((d : Nat) : K) ≤ r.cost) ∧
      r.cost ≤ estDistance start end_ ∧
      ((start.X = end_.X ∨ start.Y = end_.Y) →
        IsHexDistance g start end_ (r.path.length - 1)) := by
  have hg := generate_wf hgen hs
  have hpass : ∀ p c, g.isInBounds p = true → c ∈ g.GetNeighbors p →
      0 ≤ costFn (g.GetAt p) (g.GetAt c) := by
    intro p c hp hc
    rw [hunit p c hp hc]
    exact zero_le_one
  obtain ⟨r, hr, hpost⟩ := FindPath_spec costFn hg hs he hsort hfuel
  obtain ⟨r', hr', hbnd⟩ := findPathLoop_bound hg he hs hunit hsort fuel _ _
    (initial_inv end_ start (estDistance end_ start)) (initial_boundInv he start) (by
      have := unvisited_le_length
        ((List.range g.hexes.length).map fun (i : Nat) =>
          (⟨Int.ofNat i, -1, -1, -1⟩ : costData K))
      simp only [List.length_map, List.length_range, List.length_singleton] at this ⊢
      omega)
  have hrr : r' = r := by
    have hr2 : g.FindPath sortFn fuel start end_ costFn = Outcome.done r' := hr'
    rw [hr, Outcome.done.injEq] at hr2
    exact hr2.symm
  subst hrr
  refine ⟨r', hr, ?_⟩
  rcases hpost with ⟨herr, hhead, hroute⟩ | ⟨-, -, -, hno⟩
  · have hsteps := hroute.hexSteps start hhead
    have hcost := hroute.unit_cost hunit
    have hle : r'.cost ≤ estDistance start end_ := by
      rw [estDistance_comm]
      exact hbnd herr
    refine ⟨herr, hcost, hsteps, ?_, hle, ?_⟩
    · intro d hd
      rw [hcost]
      exact Nat.cast_le.2 (hd.2 _ hsteps)
    · intro hrow
      refine ⟨hsteps, ?_⟩
      intro n hn
      have hnat : r'.path.length - 1 ≤
          (start.X - end_.X).natAbs + (start.Y - end_.Y).natAbs := by
        rw [hcost, estDistance_natAbs] at hle
        exact Nat.cast_le.1 hle
      have hwalk := hn.natAbs_le
      rcases hrow with hx | hy
      · rw [hx] at hnat
        simp only [sub_self, Int.natAbs_zero, zero_add] at hnat
        omega
      · rw [hy] at hnat
        simp only [sub_self, Int.natAbs_zero, add_zero] at hnat
        omega
  · exact absurd (unit_connected hpass he _ start hs rfl) hno

/-- Witness of C4 (amended) on the uniform 4x4 grid of the tests with their cost function:
from (1,0) to (1,3), two cells of one column, the cost is 3. -/
theorem findPath_uniform_cost_witness :
    (∃ r, uniformGrid.FindPath insertionSort 114 ⟨1, 0⟩ ⟨1, 3⟩ enterCost = Outcome.done r ∧
      r.err = false ∧ r.cost = ((r.path.length - 1 : Nat) : Int) ∧
      HexSteps uniformGrid ⟨1, 0⟩ ⟨1, 3⟩ (r.path.length - 1) ∧
      (∀ d, IsHexDistance uniformGrid ⟨1, 0⟩ ⟨1, 3⟩ d → ((d : Nat) : Int) ≤ r.cost) ∧
      r.cost ≤ estDistance ⟨1, 0⟩ ⟨1, 3⟩ ∧
      (((1 : Int) = 1 ∨ (0 : Int) = 3) →
        IsHexDistance uniformGrid ⟨1, 0⟩ ⟨1, 3⟩ (r.path.length - 1))) ∧
    uniformGrid.FindPath insertionSort 114 ⟨1, 0⟩ ⟨1, 3⟩ enterCost =
      Outcome.done ⟨3, [⟨1, 0⟩, ⟨1, 1⟩, ⟨1, 2⟩, ⟨1, 3⟩], false⟩ :=
  ⟨findPath_uniform_cost
    (show Generate 4 4 (fun _ => (1 : Int)) = some uniformGrid by rfl)
    (by decide) (by decide) enterCost uniformGrid_unit insertionSort_contract (by decide),
   by decide⟩

/-! ### Breadth-first order of `FindInRange` when every passable step costs the same -/

section Layer

variable [LinearOrderedRing K] {g : HexGrid T} {costFn : Option T → Option T → K} {k : K}
  {start : Coord} {maxRange : K}

theorem PassSteps.pass_snoc {a b c : Coord} {n : Nat} (h : PassSteps g costFn a b n)
    (hc : c ∈ g.GetNeighbors b) (hw : 0 ≤ costFn (g.GetAt b) (g.GetAt c)) :
    PassSteps g costFn a c (n + 1) := by
  induction h with
  | refl a => exact PassSteps.step hc hw (PassSteps.refl _)
  | step h1 h2 _ ih => exact PassSteps.step h1 h2 (ih hc hw)

theorem PassSteps.toHexSteps {a b : Coord} {n : Nat} (h : PassSteps g costFn a b n) :
    HexSteps g a b n := by
  induction h with
  | refl a => exact HexSteps.refl _
  | step h1 _ _ ih => exact HexSteps.step h1 ih

theorem HexSteps.passSteps
    (hpass : ∀ p c, g.isInBounds p = true → c ∈ g.GetNeighbors p →
      0 ≤ costFn (g.GetAt p) (g.GetAt c))
    {a b : Coord} {n : Nat} (h : HexSteps g a b n) :
    g.isInBounds a = true → PassSteps g costFn a b n := by
  induction h with
  | refl a => exact fun _ => PassSteps.refl _
  | step h1 _ ih =>
    intro ha
    exact PassSteps.step h1 (hpass _ _ ha h1) (ih (mem_GetNeighbors_inBounds h1))

theorem RangeInv.mem_inBounds {includeSrc : Bool} (hs : g.isInBounds start = true) {i : Nat}
    {queue : List Coord} {vs : List (Coord × K)} {result : List (RangeResult K)}
    (h : RangeInv g start maxRange includeSrc i queue vs result) :
    ∀ c ∈ queue, g.isInBounds c = true := by
  intro c hc
  have hhead := h.head
  have htail := h.tailIn
  cases queue with
  | nil => simp at hc
  | cons a t =>
    simp only [List.head?_cons, Option.some.injEq] at hhead
    rcases List.mem_cons.1 hc with hca | hct
    · rw [hca, hhead]
      exact hs
    · exact htail c hct

theorem LayerInv.layer_skip {i : Nat} {queue : List Coord} {vs : List (Coord × K)}
    {result : List (RangeResult K)} (h : LayerInv g costFn k start maxRange i queue vs result)
    {c : Coord} (hc : queue[i]? = some c) (hgt : distOf vs c > maxRange) :
    LayerInv g costFn k start maxRange (i + 1) queue vs result := by
  have htake := take_succ_of_getElem? hc
  have hdrop := drop_of_getElem? hc
  refine ⟨h.base.skip hc, h.origin, h.walk, h.mono, ?_, ?_, ?_⟩
  · intro u hu x hx
    exact h.near u (by rw [hdrop]; exact List.mem_cons_of_mem _ hu) x hx
  · intro a ha hle
    rw [htake] at ha
    rcases List.mem_append.1 ha with ha | ha
    · exact h.closed a ha hle
    · rw [List.mem_singleton] at ha
      subst ha
      exact absurd hgt (not_lt.2 hle)
  · intro x d
    rw [h.res, htake]
    constructor
    · rintro ⟨h1, h2, h3⟩
      exact ⟨List.mem_append_left _ h1, h2, h3⟩
    · rintro ⟨h1, h2, h3⟩
      rcases List.mem_append.1 h1 with h1 | h1
      · exact ⟨h1, h2, h3⟩
      · rw [List.mem_singleton] at h1
        subst h1
        rw [h2] at h3
        exact absurd hgt (not_lt.2 h3)

theorem LayerInv.layer_visit (hk0 : 0 ≤ k) (hs : g.isInBounds start = true)
    (hcost : ∀ p c, g.isInBounds p = true → c ∈ g.GetNeighbors p →
      costFn (g.GetAt p) (g.GetAt c) < 0 ∨ costFn (g.GetAt p) (g.GetAt c) = k)
    {i : Nat} {queue : List Coord} {vs : List (Coord × K)}
    {result : List (RangeResult K)} (h : LayerInv g costFn k start maxRange i queue vs result)
    {c : Coord} (hc : queue[i]? = some c) (hle : ¬ distOf vs c > maxRange) :
    LayerInv g costFn k start maxRange (i + 1)
      (visitNeighbors g costFn c (distOf vs c) (g.GetNeighbors c) queue vs).1
      (visitNeighbors g costFn c (distOf vs c) (g.GetNeighbors c) queue vs).2
      (result ++ [⟨c, distOf vs c⟩]) := by
  have hbase := h.base.visit costFn hc hle
  simp only [or_true, if_true] at hbase
  obtain ⟨new, h1, -, -, h4, h5, h6, h7⟩ :=
    visitNeighbors_spec g costFn c (distOf vs c) (g.GetNeighbors c) queue vs
      h.base.nodup h.base.keys
  obtain ⟨hlt, hget⟩ := List.getElem?_eq_some.1 hc
  have hcq : c ∈ queue := by rw [← hget]; exact List.getElem_mem _
  have hcin : g.isInBounds c = true := h.base.mem_inBounds hs c hcq
  have hstepk : ∀ x ∈ new, costFn (g.GetAt c) (g.GetAt x) = k := fun x hx =>
    (hcost c x hcin (h4 x hx)).resolve_left (not_lt.2 (h6 x hx).1)
  have hdrop := drop_of_getElem? hc
  have hcd : c ∈ queue.drop i := by rw [hdrop]; exact List.mem_cons_self _ _
  have hold : ∀ x ∈ queue, distOf (visitNeighbors g costFn c
      (distOf vs c) (g.GetNeighbors c) queue vs).2 x = distOf vs x := by
    intro x hx
    show (mapGet _ x).getD 0 = (mapGet vs x).getD 0
    rw [h5 x hx]
  have hnew : ∀ x ∈ new, distOf (visitNeighbors g costFn c
      (distOf vs c) (g.GetNeighbors c) queue vs).2 x = distOf vs c + k := by
    intro x hx
    show (mapGet _ x).getD 0 = _
    rw [(h6 x hx).2, hstepk x hx]
    rfl
  have htake : ((queue ++ new).take (i + 1)) = queue.take i ++ [c] := by
    rw [List.take_append_of_le_length (by omega)]
    exact take_succ_of_getElem? hc
  have hdrop' : (queue ++ new).drop (i + 1) = queue.drop (i + 1) ++ new :=
    List.drop_append_of_le_length (by omega)
  have hcu : ∀ u ∈ queue.drop (i + 1), distOf vs c ≤ distOf vs u := by
    have hm := h.mono
    rw [← List.take_append_drop i queue, hdrop, List.pairwise_append] at hm
    exact (List.pairwise_cons.1 hm.2.1).1
  have hsub : ∀ u ∈ queue.drop (i + 1), u ∈ queue := fun u hu => List.mem_of_mem_drop hu
  rw [h1] at hbase ⊢
  refine ⟨hbase, ⟨List.mem_append_left _ h.origin.1, ?_⟩, ?_, ?_, ?_, ?_, ?_⟩
  · rw [hold start h.origin.1]
    exact h.origin.2
  · intro x hx
    rcases List.mem_append.1 hx with hx | hx
    · obtain ⟨n, hn, hw⟩ := h.walk x hx
      refine ⟨n, ?_, hw⟩
      rw [h5 x hx]
      exact hn
    · obtain ⟨n, hn, hw⟩ := h.walk c hcq
      refine ⟨n + 1, ?_, hw.pass_snoc (h4 x hx) (h6 x hx).1⟩
      rw [(h6 x hx).2, hstepk x hx]
      unfold distOf
      rw [hn, Option.getD_some, Nat.cast_succ, add_mul, one_mul]
  · rw [List.pairwise_append]
    refine ⟨?_, ?_, ?_⟩
    · refine h.mono.imp_of_mem ?_
      intro a b ha hb hab
      rw [hold a ha, hold b hb]
      exact hab
    · refine (List.pairwise_of_forall (l := new) (fun _ _ => trivial)).imp_of_mem ?_
      intro a b ha hb _
      rw [hnew a ha, hnew b hb]
    · intro a ha b hb
      rw [hold a ha, hnew b hb]
      exact h.near c hcd a ha
  · intro u hu x hx
    rw [hdrop'] at hu
    have hcu' : distOf vs c ≤ distOf (visitNeighbors g costFn c
        (distOf vs c) (g.GetNeighbors c) queue vs).2 u := by
      rcases List.mem_append.1 hu with hu | hu
      · rw [hold u (hsub u hu)]
        exact hcu u hu
      · rw [hnew u hu]
        exact le_add_of_nonneg_right hk0
    rcases List.mem_append.1 hx with hx | hx
    · rw [hold x hx]
      exact le_trans (h.near c hcd x hx) (add_le_add_right hcu' k)
    · rw [hnew x hx]
      exact add_le_add_right hcu' k
  · intro a ha hale x hx hxw
    rw [htake] at ha
    rcases List.mem_append.1 ha with ha | ha
    · have haq : a ∈ queue := List.mem_of_mem_take ha
      rw [hold a haq] at hale ⊢
      obtain ⟨hxq, hxd⟩ := h.closed a ha hale x hx hxw
      rw [hold x hxq]
      exact ⟨List.mem_append_left _ hxq, hxd⟩
    · rw [List.mem_singleton] at ha
      subst ha
      have hxin := h7 x hx hxw
      refine ⟨hxin, ?_⟩
      rw [hold a hcq]
      rcases List.mem_append.1 hxin with hxq | hxn
      · rw [hold x hxq]
        exact h.near a hcd x hxq
      · rw [hnew x hxn]
  · intro x d
    rw [htake, List.mem_append, h.res, List.mem_append, List.mem_singleton,
      List.mem_singleton, RangeResult.mk.injEq]
    constructor
    · rintro (⟨hx, hd, hdm⟩ | ⟨rfl, rfl⟩)
      · exact ⟨Or.inl hx, by rw [hold x (List.mem_of_mem_take hx)]; exact hd, hdm⟩
      · exact ⟨Or.inr rfl, (hold x hcq).symm, not_lt.1 hle⟩
    · rintro ⟨hx | rfl, hd, hdm⟩
      · exact Or.inl ⟨hx, by rw [← hold x (List.mem_of_mem_take hx)]; exact hd, hdm⟩
      · exact Or.inr ⟨rfl, by rw [hd, hold x hcq]⟩

theorem findInRangeLoop_layer (hk0 : 0 ≤ k) (hs : g.isInBounds start = true)
    (hcost : ∀ p c, g.isInBounds p = true → c ∈ g.GetNeighbors p →
      costFn (g.GetAt p) (g.GetAt c) < 0 ∨ costFn (g.GetAt p) (g.GetAt c) = k) :
    ∀ (fuel i : Nat) (queue : List Coord) (vs : List (Coord × K))
      (result res : List (RangeResult K)),
      LayerInv g costFn k start maxRange i queue vs result →
      findInRangeLoop g maxRange true costFn fuel i queue vs result = Outcome.done res →
      ∃ queue' vs', LayerInv g costFn k start maxRange queue'.length queue' vs' res := by
  intro fuel
  induction fuel with
  | zero =>
    intro i queue vs result res _ h
    simp [findInRangeLoop] at h
  | succ fuel ih =>
    intro i queue vs result res hinv h
    unfold findInRangeLoop at h
    cases hc : queue[i]? with
    | none =>
      rw [hc] at h
      simp only at h
      rw [Outcome.done.injEq] at h
      subst h
      have hlen : queue.length ≤ i := List.getElem?_eq_none_iff.1 hc
      have hi : i = queue.length := le_antisymm hinv.base.idx hlen
      subst hi
      exact ⟨queue, vs, hinv⟩
    | some c =>
      rw [hc] at h
      simp only at h
      by_cases hgt : (mapGet vs c).getD 0 > maxRange
      · rw [if_pos hgt] at h
        exact ih (i + 1) queue vs result res (hinv.layer_skip hc hgt) h
      · rw [if_neg hgt] at h
        simp only [or_true, if_true] at h
        exact ih (i + 1) _ _ _ res (hinv.layer_visit hk0 hs hcost hc hgt) h

theorem initial_layerInv (g : HexGrid T) (costFn : Option T → Option T → K) {k : K}
    (hk0 : 0 ≤ k) (start : Coord) (maxRange : K) :
    LayerInv g costFn k start maxRange 0 [start] [(start, 0)] [] := by
  have hget : mapGet [(start, (0 : K))] start = some 0 := by
    simp [mapGet, List.lookup]
  refine ⟨initial_rangeInv g start maxRange true, ⟨List.mem_singleton_self _, ?_⟩, ?_,
    List.pairwise_singleton _ _, ?_, ?_, ?_⟩
  · unfold distOf
    rw [hget]
    rfl
  · intro c hc
    rw [List.mem_singleton] at hc
    subst hc
    exact ⟨0, by simpa using hget, PassSteps.refl _⟩
  · intro u hu c hc
    simp only [List.drop_zero, List.mem_singleton] at hu hc
    subst hu
    subst hc
    exact le_add_of_nonneg_right hk0
  · intro a ha
    simp at ha
  · intro c d
    simp

/-- At the end of the loop every cell that a passable walk reaches within the range is
queued, at a cost of at most `k` times the length of the walk. -/
theorem LayerInv.complete (hk0 : 0 ≤ k) {queue : List Coord} {vs : List (Coord × K)}
    {res : List (RangeResult K)}
    (h : LayerInv g costFn k start maxRange queue.length queue vs res)
    {a b : Coord} {n : Nat} (hw : PassSteps g costFn a b n) :
    ∀ m : Nat, a ∈ queue → distOf vs a ≤ (m : K) * k → ((m + n : Nat) : K) * k ≤ maxRange →
      b ∈ queue ∧ distOf vs b ≤ ((m + n : Nat) : K) * k := by
  have hmul : ∀ p q : Nat, p ≤ q → (p : K) * k ≤ (q : K) * k := fun p q hpq =>
    mul_le_mul_of_nonneg_right (Nat.cast_le.2 hpq) hk0
  induction hw with
  | refl a =>
    intro m ha hm _
    exact ⟨ha, by simpa using hm⟩
  | @step a' c' b' n' hn hwc _ ih =>
    intro m ha hm hle
    have hma : distOf vs a' ≤ maxRange :=
      le_trans hm (le_trans (hmul m (m + (n' + 1)) (by omega)) hle)
    obtain ⟨hcq, hcd⟩ := h.closed a' (by rw [List.take_length]; exact ha) hma c' hn hwc
    have hcd' : distOf vs c' ≤ ((m + 1 : Nat) : K) * k := by
      refine le_trans hcd ?_
      rw [Nat.cast_succ, add_mul, one_mul]
      exact add_le_add_right hm k
    have e : m + (n' + 1) = m + 1 + n' := by omega
    rw [e] at hle ⊢
    exact ih (m + 1) hcq hcd' hle

theorem findInRange_layer_final {xdim ydim : Int} {initFn : Coord → T}
    (hgen : Generate xdim ydim initFn = some g) (hk0 : 0 ≤ k)
    (hs : g.isInBounds start = true)
    (hcost : ∀ p c, g.isInBounds p = true → c ∈ g.GetNeighbors p →
      costFn (g.GetAt p) (g.GetAt c) < 0 ∨ costFn (g.GetAt p) (g.GetAt c) = k)
    (maxRange : K) {fuel : Nat} (hfuel : g.hexes.length + 2 ≤ fuel) :
    ∃ res queue vs,
      g.FindInRange fuel start maxRange true costFn = Outcome.done res ∧
      LayerInv g costFn k start maxRange queue.length queue vs res := by
  obtain ⟨res, -, -, hres, -⟩ := FindInRange_spec hgen start maxRange true costFn hfuel
  have hres' := hres
  unfold HexGrid.FindInRange at hres'
  obtain ⟨queue, vs, hinv⟩ := findInRangeLoop_layer hk0 hs hcost fuel 0 _ _ _ res
    (initial_layerInv g costFn hk0 start maxRange) hres'
  exact ⟨res, queue, vs, hres, hinv⟩

theorem layer_result_mono (hk0 : 0 ≤ k) {R R' : K} (hR : R ≤ R')
    {queue queue' : List Coord}
    {vs vs' : List (Coord × K)} {res res' : List (RangeResult K)}
    (h : LayerInv g costFn k start R queue.length queue vs res)
    (h' : LayerInv g costFn k start R' queue'.length queue' vs' res') :
    ∀ p ∈ res, p ∈ res' := by
  rintro ⟨c, d⟩ hp
  obtain ⟨hcq, hd, hdR⟩ := (h.res c d).1 hp
  rw [List.take_length] at hcq
  obtain ⟨n, hn, hw⟩ := h.walk c hcq
  have hdn : distOf vs c = (n : K) * k := by unfold distOf; rw [hn]; rfl
  have h0 : distOf vs start ≤ ((0 : Nat) : K) * k := by rw [h.origin.2]; simp
  have h0' : distOf vs' start ≤ ((0 : Nat) : K) * k := by rw [h'.origin.2]; simp
  have hnR : ((0 + n : Nat) : K) * k ≤ R' := by
    rw [Nat.zero_add, ← hdn, ← hd]
    exact le_trans hdR hR
  obtain ⟨hcq', hcd'⟩ := h'.complete hk0 hw 0 h'.origin.1 h0' hnR
  rw [Nat.zero_add, ← hdn] at hcd'
  obtain ⟨n', hn', hw'⟩ := h'.walk c hcq'
  have hdn' : distOf vs' c = (n' : K) * k := by unfold distOf; rw [hn']; rfl
  have hn'R : ((0 + n' : Nat) : K) * k ≤ R := by
    rw [Nat.zero_add, ← hdn']
    refine le_trans hcd' ?_
    rw [← hd]
    exact hdR
  have hcd := (h.complete hk0 hw' 0 h.origin.1 h0 hn'R).2
  rw [Nat.zero_add, ← hdn'] at hcd
  have heq : distOf vs' c = distOf vs c := le_antisymm hcd' hcd
  rw [h'.res, List.take_length]
  refine ⟨hcq', ?_, le_trans hdR hR⟩
  rw [hd, heq]

end Layer

/-- C7: on every grid where the cost function returns 1 for every pair of adjacent cells,
for every in-bounds `start` and every `maxRange` (in particular `maxRange >= 0`),
`FindInRange(start, maxRange, true, costFn)` returns exactly the cells whose hex-grid
distance from `start` is `<= maxRange`, each exactly once and each paired with that distance
as its cost. -/
theorem findInRange_uniform [LinearOrderedRing K] {xdim ydim : Int} {initFn : Coord → T}
    {g : HexGrid T} (hgen : Generate xdim ydim initFn = some g) {start : Coord}
    (hs : g.isInBounds start = true) (costFn : Option T → Option T → K)
    (hunit : ∀ p c, g.isInBounds p = true → c ∈ g.GetNeighbors p →
      costFn (g.GetAt p) (g.GetAt c) = 1)
    (maxRange : K) {fuel : Nat} (hfuel : g.hexes.length + 2 ≤ fuel) :
    ∃ res, g.FindInRange fuel start maxRange true costFn = Outcome.done res ∧
      (res.map RangeResult.Coord).Nodup ∧
      ∀ (c : Coord) (d : K), (⟨c, d⟩ : RangeResult K) ∈ res ↔
        ∃ n : Nat, IsHexDistance g start c n ∧ (n : K) ≤ maxRange ∧ d = (n : K) := by
  have hpass : ∀ p c, g.isInBounds p = true → c ∈ g.GetNeighbors p →
      0 ≤ costFn (g.GetAt p) (g.GetAt c) := by
    intro p c hp hc
    rw [hunit p c hp hc]
    exact zero_le_one
  obtain ⟨res, queue, vs, hres, hinv⟩ :=
    findInRange_layer_final hgen (zero_le_one : (0 : K) ≤ 1) hs
      (fun p c hp hc => Or.inr (hunit p c hp hc)) maxRange hfuel
  refine ⟨res, hres, ?_, ?_⟩
  · exact ((hinv.base.nodup.sublist (List.take_sublist _ _)).sublist
      (List.drop_sublist _ _)).sublist hinv.base.sub
  have hall : queue.take queue.length = queue := List.take_length _
  have hd0 : distOf vs start ≤ ((0 : Nat) : K) * 1 := by
    rw [hinv.origin.2]
    simp
  have hcomp : ∀ {c : Coord} {n : Nat}, HexSteps g start c n → (n : K) ≤ maxRange →
      c ∈ queue ∧ distOf vs c ≤ (n : K) := by
    intro c n hw hle
    have := hinv.complete zero_le_one (hw.passSteps hpass hs) 0 hinv.origin.1 hd0
      (by rw [Nat.zero_add, mul_one]; exact hle)
    rw [Nat.zero_add, mul_one] at this
    exact this
  have hwalk : ∀ c ∈ queue, ∃ n : Nat, distOf vs c = (n : K) ∧ HexSteps g start c n := by
    intro c hc
    obtain ⟨n, hn, hw⟩ := hinv.walk c hc
    refine ⟨n, ?_, hw.toHexSteps⟩
    unfold distOf
    rw [hn, Option.getD_some, mul_one]
  intro c d
  rw [hinv.res, hall]
  constructor
  · rintro ⟨hcq, hd, hdm⟩
    obtain ⟨n, hdn, hw⟩ := hwalk c hcq
    refine ⟨n, ⟨hw, ?_⟩, by rw [← hdn, ← hd]; exact hdm, by rw [hd, hdn]⟩
    intro n' hw'
    by_cases hle : ((n' : Nat) : K) ≤ maxRange
    · have := (hcomp hw' hle).2
      rw [hdn] at this
      exact Nat.cast_le.1 this
    · have hlt : ((n : Nat) : K) < ((n' : Nat) : K) := by
        rw [← hdn, ← hd]
        exact lt_of_le_of_lt hdm (not_le.1 hle)
      exact le_of_lt (Nat.cast_lt.1 hlt)
  · rintro ⟨n, ⟨hw, hmin⟩, hle, hd⟩
    obtain ⟨hcq, hcd⟩ := hcomp hw hle
    obtain ⟨m, hdm, hwm⟩ := hwalk c hcq
    have hmn : m ≤ n := by
      rw [hdm] at hcd
      exact Nat.cast_le.1 hcd
    have hnm : n ≤ m := hmin m hwm
    have hmeq : m = n := le_antisymm hmn hnm
    subst hmeq
    exact ⟨hcq, by rw [hd, hdm], by rw [hd]; exact hle⟩

/-- Witness of C7 on the uniform 4x4 grid of the tests with their cost function: the ten
cells within two steps of (1,0), each with its distance. -/
theorem findInRange_uniform_witness :
    (∃ res, uniformGrid.FindInRange 18 ⟨1, 0⟩ 2 true enterCost = Outcome.done res ∧
      (res.map RangeResult.Coord).Nodup ∧
      ∀ (c : Coord) (d : Int), (⟨c, d⟩ : RangeResult Int) ∈ res ↔
        ∃ n : Nat, IsHexDistance uniformGrid ⟨1, 0⟩ c n ∧ (n : Int) ≤ 2 ∧ d = (n : Int)) ∧
    uniformGrid.FindInRange 18 ⟨1, 0⟩ 2 true enterCost =
      Outcome.done [⟨⟨1, 0⟩, 0⟩, ⟨⟨2, 0⟩, 1⟩, ⟨⟨1, 1⟩, 1⟩, ⟨⟨0, 1⟩, 1⟩, ⟨⟨0, 0⟩, 1⟩,
        ⟨⟨3, 0⟩, 2⟩, ⟨⟨2, 1⟩, 2⟩, ⟨⟨2, 2⟩, 2⟩, ⟨⟨1, 2⟩, 2⟩, ⟨⟨0, 2⟩, 2⟩] :=
  ⟨findInRange_uniform
    (show Generate 4 4 (fun _ => (1 : Int)) = some uniformGrid by rfl)
    (by decide) enterCost uniformGrid_unit 2 (by decide),
   by decide⟩

/-- With the cost function of the tests, every step between cells of `wallGrid` costs -1
or 1. -/
theorem wallGrid_costs (p c : Coord) (_hp : wallGrid.isInBounds p = true)
    (hc : c ∈ wallGrid.GetNeighbors p) :
    enterCost (wallGrid.GetAt p) (wallGrid.GetAt c) < 0 ∨
      enterCost (wallGrid.GetAt p) (wallGrid.GetAt c) = 1 := by
  have hb := (isInBounds_iff wallGrid c).1 (mem_GetNeighbors_inBounds hc)
  obtain ⟨x, y⟩ := c
  have hx : wallGrid.xdim = 4 := rfl
  have hy : wallGrid.ydim = 4 := rfl
  rw [hx, hy] at hb
  dsimp only at hb
  obtain ⟨h1, h2, h3, h4⟩ := hb
  show (wallGrid.GetAt ⟨x, y⟩).getD 0 < 0 ∨ (wallGrid.GetAt ⟨x, y⟩).getD 0 = 1
  interval_cases x <;> interval_cases y <;> decide

/-- C11 (amended): on every grid and for every cost function whose values on pairs of
adjacent cells are negative (impassable) or equal to one constant `k`, so in particular for
every constant cost function, for every in-bounds `start`, both values of `includeSrc` and
budgets `R <= R'`, every pair returned by `FindInRange(start, R, includeSrc, costFn)` is also
returned, with the same cost, by `FindInRange(start, R', includeSrc, costFn)`. -/
theorem findInRange_uniform_monotone [LinearOrderedRing K] {xdim ydim : Int}
    {initFn : Coord → T} {g : HexGrid T} (hgen : Generate xdim ydim initFn = some g)
    {start : Coord} (hs : g.isInBounds start = true) (costFn : Option T → Option T → K)
    (k : K)
    (hcost : ∀ p c, g.isInBounds p = true → c ∈ g.GetNeighbors p →
      costFn (g.GetAt p) (g.GetAt c) < 0 ∨ costFn (g.GetAt p) (g.GetAt c) = k)
    {R R' : K} (hR : R ≤ R') (includeSrc : Bool) {fuel : Nat}
    (hfuel : g.hexes.length + 2 ≤ fuel) :
    ∃ res res',
      g.FindInRange fuel start R includeSrc costFn = Outcome.done res ∧
      g.FindInRange fuel start R' includeSrc costFn = Outcome.done res' ∧
      ∀ p ∈ res, p ∈ res' := by
  obtain ⟨k', hk0, hcost'⟩ : ∃ k' : K, 0 ≤ k' ∧ ∀ p c, g.isInBounds p = true →
      c ∈ g.GetNeighbors p →
      costFn (g.GetAt p) (g.GetAt c) < 0 ∨ costFn (g.GetAt p) (g.GetAt c) = k' := by
    by_cases hk : 0 ≤ k
    · exact ⟨k, hk, hcost⟩
    · refine ⟨0, le_refl _, ?_⟩
      intro p c hp hc
      rcases hcost p c hp hc with h | h
      · exact Or.inl h
      · exact Or.inl (by rw [h]; exact not_le.1 hk)
  obtain ⟨resT, queue, vs, hT, hinv⟩ := findInRange_layer_final hgen hk0 hs hcost' R hfuel
  obtain ⟨resT', queue', vs', hT', hinv'⟩ :=
    findInRange_layer_final hgen hk0 hs hcost' R' hfuel
  have hmono := layer_result_mono hk0 hR hinv hinv'
  cases includeSrc with
  | true => exact ⟨resT, resT', hT, hT', hmono⟩
  | false =>
    obtain ⟨rT, rF, h1, h2, h3, h4, h5⟩ := findInRange_src_split hgen start R costFn hfuel
    obtain ⟨rT', rF', h1', h2', h3', h4', h5'⟩ :=
      findInRange_src_split hgen start R' costFn hfuel
    rw [hT, Outcome.done.injEq] at h1
    rw [hT', Outcome.done.injEq] at h1'
    subst h1
    subst h1'
    refine ⟨rF, rF', h2, h2', ?_⟩
    intro p hp
    have hpT : p ∈ resT := by
      by_cases h0 : 0 ≤ R
      · rw [h3 h0]
        exact List.mem_cons_of_mem _ hp
      · rw [(h4 (not_le.1 h0)).2] at hp
        simp at hp
    have hpT' := hmono p hpT
    by_cases h0' : 0 ≤ R'
    · rw [h3' h0'] at hpT'
      rcases List.mem_cons.1 hpT' with heq | hmem
      · exact absurd (by rw [heq]) (h5 p hp)
      · exact hmem
    · rw [(h4' (not_le.1 h0')).1] at hpT'
      simp at hpT'

/-- Witness of C11 (amended) on the grid of the test `Verify that negative numbers are
impassable` with the cost function of the tests: every step costs -1 or 1, and what range 1
returns from (0,0) is returned by range 3, which returns more. -/
theorem findInRange_uniform_monotone_witness :
    (∃ res res',
      wallGrid.FindInRange 18 ⟨0, 0⟩ 1 false enterCost = Outcome.done res ∧
      wallGrid.FindInRange 18 ⟨0, 0⟩ 3 false enterCost = Outcome.done res' ∧
      ∀ p ∈ res, p ∈ res') ∧
    wallGrid.FindInRange 18 ⟨0, 0⟩ 1 false enterCost = Outcome.done [⟨⟨1, 0⟩, 1⟩] ∧
    wallGrid.FindInRange 18 ⟨0, 0⟩ 3 false enterCost =
      Outcome.done [⟨⟨1, 0⟩, 1⟩, ⟨⟨2, 0⟩, 2⟩, ⟨⟨3, 0⟩, 3⟩] :=
  ⟨findInRange_uniform_monotone
    (show Generate 4 4 (fun c => ([1, 1, 1, 1, -1, -1, -1, 1, -1, 1, -1, 1, -1, 1, 1, 1] : List Int).getD
      (c.Y * 4 + c.X).toNat 0) = some wallGrid by rfl)
    (by decide) enterCost 1 wallGrid_costs (show (1 : Int) ≤ 3 by decide) false (by decide),
   by decide, by decide⟩

end Hexgrid
